import Mathlib

/-!
# lib-compose: the HTML content loader

A shallow embedding of `aggregation/html_content_loader.go` and of the
`MemoryContent` it fills (`composition/memory_content.go`).

* The tokenizer of `golang.org/x/net/html` is a library: it is represented by
  the sequence of tokens it returns, followed by its terminal error.
* Go strings are Lean strings; the few functions of the Go standard library the
  loader calls (`strings.Trim`, `strconv.Atoi`, `strconv.ParseBool`,
  `fmt.Fprintf`, `json.Unmarshal`) are modelled in the first section.
* Every `for` loop of the loader reads one token per iteration.  A loop is a
  function that is recursive on a fuel counter; `parse` starts with one unit
  more than there are tokens, which is always enough (`parse_enough_fuel`).
-/

namespace LibCompose

/-! ## Models of the Go standard library -/

/-- A Go result pair `(value, err)`: either the value or the error. -/
inductive Res (ε α : Type) where
  | ok (a : α)
  | error (e : ε)
deriving Repr, DecidableEq

/-- Cutset membership of `strings.Trim`. -/
def inCutset (cutset : String) (c : Char) : Bool :=
  cutset.data.contains c

/-- Go `strings.Trim(s, cutset)`: s without the leading and trailing characters of the cutset. -/
def stringsTrim (s cutset : String) : String :=
  ⟨((s.data.dropWhile (inCutset cutset)).reverse.dropWhile (inCutset cutset)).reverse⟩

/-- ASCII decimal digit. -/
def isDigit (c : Char) : Bool :=
  decide ('0' ≤ c) && decide (c ≤ '9')

/-- The two causes of a `*strconv.NumError`: `ErrSyntax` and `ErrRange`. -/
inductive NumErr where
  | invalid
  | range
deriving Repr, DecidableEq

/-- The digit loop of `strconv.ParseUint(s, 10, 64)`, with the value read so far. -/
def parseUintLoop : List Char → Nat → Res NumErr Nat
  | [], n => .ok n
  | c :: cs, n =>
    if !isDigit c then .error .invalid
    else if n ≥ 1844674407370955162 then .error .range
    else
      let n1 := n * 10 + (c.toNat - 48)
      if n1 ≥ 2 ^ 64 then .error .range else parseUintLoop cs n1

/-- Go `strconv.ParseUint(s, 10, 64)`; on a range error Go returns the largest value with the error. -/
def parseUint (s : List Char) : Res NumErr Nat :=
  match s with
  | [] => .error .invalid
  | _ => parseUintLoop s 0

/-- Go `strconv.ParseInt(s, 10, 0)` with a 64-bit `int`. -/
def parseInt (s : List Char) : Res NumErr Int :=
  match s with
  | [] => .error .invalid
  | c :: cs =>
    let neg := c == '-'
    let digits := if c == '+' || c == '-' then cs else c :: cs
    match parseUint digits with
    | .error .invalid => .error .invalid
    | .error .range => .error .range
    | .ok un =>
      if !neg && un ≥ 2 ^ 63 then .error .range
      else if neg && un > 2 ^ 63 then .error .range
      else .ok (if neg then -(un : Int) else (un : Int))

/-- Go `strconv.Atoi(s)` on a 64-bit platform (its fast path computes the same as `ParseInt`). -/
def strconvAtoi (s : String) : Res NumErr Int :=
  parseInt s.data

/-- Go `strconv.ParseBool(s)`: none stands for the syntax error. -/
def strconvParseBool (s : String) : Option Bool :=
  if s ∈ ["1", "t", "T", "TRUE", "true", "True"] then some true
  else if s ∈ ["0", "f", "F", "FALSE", "false", "False"] then some false
  else none

/-- Two's complement wrap-around of a Go `int64` operation. -/
def wrapInt64 (n : Int) : Int :=
  (n + 2 ^ 63) % 2 ^ 64 - 2 ^ 63

/-- An error of the standard library whose `Error()` text the loader copies into its own message. -/
inductive LibError where
  | atoi (input : String) (cause : NumErr)
  | parseBool (input : String)
  | jsonInvalid
  | jsonType
deriving Repr, DecidableEq

/-- A Go `error` returned by the loader: the tokenizer's own error, or the result of an
`fmt.Errorf` whose message is `msg` followed by the text of `cause`, when there is one. -/
inductive GoError where
  | tokenizer (msg : String)
  | errorf (msg : String) (cause : Option LibError)
deriving Repr, DecidableEq

/-- The result of a loader function: a value, a Go error, or the fuel of the model ran out. -/
inductive Outcome (α : Type) where
  | ok (a : α)
  | error (e : GoError)
  | outOfFuel
deriving Repr, DecidableEq

/-- Go `time.Millisecond`, in nanoseconds. -/
def Millisecond : Int := 1000000

/-- Go `time.Second`, in nanoseconds. -/
def Second : Int := 1000000000

/-! ### `fmt.Fprintf` called with a format and no operand

`parseFragment` passes the placeholder as the format of `fmt.Fprintf`.  The
functions below follow `(*pp).doPrintf` of package fmt (Go 1.10 and later) in
the case of an empty operand list. -/

/-- Flag characters of a verb. -/
def isFmtFlag (c : Char) : Bool :=
  c == '#' || c == '0' || c == '+' || c == '-' || c == ' '

/-- Function `parsenum` of package fmt: whether a number was read, and the characters left over.
A number that grows over 1e6 reads as no number and moves to the end of the format. -/
def fmtParsenum : List Char → Nat → Bool → Bool × List Char
  | [], _, isnum => (isnum, [])
  | c :: cs, num, isnum =>
    if isDigit c then
      if num > 1000000 then (false, [])
      else fmtParsenum cs (num * 10 + (c.toNat - 48)) true
    else (isnum, c :: cs)

/-- Functions `argNumber` and `parseArgNumber` of package fmt without operands: the characters
left over, whether an index `[n]` was read, and whether a bracket was met (no index is in range
of an empty operand list, so a bracket always clears `goodArgNum`). -/
def fmtArgNumber (cs : List Char) : List Char × Bool × Bool :=
  match cs with
  | '[' :: rest =>
    if rest.length + 1 < 3 then (rest, false, true)
    else if rest.contains ']' then
      let inner := rest.takeWhile (fun c => c != ']')
      let after := (rest.dropWhile (fun c => c != ']')).drop 1
      let r := fmtParsenum inner 0 false
      (after, r.1 && r.2.isEmpty, true)
    else (rest, false, true)
  | _ => (cs, false, false)

/-- One verb of a format, from the character after the percent sign: the text written for it
and the rest of the format. -/
def fmtVerb (cs : List Char) : List Char × List Char :=
  let r1 := cs.dropWhile isFmtFlag
  let a1 := fmtArgNumber r1
  let good1 := !a1.2.2
  -- width
  let w : List Char × List Char × Bool × Bool :=
    match a1.1 with
    | '*' :: r => ("%!(BADWIDTH)".data, r, false, good1)
    | _ =>
      let n := fmtParsenum a1.1 0 false
      ([], n.2, a1.2.1, good1 && !(a1.2.1 && n.1))
  -- precision
  let p : List Char × List Char × Bool × Bool :=
    match w.2.1 with
    | '.' :: r =>
      let a2 := fmtArgNumber r
      let good := w.2.2.2 && !w.2.2.1 && !a2.2.2
      match a2.1 with
      | '*' :: rb => ("%!(BADPREC)".data, rb, false, good)
      | _ => ([], (fmtParsenum a2.1 0 false).2, a2.2.1, good)
    | _ => ([], w.2.1, w.2.2.1, w.2.2.2)
  let a3 := if p.2.2.1 then (p.2.1, false, false) else fmtArgNumber p.2.1
  let good := p.2.2.2 && !a3.2.2
  match a3.1 with
  | [] => (w.1 ++ p.1 ++ "%!(NOVERB)".data, [])
  | v :: rest =>
    if v == '%' then (w.1 ++ p.1 ++ ['%'], rest)
    else if !good then (w.1 ++ p.1 ++ "%!".data ++ [v] ++ "(BADINDEX)".data, rest)
    else (w.1 ++ p.1 ++ "%!".data ++ [v] ++ "(MISSING)".data, rest)

/-- The loop of `doPrintf`: text up to the next percent sign is copied, then one verb is
processed.  The fuel bounds the number of verbs. -/
def doPrintf : Nat → List Char → List Char
  | 0, _ => []
  | fuel + 1, format =>
    let lit := format.takeWhile (fun c => c != '%')
    match format.dropWhile (fun c => c != '%') with
    | [] => lit
    | _ :: cs => lit ++ (fmtVerb cs).1 ++ doPrintf fuel (fmtVerb cs).2

/-- Go `fmt.Fprintf(w, format)` without operands: the text written to w. -/
def fmtFprintf (format : String) : String :=
  ⟨doPrintf (format.length + 1) format.data⟩

/-- Go `fmt.Sprintf("§[> %s]§", url)`. -/
def placeholder (url : String) : String :=
  "§[> " ++ url ++ "]§"

/-! ### `json.Unmarshal` into a `map[string]interface{}`

`json.Unmarshal` first runs `checkValid`, the scanner of `encoding/json/scanner.go`
(a state machine with a stack of open objects and arrays), over the whole text
and then decodes the top-level value into the map.  The scanner below is that
state machine; it also collects the number literals, which the decoder converts
with `strconv.ParseFloat`. -/

/-- Entries of the scanner's `parseState` stack. -/
inductive JParse where
  | objectKey
  | objectValue
  | arrayValue
deriving Repr, DecidableEq

/-- The scanner's `step` functions (`stateBeginValue`, `stateInString`, ...). -/
inductive JStep where
  | beginValue
  | beginValueOrEmpty
  | beginStringOrEmpty
  | beginString
  | endValue
  | endTop
  | inString
  | inStringEsc
  | inStringEscU (left : Nat)
  | neg
  | zero
  | one
  | dot
  | dot0
  | exp
  | expSign
  | exp0
  | literal (rest : List Char)
  | error
deriving Repr, DecidableEq

/-- State of the `encoding/json` scanner; the innermost `parseState` entry is first. -/
structure Scanner where
  step : JStep
  parseState : List JParse
  endTop : Bool
  num : List Char
  nums : List (List Char)
deriving Repr, DecidableEq

/-- Function `isSpace` of the scanner. -/
def jsonIsSpace (c : Char) : Bool :=
  c == ' ' || c == '\t' || c == '\r' || c == '\n'

/-- Method `error` of the scanner: every later step fails. -/
def Scanner.fail (s : Scanner) : Scanner :=
  { s with step := .error }

/-- Method `pushParseState`, with `maxNestingDepth` = 10000. -/
def pushParseState (s : Scanner) (ps : JParse) : Scanner :=
  let s1 := { s with parseState := ps :: s.parseState }
  if s1.parseState.length ≤ 10000 then s1 else s1.fail

/-- Method `popParseState`. -/
def popParseState (s : Scanner) : Scanner :=
  match s.parseState with
  | [] => s.fail
  | _ :: rest =>
    if rest.isEmpty then { s with parseState := rest, step := .endTop, endTop := true }
    else { s with parseState := rest, step := .endValue }

/-- Step `stateEndTop`: only space may follow the top-level value. -/
def stateEndTop (s : Scanner) (c : Char) : Scanner :=
  if !jsonIsSpace c then s.fail else s

/-- Step `stateEndValue`. -/
def stateEndValue (s : Scanner) (c : Char) : Scanner :=
  match s.parseState with
  | [] => stateEndTop { s with step := .endTop, endTop := true } c
  | ps :: rest =>
    if jsonIsSpace c then { s with step := .endValue }
    else
      match ps with
      | .objectKey =>
        if c == ':' then { s with parseState := .objectValue :: rest, step := .beginValue }
        else s.fail
      | .objectValue =>
        if c == ',' then { s with parseState := .objectKey :: rest, step := .beginString }
        else if c == '}' then popParseState s
        else s.fail
      | .arrayValue =>
        if c == ',' then { s with step := .beginValue }
        else if c == ']' then popParseState s
        else s.fail

/-- A number literal ends before c: it is recorded and c is handled by `stateEndValue`. -/
def endNumber (s : Scanner) (c : Char) : Scanner :=
  stateEndValue { s with nums := s.nums ++ [s.num.reverse], num := [] } c

/-- Step `stateBeginString`. -/
def stateBeginString (s : Scanner) (c : Char) : Scanner :=
  if jsonIsSpace c then s
  else if c == '"' then { s with step := .inString }
  else s.fail

/-- Step `stateBeginValue`. -/
def stateBeginValue (s : Scanner) (c : Char) : Scanner :=
  if jsonIsSpace c then s
  else if c == '{' then pushParseState { s with step := .beginStringOrEmpty } .objectKey
  else if c == '[' then pushParseState { s with step := .beginValueOrEmpty } .arrayValue
  else if c == '"' then { s with step := .inString }
  else if c == '-' then { s with step := .neg, num := [c] }
  else if c == '0' then { s with step := .zero, num := [c] }
  else if c == 't' then { s with step := .literal ['r', 'u', 'e'] }
  else if c == 'f' then { s with step := .literal ['a', 'l', 's', 'e'] }
  else if c == 'n' then { s with step := .literal ['u', 'l', 'l'] }
  else if decide ('1' ≤ c) && decide (c ≤ '9') then { s with step := .one, num := [c] }
  else s.fail

/-- Step `state0`: after the integer part of a number. -/
def stateZero (s : Scanner) (c : Char) : Scanner :=
  if c == '.' then { s with step := .dot, num := c :: s.num }
  else if c == 'e' || c == 'E' then { s with step := .exp, num := c :: s.num }
  else endNumber s c

/-- Step `stateESign`: the first digit of an exponent. -/
def stateESign (s : Scanner) (c : Char) : Scanner :=
  if isDigit c then { s with step := .exp0, num := c :: s.num } else s.fail

/-- Hexadecimal digit of a `\u` escape. -/
def isHexDigit (c : Char) : Bool :=
  isDigit c || (decide ('a' ≤ c) && decide (c ≤ 'f')) || (decide ('A' ≤ c) && decide (c ≤ 'F'))

/-- One byte through the scanner: the dispatch on its current `step` function. -/
def jsonStep (s : Scanner) (c : Char) : Scanner :=
  match s.step with
  | .beginValue => stateBeginValue s c
  | .beginValueOrEmpty =>
    if jsonIsSpace c then s
    else if c == ']' then stateEndValue s c
    else stateBeginValue s c
  | .beginStringOrEmpty =>
    if jsonIsSpace c then s
    else if c == '}' then
      stateEndValue { s with parseState := .objectValue :: s.parseState.drop 1 } c
    else stateBeginString s c
  | .beginString => stateBeginString s c
  | .endValue => stateEndValue s c
  | .endTop => stateEndTop s c
  | .inString =>
    if c == '"' then { s with step := .endValue }
    else if c == '\\' then { s with step := .inStringEsc }
    else if c.toNat < 32 then s.fail
    else s
  | .inStringEsc =>
    if c == 'b' || c == 'f' || c == 'n' || c == 'r' || c == 't' || c == '\\' || c == '/'
        || c == '"' then { s with step := .inString }
    else if c == 'u' then { s with step := .inStringEscU 4 }
    else s.fail
  | .inStringEscU left =>
    if isHexDigit c then
      (if left ≤ 1 then { s with step := .inString } else { s with step := .inStringEscU (left - 1) })
    else s.fail
  | .neg =>
    if c == '0' then { s with step := .zero, num := c :: s.num }
    else if decide ('1' ≤ c) && decide (c ≤ '9') then { s with step := .one, num := c :: s.num }
    else s.fail
  | .one => if isDigit c then { s with num := c :: s.num } else stateZero s c
  | .zero => stateZero s c
  | .dot => if isDigit c then { s with step := .dot0, num := c :: s.num } else s.fail
  | .dot0 =>
    if isDigit c then { s with num := c :: s.num }
    else if c == 'e' || c == 'E' then { s with step := .exp, num := c :: s.num }
    else endNumber s c
  | .exp =>
    if c == '+' || c == '-' then { s with step := .expSign, num := c :: s.num }
    else stateESign s c
  | .expSign => stateESign s c
  | .exp0 => if isDigit c then { s with num := c :: s.num } else endNumber s c
  | .literal rest =>
    match rest with
    | [] => s.fail
    | x :: xs =>
      if c == x then (if xs.isEmpty then { s with step := .endValue } else { s with step := .literal xs })
      else s.fail
  | .error => s

/-- Function `checkValid`: the scanner state after the whole text and the end-of-input check
of method `eof`, or none when the text is not valid JSON. -/
def checkValid (data : List Char) : Option Scanner :=
  let s := data.foldl jsonStep ⟨.beginValue, [], false, [], []⟩
  if s.step == .error then none
  else if s.endTop then some s
  else
    let s1 := jsonStep s ' '
    if s1.step != .error && s1.endTop then some s1 else none

/-- Decimal value of a run of digits. -/
def digitsValue (ds : List Char) : Nat :=
  ds.foldl (fun n c => n * 10 + (c.toNat - 48)) 0

/-- The number 2^1024 - 2^970, half way between the largest float64 and 2^1024: a decimal
number of at least this magnitude rounds to infinity. -/
def float64Limit : Nat :=
  179769313486231580793728971405303415079934132710037826936173778980444968292764750946649017977587207096330286416692887910946555547851940402630657488671505820681908902000708383676273854845817711531764475730270069855571366959622842914819860834936475292719074168444365510704342711559699508093042880177904174497792

/-- Whether `strconv.ParseFloat(lit, 64)` reports a range error on a JSON number literal: its
magnitude rounds to infinity, that is, it is at least `float64Limit`. -/
def float64Overflows (lit : List Char) : Bool :=
  let body := if lit.head? == some '-' then lit.drop 1 else lit
  let intPart := body.takeWhile isDigit
  let r1 := body.dropWhile isDigit
  let frac := match r1 with
    | '.' :: r => r.takeWhile isDigit
    | _ => []
  let r2 := match r1 with
    | '.' :: r => r.dropWhile isDigit
    | _ => r1
  let e : Int := match r2 with
    | _ :: '-' :: ds => -(digitsValue ds : Int)
    | _ :: '+' :: ds => (digitsValue ds : Int)
    | _ :: ds => (digitsValue ds : Int)
    | [] => 0
  let m := digitsValue (intPart ++ frac)
  let e10 := e - (frac.length : Int)
  if e10 ≥ 0 then decide (m * 10 ^ e10.toNat ≥ float64Limit)
  else decide (m ≥ float64Limit * 10 ^ (-e10).toNat)

/-- What a successful `json.Unmarshal` stored in the map: the members of an object, or nil. -/
inductive JsonTop where
  | object
  | null
deriving Repr, DecidableEq

/-- Go `json.Unmarshal(data, &m)` for `m` of type `map[string]interface{}`: invalid JSON is a
syntax error; an object is decoded (its numbers become float64, a number out of range is an
`UnmarshalTypeError`); null sets the map to nil without error; an array, string, number or
boolean is an `UnmarshalTypeError`. -/
def jsonUnmarshal (data : String) : Res LibError JsonTop :=
  match checkValid data.data with
  | none => .error .jsonInvalid
  | some s =>
    let first := (data.data.dropWhile jsonIsSpace).head?
    if first = some '{' then
      (if s.nums.any float64Overflows then .error .jsonType else .ok .object)
    else if first = some 'n' then .ok .null
    else .error .jsonType

/-! ## Data model -/

/-- The kinds of token `html.Tokenizer.Next` returns before the end of the stream; the end is
Go's `ErrorToken`. -/
inductive TokenType where
  | TextToken
  | StartTagToken
  | EndTagToken
  | SelfClosingTagToken
  | CommentToken
  | DoctypeToken
deriving Repr, DecidableEq

/-- An `html.Attribute` as `readAttributes` builds it. -/
structure Attribute where
  Key : String
  Val : String
deriving Repr, DecidableEq

/-- One token: its type, what `z.TagName()` returns (lower-cased by the tokenizer), the
attributes `readAttributes` collects from `z.TagAttr()`, the bytes of `z.Raw()` and the text
of `z.Text()`. -/
structure Token where
  tt : TokenType
  tag : String
  attrs : List Attribute
  raw : String
  text : String
deriving Repr, DecidableEq

/-- The state of an `html.Tokenizer`: the tokens it has still to return, the error `z.Err()`
it reports once they are exhausted (none stands for `io.EOF`) and the bytes `z.Raw()` returns
at the error token.  The loader reads `z.Raw()` of an error token only in `parseMetaJson`,
where it is the first error token of the stream. -/
structure Tokenizer where
  toks : List Token
  err : Option String
  errRaw : String
deriving Repr, DecidableEq

/-- Go `z.Next()`: the next token, none for `ErrorToken`, and the tokenizer after it.  Once the
tokens are exhausted every call returns `ErrorToken`. -/
def Tokenizer.Next (z : Tokenizer) : Option Token × Tokenizer :=
  match z.toks with
  | [] => (none, z)
  | t :: ts => (some t, { z with toks := ts })

/-- Method `String` of `html.TokenType`, none being `ErrorToken`. -/
def tokenTypeString (t : Option Token) : String :=
  match t with
  | none => "Error"
  | some t =>
    match t.tt with
    | .TextToken => "Text"
    | .StartTagToken => "StartTag"
    | .EndTagToken => "EndTag"
    | .SelfClosingTagToken => "SelfClosingTag"
    | .CommentToken => "Comment"
    | .DoctypeToken => "Doctype"

/-- Modelled from the spec: the declaration of the struct `FetchDefinition` is not among the
sources.  These are the fields of spec section 3 that hold plain data; `Timeout` is a
`time.Duration`, a count of nanoseconds. -/
structure FetchDefinition where
  URL : String
  Timeout : Int
  Required : Bool
  Method : String
  Header : List (String × List String)
  Body : String
  Priority : Int
deriving Repr, DecidableEq

/-- The Go composite literal `FetchDefinition{}`: every field has its zero value. -/
def FetchDefinition.zero : FetchDefinition :=
  ⟨"", 0, false, "", [], "", 0⟩

/-- A Go map with string keys, as the list of its entries; keys are kept distinct by `set`. -/
abbrev GoMap (V : Type) := List (String × V)

/-- Go `m[k]` with the comma-ok result. -/
def GoMap.get {V : Type} (m : GoMap V) (k : String) : Option V :=
  match m with
  | [] => none
  | (k1, v) :: rest => if k1 = k then some v else GoMap.get rest k

/-- Go `m[k] = v`. -/
def GoMap.set {V : Type} (m : GoMap V) (k : String) (v : V) : GoMap V :=
  (k, v) :: m.filter (fun p => p.1 != k)

/-- The struct `MemoryContent`.  A `Fragment` held by the loader is nil or a `StringFragment`,
hence an optional string.  The map `meta` is represented by the JSON objects that were
unmarshalled into it, in order (`json.Unmarshal` adds the members of an object to the map);
none is the nil map that unmarshalling null leaves. -/
structure MemoryContent where
  url : String
  requiredContent : GoMap FetchDefinition
  meta : Option (List String)
  head : Option String
  body : GoMap String
  tail : Option String
  bodyAttributes : Option String
  reader : Option String
  httpHeader : List (String × List String)
deriving Repr, DecidableEq

/-- Constructor of `memory_content.go`: three empty maps, everything else zero. -/
def NewMemoryContent : MemoryContent :=
  { url := "", requiredContent := [], meta := some [], head := none, body := [],
    tail := none, bodyAttributes := none, reader := none, httpHeader := [] }

/-- Method `RequiredContent`: the values of the map (Go iterates a map in no fixed order). -/
def MemoryContent.RequiredContent (c : MemoryContent) : List FetchDefinition :=
  c.requiredContent.map (fun p => p.2)

/-! ## The loader -/

def UiaRemove : String := "uia-remove"
def UiaInclude : String := "uia-include"
def UiaFragment : String := "uia-fragment"
def UiaTail : String := "uia-tail"
def ScriptTypeMeta : String := "text/uia-meta"

/-- The table `voidElements`. -/
def voidElements (tagname : String) : Bool :=
  tagname ∈ ["area", "base", "br", "col", "command", "embed", "hr", "img", "input", "keygen",
    "link", "meta", "param", "source", "track", "wbr"]

def isSelfClosingTag (tagname : String) (token : TokenType) : Bool :=
  token == .SelfClosingTagToken || voidElements tagname

/-- Function `getAttr`: the first attribute with the given key. -/
def getAttr (attrs : List Attribute) (name : String) : Option Attribute :=
  match attrs with
  | [] => none
  | a :: rest => if a.Key = name then some a else getAttr rest name

/-- Function `getFragmentName`: the value of the first `name` attribute, or the empty string. -/
def getFragmentName (attrs : List Attribute) : String :=
  match attrs with
  | [] => ""
  | a :: rest => if a.Key = "name" then a.Val else getFragmentName rest

def attrHasValue (attrs : List Attribute) (name value : String) : Bool :=
  match getAttr attrs name with
  | some a => a.Val == value
  | none => false

/-- The loop of `skipSubtreeIfUiaRemove` with its depth counter: the tokens left when it
returns.  It returns at the error token or at the end tag that takes the depth below zero. -/
def skipSubtreeLoop : List Token → Int → List Token
  | [], _ => []
  | t :: ts, depth =>
    if t.tt = .StartTagToken ∧ ¬ isSelfClosingTag t.tag t.tt then skipSubtreeLoop ts (depth + 1)
    else if t.tt = .EndTagToken then
      (if depth - 1 < 0 then ts else skipSubtreeLoop ts (depth - 1))
    else skipSubtreeLoop ts depth

/-- Function `skipSubtreeIfUiaRemove`, called after the token of type tt with the given name
and attributes was read: whether the element was skipped, and the tokenizer afterwards. -/
def skipSubtreeIfUiaRemove (z : Tokenizer) (tt : TokenType) (tagName : String)
    (attrs : List Attribute) : Bool × Tokenizer :=
  match getAttr attrs UiaRemove with
  | none => (false, z)
  | some _ =>
    if isSelfClosingTag tagName tt then (true, z)
    else (true, { z with toks := skipSubtreeLoop z.toks 0 })

/-- Function `getInclude`; raw is `z.Raw()`, the bytes of the include tag.  The definition
starts as `FetchDefinition{}`. -/
def getInclude (raw : String) (attrs : List Attribute) : Res GoError (FetchDefinition × String) :=
  match getAttr attrs "src" with
  | none => .error (.errorf ("include definition withour src " ++ raw) none)
  | some url =>
    let fd := { FetchDefinition.zero with URL := url.Val }
    let withTimeout : Res GoError FetchDefinition :=
      match getAttr attrs "timeout" with
      | none => .ok fd
      | some timeout =>
        match strconvAtoi timeout.Val with
        | .error e =>
          .error (.errorf ("error parsing timeout in " ++ raw ++ ": ") (some (.atoi timeout.Val e)))
        | .ok timeoutInt => .ok { fd with Timeout := wrapInt64 (Millisecond * timeoutInt) }
    match withTimeout with
    | .error e => .error e
    | .ok fd =>
      match getAttr attrs "required" with
      | none => .ok (fd, placeholder fd.URL)
      | some required =>
        match strconvParseBool required.Val with
        | none =>
          .error (.errorf ("error parsing bool in " ++ raw ++ ": ") (some (.parseBool required.Val)))
        | some requiredBool =>
          .ok ({ fd with Required := requiredBool }, placeholder fd.URL)

/-- Function `parseMetaJson`, called after the start tag of the meta script was read. -/
def parseMetaJson (z : Tokenizer) (c : MemoryContent) : Res GoError (MemoryContent × Tokenizer) :=
  match z.Next with
  | (none, _) =>
    .error (.errorf ("expected text node for meta json, but found " ++ tokenTypeString none
      ++ ", (" ++ z.errRaw ++ ")") none)
  | (some t, z1) =>
    if t.tt ≠ .TextToken then
      .error (.errorf ("expected text node for meta json, but found " ++ tokenTypeString (some t)
        ++ ", (" ++ t.raw ++ ")") none)
    else
      match jsonUnmarshal t.text with
      | .error e =>
        .error (.errorf "error while parsing json from meta json element: " (some e))
      | .ok top =>
        let c1 : MemoryContent :=
          match top with
          | .object => { c with meta := some (c.meta.getD [] ++ [t.text]) }
          | .null => { c with meta := none }
        match z1.Next with
        | (none, _) =>
          .error (.errorf ("Tag not properly ended. Expected </script>, but found " ++ z1.errRaw)
            none)
        | (some t2, z2) =>
          if t2.tt ≠ .EndTagToken ∨ t2.tag ≠ "script" then
            .error (.errorf ("Tag not properly ended. Expected </script>, but found " ++ t2.raw)
              none)
          else .ok (c1, z2)

/-- The loop of `parseFragment`, with the dependencies and the buffer collected so far: the
text of the fragment, its dependencies and the tokenizer after the closing tag. -/
def parseFragmentLoop : Nat → Tokenizer → List FetchDefinition → String →
    Outcome (String × List FetchDefinition × Tokenizer)
  | 0, _, _, _ => .outOfFuel
  | fuel + 1, z, dependencies, buff =>
    match z.Next with
    | (none, z1) =>
      match z1.err with
      | some e => .error (.tokenizer e)
      | none => .ok (buff, dependencies, z1)
    | (some t, z1) =>
      if t.tt = .StartTagToken ∨ t.tt = .SelfClosingTagToken then
        if t.tag = UiaInclude then
          match getInclude t.raw t.attrs with
          | .error e => .error e
          | .ok (fd, replaceText) =>
            parseFragmentLoop fuel z1 (dependencies ++ [fd]) (buff ++ fmtFprintf replaceText)
        else if (skipSubtreeIfUiaRemove z1 t.tt t.tag t.attrs).1 then
          parseFragmentLoop fuel (skipSubtreeIfUiaRemove z1 t.tt t.tag t.attrs).2 dependencies buff
        else parseFragmentLoop fuel z1 dependencies (buff ++ t.raw)
      else if t.tt = .EndTagToken ∧ (t.tag = UiaFragment ∨ t.tag = UiaTail) then
        .ok (buff, dependencies, z1)
      else parseFragmentLoop fuel z1 dependencies (buff ++ t.raw)

/-- Function `parseFragment`. -/
def parseFragment (fuel : Nat) (z : Tokenizer) :
    Outcome (String × List FetchDefinition × Tokenizer) :=
  parseFragmentLoop fuel z [] ""

/-- The statement `for _, dep := range deps { c.requiredContent[dep.URL] = dep }`. -/
def addDependencies (c : MemoryContent) (deps : List FetchDefinition) : MemoryContent :=
  deps.foldl (fun c dep => { c with requiredContent := c.requiredContent.set dep.URL dep }) c

/-- The loop of `parseBody`, with the content and the default-body buffer so far. -/
def parseBodyLoop : Nat → Tokenizer → MemoryContent → String →
    Outcome (MemoryContent × String × Tokenizer)
  | 0, _, _, _ => .outOfFuel
  | fuel + 1, z, c, bodyBuff =>
    match z.Next with
    | (none, z1) =>
      match z1.err with
      | some e => .error (.tokenizer e)
      | none => .ok (c, bodyBuff, z1)
    | (some t, z1) =>
      if t.tt = .StartTagToken ∨ t.tt = .SelfClosingTagToken then
        if (skipSubtreeIfUiaRemove z1 t.tt t.tag t.attrs).1 then
          parseBodyLoop fuel (skipSubtreeIfUiaRemove z1 t.tt t.tag t.attrs).2 c bodyBuff
        else if t.tag = UiaFragment then
          match parseFragment fuel z1 with
          | .error e => .error e
          | .outOfFuel => .outOfFuel
          | .ok (f, deps, z2) =>
            parseBodyLoop fuel z2
              (addDependencies { c with body := c.body.set (getFragmentName t.attrs) f } deps)
              bodyBuff
        else if t.tag = UiaTail then
          match parseFragment fuel z1 with
          | .error e => .error e
          | .outOfFuel => .outOfFuel
          | .ok (f, deps, z2) =>
            parseBodyLoop fuel z2 (addDependencies { c with tail := some f } deps) bodyBuff
        else if t.tag = UiaInclude then
          match getInclude t.raw t.attrs with
          | .error e => .error e
          | .ok (fd, replaceText) =>
            parseBodyLoop fuel z1 { c with requiredContent := c.requiredContent.set fd.URL fd }
              (bodyBuff ++ replaceText)
        else parseBodyLoop fuel z1 c (bodyBuff ++ t.raw)
      else if t.tt = .EndTagToken ∧ t.tag = "body" then .ok (c, bodyBuff, z1)
      else parseBodyLoop fuel z1 c (bodyBuff ++ t.raw)

/-- Function `parseBody`: the loop, then the default fragment is taken from the buffer unless
the key "" is already in the body map. -/
def parseBody (fuel : Nat) (z : Tokenizer) (c : MemoryContent) :
    Outcome (MemoryContent × Tokenizer) :=
  match parseBodyLoop fuel z c "" with
  | .error e => .error e
  | .outOfFuel => .outOfFuel
  | .ok (c1, s, z1) =>
    match c1.body.get "" with
    | some _ => .ok (c1, z1)
    | none =>
      if (stringsTrim s " \n").length > 0 then
        .ok ({ c1 with body := c1.body.set "" (stringsTrim s " \n") }, z1)
      else .ok (c1, z1)

/-- The loop of `parseHead`, with the content and the head buffer so far. -/
def parseHeadLoop : Nat → Tokenizer → MemoryContent → String →
    Outcome (MemoryContent × String × Tokenizer)
  | 0, _, _, _ => .outOfFuel
  | fuel + 1, z, c, headBuff =>
    match z.Next with
    | (none, z1) =>
      match z1.err with
      | some e => .error (.tokenizer e)
      | none => .ok (c, headBuff, z1)
    | (some t, z1) =>
      if t.tt = .StartTagToken ∨ t.tt = .SelfClosingTagToken then
        if (skipSubtreeIfUiaRemove z1 t.tt t.tag t.attrs).1 then
          parseHeadLoop fuel (skipSubtreeIfUiaRemove z1 t.tt t.tag t.attrs).2 c headBuff
        else if t.tag = "script" ∧ attrHasValue t.attrs "type" ScriptTypeMeta then
          match parseMetaJson z1 c with
          | .error e => .error e
          | .ok (c1, z2) => parseHeadLoop fuel z2 c1 headBuff
        else parseHeadLoop fuel z1 c (headBuff ++ t.raw)
      else if t.tt = .EndTagToken ∧ t.tag = "head" then .ok (c, headBuff, z1)
      else parseHeadLoop fuel z1 c (headBuff ++ t.raw)

/-- Function `parseHead`: the loop, then the trimmed buffer becomes the head fragment when it
is not empty. -/
def parseHead (fuel : Nat) (z : Tokenizer) (c : MemoryContent) :
    Outcome (MemoryContent × Tokenizer) :=
  match parseHeadLoop fuel z c "" with
  | .error e => .error e
  | .outOfFuel => .outOfFuel
  | .ok (c1, s, z1) =>
    if (stringsTrim s " \n").length > 0 then
      .ok ({ c1 with head := some (stringsTrim s " \n") }, z1)
    else .ok (c1, z1)

/-- The loop of method `parse`. -/
def parseLoop : Nat → Tokenizer → MemoryContent → Outcome MemoryContent
  | 0, _, _ => .outOfFuel
  | fuel + 1, z, c =>
    match z.Next with
    | (none, z1) =>
      match z1.err with
      | some e => .error (.tokenizer e)
      | none => .ok c
    | (some t, z1) =>
      if t.tt = .StartTagToken then
        if t.tag = "head" then
          match parseHead fuel z1 c with
          | .error e => .error e
          | .outOfFuel => .outOfFuel
          | .ok (c1, z2) => parseLoop fuel z2 c1
        else if t.tag = "body" then
          match parseBody fuel z1 c with
          | .error e => .error e
          | .outOfFuel => .outOfFuel
          | .ok (c1, z2) => parseLoop fuel z2 c1
        else parseLoop fuel z1 c
      else parseLoop fuel z1 c

/-- Method `parse` of `HtmlContentLoader` on the token stream of its input: every loop
iteration reads a token or ends the loop, so one unit of fuel more than there are tokens is
enough (`parse_enough_fuel`). -/
def parse (z : Tokenizer) : Outcome MemoryContent :=
  parseLoop (z.toks.length + 1) z NewMemoryContent

/-! ## Well-nested token runs

The claims about `uia-remove` speak of an element whose content is well nested.  This is the
specification side: a checker with the stack of the names of the open elements. -/

/-- Tokens that are well nested above a stack of open elements: a non-void start tag opens an
element, an end tag must close the innermost open element, and nothing stays open at the end. -/
def wellNested : List String → List Token → Bool
  | stack, [] => stack.isEmpty
  | stack, t :: ts =>
    if t.tt = .StartTagToken ∧ ¬ voidElements t.tag then wellNested (t.tag :: stack) ts
    else if t.tt = .EndTagToken then
      match stack with
      | top :: below => t.tag == top && wellNested below ts
      | [] => false
    else wellNested stack ts

/-! ## Plain tokens

The claims on the content of a head or of a fragment exclude the tokens the loops treat
specially.  These predicates and the concatenation of raw bytes are the specification side. -/

/-- The concatenation of the raw bytes of a run of tokens. -/
def rawConcat : List Token → String
  | [] => ""
  | t :: ts => t.raw ++ rawConcat ts

/-- A token inside a fragment that is neither a `uia-include` tag, nor a tag with the
`uia-remove` attribute, nor an end tag `</uia-fragment>` or `</uia-tail>`. -/
def plainInFragment (t : Token) : Bool :=
  !((t.tt == .StartTagToken || t.tt == .SelfClosingTagToken) &&
      (t.tag == UiaInclude || (getAttr t.attrs UiaRemove).isSome)) &&
  !(t.tt == .EndTagToken && (t.tag == UiaFragment || t.tag == UiaTail))

/-- A token inside the head that is neither a tag with the `uia-remove` attribute, nor a
script tag of type `text/uia-meta`, nor the end tag `</head>`. -/
def plainInHead (t : Token) : Bool :=
  !((t.tt == .StartTagToken || t.tt == .SelfClosingTagToken) &&
      ((getAttr t.attrs UiaRemove).isSome ||
        (t.tag == "script" && attrHasValue t.attrs "type" ScriptTypeMeta))) &&
  !(t.tt == .EndTagToken && t.tag == "head")

/-! ## The fragments of a body

Specification side of the claim on the default fragment: the `uia-fragment` elements that the
loop of `parseBody` parses (those it meets outside removed subtrees and outside other
fragments), and the last of them that has an empty name. -/

/-- The `uia-fragment` elements parsed by the loop of `parseBody` on a token stream, in the
order they are met: the name each is stored under and its content. -/
def bodyFragments : Nat → Tokenizer → List (String × String)
  | 0, _ => []
  | fuel + 1, z =>
    match z.Next with
    | (none, _) => []
    | (some t, z1) =>
      if t.tt = .StartTagToken ∨ t.tt = .SelfClosingTagToken then
        if (skipSubtreeIfUiaRemove z1 t.tt t.tag t.attrs).1 then
          bodyFragments fuel (skipSubtreeIfUiaRemove z1 t.tt t.tag t.attrs).2
        else if t.tag = UiaFragment then
          match parseFragment fuel z1 with
          | .ok (f, _, z2) => (getFragmentName t.attrs, f) :: bodyFragments fuel z2
          | _ => []
        else if t.tag = UiaTail then
          match parseFragment fuel z1 with
          | .ok (_, _, z2) => bodyFragments fuel z2
          | _ => []
        else bodyFragments fuel z1
      else if t.tt = .EndTagToken ∧ t.tag = "body" then []
      else bodyFragments fuel z1

/-- The content of the last fragment of the list whose name is empty. -/
def lastDefault : List (String × String) → Option String
  | [] => none
  | (name, f) :: rest =>
    match lastDefault rest with
    | some g => some g
    | none => if name = "" then some f else none

/-! ## Example inputs

Tokens as the tokenizer returns them for small documents; the theorems below are applied to
them. -/

/-- A text token. -/
def exText (s : String) : Token := ⟨.TextToken, "", [], s, s⟩

/-- A start tag with its attributes and raw bytes. -/
def exStart (name : String) (attrs : List Attribute) (raw : String) : Token :=
  ⟨.StartTagToken, name, attrs, raw, ""⟩

/-- An end tag. -/
def exEnd (name : String) : Token := ⟨.EndTagToken, name, [], "</" ++ name ++ ">", ""⟩

/-- The token of `<div uia-remove>`. -/
def exDivRemove : Token := exStart "div" [⟨"uia-remove", ""⟩] "<div uia-remove>"

/-- The token of `<br uia-remove>`. -/
def exBrRemove : Token := exStart "br" [⟨"uia-remove", ""⟩] "<br uia-remove>"

/-- The tokens of `<p>gone</p>`. -/
def exGone : List Token := [exStart "p" [] "<p>", exText "gone", exEnd "p"]

/-- The tokens of `<span>kept</span></body>`. -/
def exKept : List Token := [exStart "span" [] "<span>", exText "kept", exEnd "span", exEnd "body"]

/-- The token of `<uia-include src="/a%20b">`. -/
def exIncludePercent : Token :=
  exStart "uia-include" [⟨"src", "/a%20b"⟩] "<uia-include src=\"/a%20b\">"

/-- The token of `<uia-include src="/teaser" timeout="500" required="false">`. -/
def exIncludeFull : Token :=
  exStart "uia-include" [⟨"src", "/teaser"⟩, ⟨"timeout", "500"⟩, ⟨"required", "false"⟩]
    "<uia-include src=\"/teaser\" timeout=\"500\" required=\"false\">"

/-- The token of `<uia-include src="/x">`. -/
def exIncludePlain : Token := exStart "uia-include" [⟨"src", "/x"⟩] "<uia-include src=\"/x\">"

/-- The tokens of `<div>a</div> <b>c</b>`, plain content of a fragment. -/
def exPlain : List Token :=
  [exStart "div" [] "<div>", exText "a", exEnd "div", exText " ", exStart "b" [] "<b>",
    exText "c", exEnd "b"]

/-- The token of `<uia-fragment name="teaser" name="other">`. -/
def exFragmentStart : Token :=
  exStart "uia-fragment" [⟨"name", "teaser"⟩, ⟨"name", "other"⟩]
    "<uia-fragment name=\"teaser\" name=\"other\">"

/-- The tokens of a head content that begins with a tab: `\t<title>x</title>\r`. -/
def exHeadTab : List Token :=
  [exText "\t", exStart "title" [] "<title>", exText "x", exEnd "title", exText "\r"]

/-- The token of `<script type="text/uia-meta">`. -/
def exMetaScript : Token :=
  exStart "script" [⟨"type", "text/uia-meta"⟩] "<script type=\"text/uia-meta\">"

/-- The tokens of `<body>a</body><body>b</body>`. -/
def exTwoBodies : List Token :=
  [exStart "body" [] "<body>", exText "a", exEnd "body", exStart "body" [] "<body>",
    exText "b", exEnd "body"]

/-- The tokens of a body with two default fragments and one named fragment around text:
` x <uia-fragment>one</uia-fragment><uia-fragment name="n">two</uia-fragment>`
`<uia-fragment name="">three</uia-fragment> y </body>`. -/
def exDefaults : List Token :=
  [exText " x ", exStart "uia-fragment" [] "<uia-fragment>", exText "one",
    exEnd "uia-fragment", exStart "uia-fragment" [⟨"name", "n"⟩] "<uia-fragment name=\"n\">",
    exText "two", exEnd "uia-fragment",
    exStart "uia-fragment" [⟨"name", ""⟩] "<uia-fragment name=\"\">", exText "three",
    exEnd "uia-fragment", exText " y ", exEnd "body"]

/-- The JSON object with the one member `"a"` whose value is 1 followed by 309 zeros, the
number 1e309, which is beyond the range of a float64. -/
def exHugeNumber : String :=
  "\x7b\"a\":1" ++ String.mk (List.replicate 309 '0') ++ "\x7d"

/-- The token of `<uia-include>`. -/
def exIncludeNoSrc : Token := exStart "uia-include" [] "<uia-include>"

/-- The token of `<uia-include src="/x" uia-remove>`. -/
def exIncludeRemove : Token :=
  exStart "uia-include" [⟨"src", "/x"⟩, ⟨"uia-remove", ""⟩] "<uia-include src=\"/x\" uia-remove>"

/-- The token of `<uia-include src="/x" timeout="0">`. -/
def exIncludeTimeoutZero : Token :=
  exStart "uia-include" [⟨"src", "/x"⟩, ⟨"timeout", "0"⟩] "<uia-include src=\"/x\" timeout=\"0\">"

/-- The token of `<uia-include src="/x" timeout="9223372036855">`. -/
def exIncludeTimeoutHuge : Token :=
  exStart "uia-include" [⟨"src", "/x"⟩, ⟨"timeout", "9223372036855"⟩]
    "<uia-include src=\"/x\" timeout=\"9223372036855\">"

/-! ## The includes of a document

Specification side of the claim on `RequiredContent()`: the `uia-include` tags that the
loader hands to `getInclude`, collected by following the loops. -/

/-- The value of the src attribute of a tag, the empty string when it has none. -/
def srcOf (t : Token) : String :=
  match getAttr t.attrs "src" with
  | some a => a.Val
  | none => ""

/-- The `uia-include` tags that the loop of `parseFragment` processes on a token stream. -/
def fragmentIncludes : Nat → Tokenizer → List Token
  | 0, _ => []
  | fuel + 1, z =>
    match z.Next with
    | (none, _) => []
    | (some t, z1) =>
      if t.tt = .StartTagToken ∨ t.tt = .SelfClosingTagToken then
        if t.tag = UiaInclude then t :: fragmentIncludes fuel z1
        else if (skipSubtreeIfUiaRemove z1 t.tt t.tag t.attrs).1 then
          fragmentIncludes fuel (skipSubtreeIfUiaRemove z1 t.tt t.tag t.attrs).2
        else fragmentIncludes fuel z1
      else if t.tt = .EndTagToken ∧ (t.tag = UiaFragment ∨ t.tag = UiaTail) then []
      else fragmentIncludes fuel z1

/-- The `uia-include` tags that the loop of `parseBody` processes: those it meets itself and
those met by `parseFragment` in the fragments and tails it parses. -/
def bodyIncludes : Nat → Tokenizer → List Token
  | 0, _ => []
  | fuel + 1, z =>
    match z.Next with
    | (none, _) => []
    | (some t, z1) =>
      if t.tt = .StartTagToken ∨ t.tt = .SelfClosingTagToken then
        if (skipSubtreeIfUiaRemove z1 t.tt t.tag t.attrs).1 then
          bodyIncludes fuel (skipSubtreeIfUiaRemove z1 t.tt t.tag t.attrs).2
        else if t.tag = UiaFragment ∨ t.tag = UiaTail then
          match parseFragment fuel z1 with
          | .ok (_, _, z2) => fragmentIncludes fuel z1 ++ bodyIncludes fuel z2
          | _ => []
        else if t.tag = UiaInclude then t :: bodyIncludes fuel z1
        else bodyIncludes fuel z1
      else if t.tt = .EndTagToken ∧ t.tag = "body" then []
      else bodyIncludes fuel z1

/-- The `uia-include` tags processed by the loop of `parse`: those of its bodies.  The content
is passed along only to follow `parseHead` and `parseBody` through the stream. -/
def parseIncludes : Nat → Tokenizer → MemoryContent → List Token
  | 0, _, _ => []
  | fuel + 1, z, c =>
    match z.Next with
    | (none, _) => []
    | (some t, z1) =>
      if t.tt = .StartTagToken then
        if t.tag = "head" then
          match parseHead fuel z1 c with
          | .ok (c1, z2) => parseIncludes fuel z2 c1
          | _ => []
        else if t.tag = "body" then
          match parseBody fuel z1 c with
          | .ok (c1, z2) => bodyIncludes fuel z1 ++ parseIncludes fuel z2 c1
          | _ => []
        else parseIncludes fuel z1 c
      else parseIncludes fuel z1 c

/-- The keys of a map are pairwise distinct and every definition is stored under its URL. -/
def WellKeyed (m : GoMap FetchDefinition) : Prop :=
  (m.map (fun p => p.1)).Nodup ∧ ∀ p ∈ m, p.2.URL = p.1

/-- The tokens of a body with the same include twice, once in a fragment, and another one in
the tail: `<body><uia-include src="/x"><uia-fragment><uia-include src="/x"></uia-fragment>`
`<uia-tail><uia-include src="/teaser" timeout="500" required="false"></uia-tail></body>`. -/
def exIncludesDoc : List Token :=
  [exStart "body" [] "<body>", exIncludePlain, exStart "uia-fragment" [] "<uia-fragment>",
    exIncludePlain, exEnd "uia-fragment", exStart "uia-tail" [] "<uia-tail>", exIncludeFull,
    exEnd "uia-tail", exEnd "body"]

/-- The content `parse` returns for `exIncludesDoc`. -/
def exIncludesContent : MemoryContent :=
  { NewMemoryContent with
    requiredContent :=
      [("/teaser", { FetchDefinition.zero with URL := "/teaser", Timeout := 500000000 }),
        ("/x", { FetchDefinition.zero with URL := "/x" })],
    body := [("", "§[> /x]§")],
    tail := some "§[> /teaser]§" }

/-! ## Streams without includes and meta scripts

Specification side of the claim that such a stream is always parsed without error. -/

/-- A token that is neither a `uia-include` tag nor a script tag of type `text/uia-meta`. -/
def noIncludeNoMeta (t : Token) : Bool :=
  !((t.tt == .StartTagToken || t.tt == .SelfClosingTagToken) &&
      (t.tag == UiaInclude || (t.tag == "script" && attrHasValue t.attrs "type" ScriptTypeMeta)))

/-- A token inside the body that the loop of `parseBody` copies into the default-body buffer:
not a tag with the `uia-remove` attribute, not a `uia-fragment`, `uia-tail` or `uia-include`
tag and not the end tag `</body>`. -/
def plainInBody (t : Token) : Bool :=
  !((t.tt == .StartTagToken || t.tt == .SelfClosingTagToken) &&
      ((getAttr t.attrs UiaRemove).isSome || t.tag == UiaFragment || t.tag == UiaTail ||
        t.tag == UiaInclude)) &&
  !(t.tt == .EndTagToken && t.tag == "body")

/-- The tokens after the start tag of an element leave it open: with depth elements open
inside it, no end tag closes the element itself before the end of the input. -/
def staysOpen : Nat → List Token → Bool
  | _, [] => true
  | depth, t :: ts =>
    if t.tt = .StartTagToken ∧ ¬ voidElements t.tag then staysOpen (depth + 1) ts
    else if t.tt = .EndTagToken then
      match depth with
      | 0 => false
      | d + 1 => staysOpen d ts
    else staysOpen depth ts

/-- The tokens of the unclosed document `<head><title>x</title></head><body> a `
`<uia-fragment name="f">b<div uia-remove><p>`. -/
def exUnclosed : List Token :=
  [exStart "head" [] "<head>", exStart "title" [] "<title>", exText "x", exEnd "title",
    exEnd "head", exStart "body" [] "<body>", exText " a ",
    exStart "uia-fragment" [⟨"name", "f"⟩] "<uia-fragment name=\"f\">", exText "b", exDivRemove,
    exStart "p" [] "<p>"]

/-- A tokenizer that ends with `io.EOF` and returns neither a `uia-include` tag nor a script
tag of type `text/uia-meta`. -/
def Harmless (z : Tokenizer) : Prop :=
  z.err = none ∧ ∀ t ∈ z.toks, noIncludeNoMeta t = true

/-! ## The fetcher's result order and the request-derived definition

The sources of `content_fetcher.go` and `fetch_definition.go` are not available, only their
tests; the definitions of this section follow the specification. -/

/-- Modelled from the spec: the struct `FetchResult` of the missing `content_fetcher.go`, the
definition of a fetch with the content it produced or the error it ended with (spec section
3). -/
structure FetchResult where
  Def : FetchDefinition
  Content : Option MemoryContent
  Err : Option String
deriving Repr, DecidableEq

/-- Modelled from the spec: one step of the stable sort of the missing `WaitForResults`, the
result r, which arrived before all results of the list, is put in front of the first result
whose priority is not lower than its own. -/
def insertByPriority (r : FetchResult) : List FetchResult → List FetchResult
  | [] => [r]
  | x :: xs =>
    if r.Def.Priority ≤ x.Def.Priority then r :: x :: xs else x :: insertByPriority r xs

/-- Modelled from the spec: the order `WaitForResults` of the missing `content_fetcher.go`
gives to the results on join, "stably sorted by Priority ascending" (spec section 4.3). -/
def sortFetchResults : List FetchResult → List FetchResult
  | [] => []
  | r :: rs => insertByPriority r (sortFetchResults rs)

/-- Modelled from the spec: the parts of the caller's `http.Request` that the missing
`NewFetchDefinitionFromRequest` reads: method, path and query of the URL, headers and body. -/
structure Request where
  Method : String
  Path : String
  RawQuery : String
  Header : List (String × List String)
  Body : String
deriving Repr, DecidableEq

/-- Modelled from the spec: the header allowlist of spec section 6, `Cookie`, `Content-Type`
and every header that starts with `X-`. -/
def forwardedHeader (h : String) : Bool :=
  h == "Cookie" || h == "Content-Type" || List.isPrefixOf ['X', '-'] h.data

/-- Modelled from the spec: the upstream URL "joined with the original request's path/query"
(spec section 6), the base without a trailing slash, then the path, then the query after a
question mark when there is one; for the base `http://upstream:8080/` and the request
`/content?foo=bar` this is `http://upstream:8080/content?foo=bar` as in the test. -/
def joinURL (baseUrl path rawQuery : String) : String :=
  let base : String :=
    if baseUrl.data.getLast? = some '/' then ⟨baseUrl.data.dropLast⟩ else baseUrl
  base ++ path ++ (if rawQuery = "" then "" else "?" ++ rawQuery)

/-- Modelled from the spec: the missing constructor `NewFetchDefinitionFromRequest`, with the
defaults of spec section 6 (timeout 10 s, required, priority 0), the method and body of the
request and its allowed headers. -/
def NewFetchDefinitionFromRequest (baseUrl : String) (r : Request) : FetchDefinition :=
  { URL := joinURL baseUrl r.Path r.RawQuery
    Timeout := 10 * Second
    Required := true
    Method := r.Method
    Header := r.Header.filter (fun p => forwardedHeader p.1)
    Body := r.Body
    Priority := 0 }

/-- The results of scenario S2 in the order they arrive: priorities 1024, 211 and 412. -/
def exResults : List FetchResult :=
  [⟨{ FetchDefinition.zero with URL := "/bar", Priority := 1024 }, none, none⟩,
    ⟨{ FetchDefinition.zero with URL := "/foo", Priority := 211 }, none, none⟩,
    ⟨{ FetchDefinition.zero with URL := "/bazz", Priority := 412 }, none, none⟩]

/-- The request of the test of `NewFetchDefinitionFromRequest`. -/
def exRequest : Request :=
  { Method := "POST"
    Path := "/content"
    RawQuery := "foo=bar"
    Header := [("Content-Type", ["text/html"]), ("Cookie", ["aa=bb;"]),
      ("X-Feature-Toggle", ["true"]), ("Accept-Encoding", ["gzip"]),
      ("X-Correlation-Id", ["foobar123"])]
    Body := "the body" }

/-! ## The template engine

The source of `templating.go` is not available, only its tests; the definitions of this
section follow section 4.2 of the specification and the behaviour the tests record. -/

/-- Modelled from the spec: a value of the data map of the missing `executeTemplate`: a
string, a number, a boolean, a nested map, a `url.Values` (a map from names to lists of
strings) or anything else.  Numbers are limited to integers. -/
inductive Value where
  | str (s : String)
  | int (n : Int)
  | bool (b : Bool)
  | map (m : List (String × Value))
  | values (m : List (String × List String))
  | other

/-- Modelled from the spec: how a value is written, "strings verbatim; numbers and booleans by
their decimal/lowercase representation; anything else stringifies to empty". -/
def stringify : Value → String
  | .str s => s
  | .int n => toString n
  | .bool b => if b then "true" else "false"
  | _ => ""

/-- Modelled from the spec: the descent through nested maps along the components of a dotted
name; in a `url.Values` the last component selects the first element of its list; a missing
key gives the empty string. -/
def descend (v : Value) : List String → String
  | [] => stringify v
  | k :: ks =>
    match v with
    | .map m =>
      match GoMap.get m k with
      | some v1 => descend v1 ks
      | none => ""
    | .values m =>
      match ks with
      | [] => ((GoMap.get m k).getD []).headD ""
      | _ => ""
    | _ => ""

/-- The components of a dotted name: the text between the dots. -/
def splitDots : List Char → List String
  | [] => [""]
  | c :: cs =>
    match splitDots cs with
    | [] => [""]
    | x :: xs => if c = '.' then "" :: x :: xs else ⟨c :: x.data⟩ :: xs

/-- Modelled from the spec: the variable resolution of the missing `executeTemplate`, "look up
`a.b.c` as a whole key first; otherwise split on `.` and descend through nested maps"; none is
the nil data map. -/
def resolveVariable (data : Option (List (String × Value))) (name : String) : String :=
  match data with
  | none => ""
  | some m =>
    match GoMap.get m name with
    | some v => stringify v
    | none => descend (.map m) (splitDots name.data)

/-- What a rendering does, in order: it writes a character to the writer or it calls
`resolve-nested` with a name (what the nested fragment writes follows as writes). -/
inductive Event where
  | write (c : Char)
  | call (name : String)
deriving Repr, DecidableEq

/-- The outcome of a rendering: what it did, and the error it returned, if any. -/
structure Run where
  events : List Event
  err : Option String
deriving Repr, DecidableEq

/-- The events of writing a text. -/
def writes (s : List Char) : List Event :=
  s.map Event.write

/-- The run that does the events es first. -/
def Run.after (es : List Event) (r : Run) : Run :=
  ⟨es ++ r.events, r.err⟩

/-- The text a run has written. -/
def Run.output (r : Run) : String :=
  ⟨r.events.filterMap (fun e => match e with
    | .write c => some c
    | .call _ => none)⟩

/-- The names a run has called `resolve-nested` with, in order. -/
def Run.calls (r : Run) : List String :=
  r.events.filterMap (fun e => match e with
    | .write _ => none
    | .call n => some n)

/-- The opening delimiter of a marker. -/
def startSep : List Char := ['§', '[']

/-- The closing delimiter of a marker. -/
def endSep : List Char := [']', '§']

/-- Whether the text pat occurs in s. -/
def occursIn (pat : List Char) : List Char → Bool
  | [] => pat.isEmpty
  | c :: cs => pat.isPrefixOf (c :: cs) || occursIn pat cs

/-- White space around the body of a marker. -/
def isWs (c : Char) : Bool :=
  c == ' ' || c == '\t' || c == '\n' || c == '\r'

/-- A text without the white space at its ends. -/
def trimWs (s : List Char) : List Char :=
  ((s.dropWhile isWs).reverse.dropWhile isWs).reverse

/-- The states of the scanner of the template engine: in text; inside a marker, with the
characters of its body read so far; inside the alternative text of an optional include, up to
the closing block pat, which is discarded (the nested fragment was written) or written out
(the nested fragment failed). -/
inductive Mode where
  | text
  | marker (body : List Char)
  | skipAlt (pat : List Char)
  | emitAlt (pat : List Char)
deriving Repr, DecidableEq

/-- Modelled from the spec: the scanner of the missing `executeTemplate` (spec section 4.2),
which goes through the template from left to right; skip is the number of characters of a
delimiter that was recognised and is still to be passed.  Text outside markers is written as
it is.  At `§[` a marker begins and its body runs up to the next `]§`; the end of the
template inside a marker is the error "missing ending separator".  The body without the
white space around it is a mandatory include (`>` and a name: the nested fragment is resolved
and its error returned), an optional include (`#>` and a name: the closing block `§[/name]§`
must follow, else the error is "missing ending block"; the nested fragment is resolved
and the alternative text up to the closing block is discarded, or written when resolving
failed), a block terminator (`/` and a name: ignored) or a variable, whose value is
written. -/
def exec (data : Option (List (String × Value))) (resolve : String → Res String String) :
    Nat → Mode → List Char → Run
  | _, .text, [] => ⟨[], none⟩
  | _, .marker body, [] =>
    ⟨[], some ("Fragment parsing error, missing ending separator: " ++ String.mk body)⟩
  | _, .skipAlt pat, [] =>
    ⟨[], some ("Fragment parsing error, missing ending block: " ++ String.mk pat)⟩
  | _, .emitAlt pat, [] =>
    ⟨[], some ("Fragment parsing error, missing ending block: " ++ String.mk pat)⟩
  | skip + 1, mode, _ :: rest => exec data resolve skip mode rest
  | 0, .text, c :: rest =>
    if startSep.isPrefixOf (c :: rest) then exec data resolve 1 (.marker []) rest
    else (exec data resolve 0 .text rest).after [.write c]
  | 0, .marker body, c :: rest =>
    if endSep.isPrefixOf (c :: rest) then
      match trimWs body with
      | '>' :: name =>
        match resolve (String.mk (trimWs name)) with
        | .error e => ⟨[.call (String.mk (trimWs name))], some e⟩
        | .ok o =>
          (exec data resolve 1 .text rest).after (.call (String.mk (trimWs name)) :: writes o.data)
      | '#' :: '>' :: name =>
        if occursIn (startSep ++ '/' :: trimWs name ++ endSep) (rest.drop 1) then
          match resolve (String.mk (trimWs name)) with
          | .error _ =>
            (exec data resolve 1 (.emitAlt (startSep ++ '/' :: trimWs name ++ endSep)) rest).after
              [.call (String.mk (trimWs name))]
          | .ok o =>
            (exec data resolve 1 (.skipAlt (startSep ++ '/' :: trimWs name ++ endSep)) rest).after
              (.call (String.mk (trimWs name)) :: writes o.data)
        else
          ⟨[], some ("Fragment parsing error, missing ending block: "
            ++ String.mk (startSep ++ '/' :: trimWs name ++ endSep))⟩
      | '/' :: _ => exec data resolve 1 .text rest
      | name =>
        (exec data resolve 1 .text rest).after
          (writes (resolveVariable data (String.mk name)).data)
    else exec data resolve 0 (.marker (body ++ [c])) rest
  | 0, .skipAlt pat, c :: rest =>
    if pat.isPrefixOf (c :: rest) then exec data resolve (pat.length - 1) .text rest
    else exec data resolve 0 (.skipAlt pat) rest
  | 0, .emitAlt pat, c :: rest =>
    if pat.isPrefixOf (c :: rest) then exec data resolve (pat.length - 1) .text rest
    else (exec data resolve 0 (.emitAlt pat) rest).after [.write c]

/-- Modelled from the spec: the missing function `executeTemplate`; the writer is
represented by the events of the run. -/
def executeTemplate (template : String) (data : Option (List (String × Value)))
    (resolve : String → Res String String) : Run :=
  exec data resolve 0 .text template.data

/-- The nested fragments of the tests: `foo` is `bar`, `bli` is `blub`, any other fragment
does not exist. -/
def exResolve (name : String) : Res String String :=
  if name = "foo" then .ok "bar"
  else if name = "bli" then .ok "blub"
  else .error ("Fragment does not exist: " ++ name)

/-- The data map of scenario S4: a nested map under `foo`, the literal key `foo.bar` and a
`url.Values` under `some`. -/
def exData : List (String × Value) :=
  [("foo", .map [("bar", .str "bazz")]), ("foo.bar", .str "overwrite"),
    ("some", .values [("url", ["param"])]), ("n", .int 42), ("b", .bool true)]

/-- A character of a dotted variable name: a letter, a digit, `_`, `-` or the dot. -/
def isNameChar (c : Char) : Bool :=
  c.isAlphanum || c == '_' || c == '-' || c == '.'

/-- A variable name: not empty and made of name characters; this holds of every dotted name
of the marker grammar of spec section 6. -/
def isVariableName (n : String) : Bool :=
  !n.data.isEmpty && n.data.all isNameChar

/-- The name of a nested fragment as it stands in a marker: not empty, without white space
and without a closing bracket. -/
def isIncludeName (n : String) : Bool :=
  !n.data.isEmpty && n.data.all (fun c => !isWs c && c != ']')

/-- A run of k spaces. -/
def spaces (k : Nat) : String :=
  ⟨List.replicate k ' '⟩

/-! ## Further example documents -/

/-- The tokens of a body with a fragment inside a fragment:
`<body><uia-fragment name="a">x<uia-fragment name="b">y</uia-fragment>z</uia-fragment></body>`. -/
def exNested : List Token :=
  [exStart "body" [] "<body>", exStart "uia-fragment" [⟨"name", "a"⟩] "<uia-fragment name=\"a\">",
    exText "x", exStart "uia-fragment" [⟨"name", "b"⟩] "<uia-fragment name=\"b\">", exText "y",
    exEnd "uia-fragment", exText "z", exEnd "uia-fragment", exEnd "body"]

/-- The tokens of a head content with composition tags:
`<uia-include src="/x"><uia-fragment name="b">t</uia-fragment><uia-tail>u</uia-tail></head>`. -/
def exHeadTags : List Token :=
  [exIncludePlain, exStart "uia-fragment" [⟨"name", "b"⟩] "<uia-fragment name=\"b\">",
    exText "t", exEnd "uia-fragment", exStart "uia-tail" [] "<uia-tail>", exText "u",
    exEnd "uia-tail", exEnd "head"]

/-- A content that already has a body fragment, a tail and a required definition. -/
def exFilled : MemoryContent :=
  { NewMemoryContent with
    requiredContent := [("/y", { FetchDefinition.zero with URL := "/y" })],
    body := [("a", "one")], tail := some "two" }

/-! ## The calls of `z.Next()`

The claim on termination bounds the number of tokens the loader reads.  The functions of
this section follow the control flow of the loader and count its calls of `z.Next()`; the
state each continues with is the one the loader continues with. -/

/-- The calls of `z.Next()` during a run: how many returned a token of the stream, how many
were made by one of the loops and returned the error token, and how many were made by
`parseMetaJson` and returned the error token. -/
structure Reads where
  tokens : Nat
  loopEnds : Nat
  metaEnds : Nat
deriving Repr, DecidableEq

/-- No call. -/
def Reads.zero : Reads := ⟨0, 0, 0⟩

/-- The calls of a first run and of a second run. -/
def Reads.add (a b : Reads) : Reads :=
  ⟨a.tokens + b.tokens, a.loopEnds + b.loopEnds, a.metaEnds + b.metaEnds⟩

/-- One call that returned a token, and then the calls r. -/
def Reads.token (r : Reads) : Reads :=
  ⟨r.tokens + 1, r.loopEnds, r.metaEnds⟩

/-- The number of all calls. -/
def Reads.total (r : Reads) : Nat :=
  r.tokens + r.loopEnds + r.metaEnds

/-- The calls of `z.Next()` in the loop of `skipSubtreeIfUiaRemove`. -/
def skipSubtreeReads : List Token → Int → Reads
  | [], _ => ⟨0, 1, 0⟩
  | t :: ts, depth =>
    if t.tt = .StartTagToken ∧ ¬ isSelfClosingTag t.tag t.tt then
      (skipSubtreeReads ts (depth + 1)).token
    else if t.tt = .EndTagToken then
      (if depth - 1 < 0 then Reads.zero.token else (skipSubtreeReads ts (depth - 1)).token)
    else (skipSubtreeReads ts depth).token

/-- The calls of `z.Next()` in `skipSubtreeIfUiaRemove`. -/
def skipSubtreeIfUiaRemoveReads (z : Tokenizer) (tt : TokenType) (tagName : String)
    (attrs : List Attribute) : Reads :=
  match getAttr attrs UiaRemove with
  | none => Reads.zero
  | some _ =>
    if isSelfClosingTag tagName tt then Reads.zero
    else skipSubtreeReads z.toks 0

/-- The calls of `z.Next()` in `parseMetaJson`. -/
def parseMetaJsonReads (z : Tokenizer) : Reads :=
  match z.Next with
  | (none, _) => ⟨0, 0, 1⟩
  | (some t, z1) =>
    if t.tt ≠ .TextToken then Reads.zero.token
    else
      match jsonUnmarshal t.text with
      | .error _ => Reads.zero.token
      | .ok _ =>
        match z1.Next with
        | (none, _) => Reads.token ⟨0, 0, 1⟩
        | (some _, _) => Reads.zero.token.token

/-- The calls of `z.Next()` in `parseFragment`, those of the calls of
`skipSubtreeIfUiaRemove` included. -/
def parseFragmentReads : Nat → Tokenizer → Reads
  | 0, _ => Reads.zero
  | fuel + 1, z =>
    match z.Next with
    | (none, _) => ⟨0, 1, 0⟩
    | (some t, z1) =>
      Reads.token
        (if t.tt = .StartTagToken ∨ t.tt = .SelfClosingTagToken then
          if t.tag = UiaInclude then
            match getInclude t.raw t.attrs with
            | .error _ => Reads.zero
            | .ok _ => parseFragmentReads fuel z1
          else if (skipSubtreeIfUiaRemove z1 t.tt t.tag t.attrs).1 then
            (skipSubtreeIfUiaRemoveReads z1 t.tt t.tag t.attrs).add
              (parseFragmentReads fuel (skipSubtreeIfUiaRemove z1 t.tt t.tag t.attrs).2)
          else parseFragmentReads fuel z1
        else if t.tt = .EndTagToken ∧ (t.tag = UiaFragment ∨ t.tag = UiaTail) then Reads.zero
        else parseFragmentReads fuel z1)

/-- The calls of `z.Next()` in `parseBody`, those of the functions it calls included. -/
def parseBodyReads : Nat → Tokenizer → MemoryContent → Reads
  | 0, _, _ => Reads.zero
  | fuel + 1, z, c =>
    match z.Next with
    | (none, _) => ⟨0, 1, 0⟩
    | (some t, z1) =>
      Reads.token
        (if t.tt = .StartTagToken ∨ t.tt = .SelfClosingTagToken then
          if (skipSubtreeIfUiaRemove z1 t.tt t.tag t.attrs).1 then
            (skipSubtreeIfUiaRemoveReads z1 t.tt t.tag t.attrs).add
              (parseBodyReads fuel (skipSubtreeIfUiaRemove z1 t.tt t.tag t.attrs).2 c)
          else if t.tag = UiaFragment then
            (parseFragmentReads fuel z1).add
              (match parseFragment fuel z1 with
              | .ok (f, deps, z2) =>
                parseBodyReads fuel z2
                  (addDependencies { c with body := c.body.set (getFragmentName t.attrs) f } deps)
              | _ => Reads.zero)
          else if t.tag = UiaTail then
            (parseFragmentReads fuel z1).add
              (match parseFragment fuel z1 with
              | .ok (f, deps, z2) =>
                parseBodyReads fuel z2 (addDependencies { c with tail := some f } deps)
              | _ => Reads.zero)
          else if t.tag = UiaInclude then
            match getInclude t.raw t.attrs with
            | .error _ => Reads.zero
            | .ok (fd, _) =>
              parseBodyReads fuel z1 { c with requiredContent := c.requiredContent.set fd.URL fd }
          else parseBodyReads fuel z1 c
        else if t.tt = .EndTagToken ∧ t.tag = "body" then Reads.zero
        else parseBodyReads fuel z1 c)

/-- The calls of `z.Next()` in `parseHead`, those of the functions it calls included. -/
def parseHeadReads : Nat → Tokenizer → MemoryContent → Reads
  | 0, _, _ => Reads.zero
  | fuel + 1, z, c =>
    match z.Next with
    | (none, _) => ⟨0, 1, 0⟩
    | (some t, z1) =>
      Reads.token
        (if t.tt = .StartTagToken ∨ t.tt = .SelfClosingTagToken then
          if (skipSubtreeIfUiaRemove z1 t.tt t.tag t.attrs).1 then
            (skipSubtreeIfUiaRemoveReads z1 t.tt t.tag t.attrs).add
              (parseHeadReads fuel (skipSubtreeIfUiaRemove z1 t.tt t.tag t.attrs).2 c)
          else if t.tag = "script" ∧ attrHasValue t.attrs "type" ScriptTypeMeta then
            (parseMetaJsonReads z1).add
              (match parseMetaJson z1 c with
              | .error _ => Reads.zero
              | .ok (c1, z2) => parseHeadReads fuel z2 c1)
          else parseHeadReads fuel z1 c
        else if t.tt = .EndTagToken ∧ t.tag = "head" then Reads.zero
        else parseHeadReads fuel z1 c)

/-- The calls of `z.Next()` in the loop of `parse`, those of `parseHead` and `parseBody`
included. -/
def parseLoopReads : Nat → Tokenizer → MemoryContent → Reads
  | 0, _, _ => Reads.zero
  | fuel + 1, z, c =>
    match z.Next with
    | (none, _) => ⟨0, 1, 0⟩
    | (some t, z1) =>
      Reads.token
        (if t.tt = .StartTagToken then
          if t.tag = "head" then
            (parseHeadReads fuel z1 c).add
              (match parseHead fuel z1 c with
              | .ok (c1, z2) => parseLoopReads fuel z2 c1
              | _ => Reads.zero)
          else if t.tag = "body" then
            (parseBodyReads fuel z1 c).add
              (match parseBody fuel z1 c with
              | .ok (c1, z2) => parseLoopReads fuel z2 c1
              | _ => Reads.zero)
          else parseLoopReads fuel z1 c
        else parseLoopReads fuel z1 c)

/-- The calls of `z.Next()` during `parse`. -/
def parseReads (z : Tokenizer) : Reads :=
  parseLoopReads (z.toks.length + 1) z NewMemoryContent

/-- The tokens of `<head><script type="text/uia-meta">`, where the input ends. -/
def exMetaOpen : List Token :=
  [exStart "head" [] "<head>", exMetaScript]

/-- The tokens of `<body><uia-fragment><div uia-remove>`, where the input ends. -/
def exDeepOpen : List Token :=
  [exStart "body" [] "<body>", exStart "uia-fragment" [] "<uia-fragment>", exDivRemove]

/-- The bookkeeping of a run that started with n tokens to read, made the calls r and left
the tokens rem (none when it returned an error), for a nesting of K loops: at most K calls
returned the error token, at most one of them in `parseMetaJson` and then none in a loop;
the tokens read and the tokens left are the n tokens; a run that returns without error has
not met the end in `parseMetaJson`, and when a loop has met the end no token is left. -/
def Accounts (n : Nat) (r : Reads) (rem : Option (List Token)) (K : Nat) : Prop :=
  r.loopEnds + r.metaEnds ≤ K ∧ r.metaEnds ≤ 1 ∧ (r.metaEnds = 1 → r.loopEnds = 0) ∧
  match rem with
  | some l => r.tokens + l.length = n ∧ r.metaEnds = 0 ∧ (0 < r.loopEnds → l = [])
  | none => r.tokens ≤ n

/-- The tokens a run has left to read: those of the tokenizer it returns, none when it
returns an error. -/
def Outcome.rem {α : Type} (tok : α → Tokenizer) : Outcome α → Option (List Token)
  | .ok a => some (tok a).toks
  | _ => none

/-! ## Lemmas on the loops -/

theorem skipSubtreeLoop_wellNested (inner : List Token) :
    ∀ (stack : List String) (e : Token) (rest : List Token), wellNested stack inner = true →
      e.tt = .EndTagToken →
      skipSubtreeLoop (inner ++ e :: rest) (stack.length : Int) = rest := by
  induction inner with
  | nil =>
    intro stack e rest h he
    cases stack with
    | nil => simp [skipSubtreeLoop, he]
    | cons a l => simp [wellNested] at h
  | cons t ts ih =>
    intro stack e rest h he
    simp only [wellNested] at h
    by_cases h1 : t.tt = .StartTagToken ∧ ¬ voidElements t.tag
    · rw [if_pos h1] at h
      have := ih (t.tag :: stack) e rest h he
      simp only [List.length_cons, Nat.cast_add, Nat.cast_one] at this
      simp [skipSubtreeLoop, isSelfClosingTag, h1.1, h1.2, this]
    · rw [if_neg h1] at h
      by_cases h2 : t.tt = .EndTagToken
      · rw [if_pos h2] at h
        cases stack with
        | nil => simp at h
        | cons top below =>
          simp only [Bool.and_eq_true] at h
          have := ih below e rest h.2 he
          simp [skipSubtreeLoop, h2, this]
      · rw [if_neg h2] at h
        have := ih stack e rest h he
        have h3 : ¬ (t.tt = .StartTagToken ∧ ¬ isSelfClosingTag t.tag t.tt = true) := by
          intro hh
          apply h1
          refine ⟨hh.1, ?_⟩
          have := hh.2
          simp [isSelfClosingTag, hh.1] at this
          simpa using this
        simp only [List.cons_append, skipSubtreeLoop]
        rw [if_neg h3, if_neg h2]
        exact this

theorem parseHeadLoop_cons (fuel : Nat) (t : Token) (ts : List Token) (err : Option String)
    (errRaw : String) (c : MemoryContent) (headBuff : String) :
    parseHeadLoop (fuel + 1) ⟨t :: ts, err, errRaw⟩ c headBuff =
      if t.tt = .StartTagToken ∨ t.tt = .SelfClosingTagToken then
        if (skipSubtreeIfUiaRemove ⟨ts, err, errRaw⟩ t.tt t.tag t.attrs).1 then
          parseHeadLoop fuel (skipSubtreeIfUiaRemove ⟨ts, err, errRaw⟩ t.tt t.tag t.attrs).2 c
            headBuff
        else if t.tag = "script" ∧ attrHasValue t.attrs "type" ScriptTypeMeta then
          match parseMetaJson ⟨ts, err, errRaw⟩ c with
          | .error e => .error e
          | .ok (c1, z2) => parseHeadLoop fuel z2 c1 headBuff
        else parseHeadLoop fuel ⟨ts, err, errRaw⟩ c (headBuff ++ t.raw)
      else if t.tt = .EndTagToken ∧ t.tag = "head" then .ok (c, headBuff, ⟨ts, err, errRaw⟩)
      else parseHeadLoop fuel ⟨ts, err, errRaw⟩ c (headBuff ++ t.raw) := rfl

theorem parseBodyLoop_cons (fuel : Nat) (t : Token) (ts : List Token) (err : Option String)
    (errRaw : String) (c : MemoryContent) (bodyBuff : String) :
    parseBodyLoop (fuel + 1) ⟨t :: ts, err, errRaw⟩ c bodyBuff =
      if t.tt = .StartTagToken ∨ t.tt = .SelfClosingTagToken then
        if (skipSubtreeIfUiaRemove ⟨ts, err, errRaw⟩ t.tt t.tag t.attrs).1 then
          parseBodyLoop fuel (skipSubtreeIfUiaRemove ⟨ts, err, errRaw⟩ t.tt t.tag t.attrs).2 c
            bodyBuff
        else if t.tag = UiaFragment then
          match parseFragment fuel ⟨ts, err, errRaw⟩ with
          | .error e => .error e
          | .outOfFuel => .outOfFuel
          | .ok (f, deps, z2) =>
            parseBodyLoop fuel z2
              (addDependencies { c with body := c.body.set (getFragmentName t.attrs) f } deps)
              bodyBuff
        else if t.tag = UiaTail then
          match parseFragment fuel ⟨ts, err, errRaw⟩ with
          | .error e => .error e
          | .outOfFuel => .outOfFuel
          | .ok (f, deps, z2) =>
            parseBodyLoop fuel z2 (addDependencies { c with tail := some f } deps) bodyBuff
        else if t.tag = UiaInclude then
          match getInclude t.raw t.attrs with
          | .error e => .error e
          | .ok (fd, replaceText) =>
            parseBodyLoop fuel ⟨ts, err, errRaw⟩
              { c with requiredContent := c.requiredContent.set fd.URL fd }
              (bodyBuff ++ replaceText)
        else parseBodyLoop fuel ⟨ts, err, errRaw⟩ c (bodyBuff ++ t.raw)
      else if t.tt = .EndTagToken ∧ t.tag = "body" then .ok (c, bodyBuff, ⟨ts, err, errRaw⟩)
      else parseBodyLoop fuel ⟨ts, err, errRaw⟩ c (bodyBuff ++ t.raw) := rfl

theorem parseFragmentLoop_cons (fuel : Nat) (t : Token) (ts : List Token) (err : Option String)
    (errRaw : String) (deps : List FetchDefinition) (buff : String) :
    parseFragmentLoop (fuel + 1) ⟨t :: ts, err, errRaw⟩ deps buff =
      if t.tt = .StartTagToken ∨ t.tt = .SelfClosingTagToken then
        if t.tag = UiaInclude then
          match getInclude t.raw t.attrs with
          | .error e => .error e
          | .ok (fd, replaceText) =>
            parseFragmentLoop fuel ⟨ts, err, errRaw⟩ (deps ++ [fd])
              (buff ++ fmtFprintf replaceText)
        else if (skipSubtreeIfUiaRemove ⟨ts, err, errRaw⟩ t.tt t.tag t.attrs).1 then
          parseFragmentLoop fuel (skipSubtreeIfUiaRemove ⟨ts, err, errRaw⟩ t.tt t.tag t.attrs).2
            deps buff
        else parseFragmentLoop fuel ⟨ts, err, errRaw⟩ deps (buff ++ t.raw)
      else if t.tt = .EndTagToken ∧ (t.tag = UiaFragment ∨ t.tag = UiaTail) then
        .ok (buff, deps, ⟨ts, err, errRaw⟩)
      else parseFragmentLoop fuel ⟨ts, err, errRaw⟩ deps (buff ++ t.raw) := rfl

theorem skipSubtreeIfUiaRemove_selfClosing (z : Tokenizer) (tok : Token)
    (hremove : (getAttr tok.attrs UiaRemove).isSome = true)
    (hvoid : isSelfClosingTag tok.tag tok.tt = true) :
    skipSubtreeIfUiaRemove z tok.tt tok.tag tok.attrs = (true, z) := by
  unfold skipSubtreeIfUiaRemove
  cases h : getAttr tok.attrs UiaRemove with
  | none => simp [h] at hremove
  | some a => simp [hvoid]

theorem skipSubtreeIfUiaRemove_subtree (tok : Token) (inner : List Token) (e : Token)
    (rest : List Token) (err : Option String) (errRaw : String)
    (hremove : (getAttr tok.attrs UiaRemove).isSome = true)
    (hvoid : isSelfClosingTag tok.tag tok.tt = false)
    (hinner : wellNested [] inner = true) (hend : e.tt = .EndTagToken) :
    skipSubtreeIfUiaRemove ⟨inner ++ e :: rest, err, errRaw⟩ tok.tt tok.tag tok.attrs
      = (true, ⟨rest, err, errRaw⟩) := by
  unfold skipSubtreeIfUiaRemove
  cases h : getAttr tok.attrs UiaRemove with
  | none => simp [h] at hremove
  | some a =>
    have := skipSubtreeLoop_wellNested inner [] e rest hinner hend
    simp only [List.length_nil, Nat.cast_zero] at this
    simp [hvoid, this]

/-! ### Fuel

Every loop iteration reads a token or leaves the loop, and no function gives tokens back: with
more fuel than tokens no loop runs out of fuel. -/

theorem skipSubtreeLoop_length (ts : List Token) :
    ∀ depth : Int, (skipSubtreeLoop ts depth).length ≤ ts.length := by
  induction ts with
  | nil => intro depth; simp [skipSubtreeLoop]
  | cons t ts ih =>
    intro depth
    simp only [skipSubtreeLoop, List.length_cons]
    split
    · exact Nat.le_succ_of_le (ih _)
    · split
      · split
        · exact Nat.le_succ _
        · exact Nat.le_succ_of_le (ih _)
      · exact Nat.le_succ_of_le (ih _)

theorem skipSubtreeIfUiaRemove_length (z : Tokenizer) (tt : TokenType) (tagName : String)
    (attrs : List Attribute) :
    (skipSubtreeIfUiaRemove z tt tagName attrs).2.toks.length ≤ z.toks.length := by
  unfold skipSubtreeIfUiaRemove
  cases getAttr attrs UiaRemove with
  | none => simp
  | some a =>
    simp only
    split
    · simp
    · exact skipSubtreeLoop_length _ _

theorem parseMetaJson_length (z : Tokenizer) (c c1 : MemoryContent) (z2 : Tokenizer)
    (h : parseMetaJson z c = .ok (c1, z2)) : z2.toks.length ≤ z.toks.length := by
  rcases z with ⟨toks, err, raw⟩
  cases toks with
  | nil => simp [parseMetaJson, Tokenizer.Next] at h
  | cons t ts =>
    by_cases ht : t.tt = .TextToken
    · cases hj : jsonUnmarshal t.text with
      | error e => simp [parseMetaJson, Tokenizer.Next, ht, hj] at h
      | ok top =>
        cases ts with
        | nil => simp [parseMetaJson, Tokenizer.Next, ht, hj] at h
        | cons t2 rest =>
          by_cases h2 : t2.tt ≠ .EndTagToken ∨ t2.tag ≠ "script"
          · simp [parseMetaJson, Tokenizer.Next, ht, hj, h2] at h
          · simp only [parseMetaJson, Tokenizer.Next, ht, hj, ne_eq, not_true_eq_false,
              if_false, if_neg h2, Res.ok.injEq, Prod.mk.injEq] at h
            rw [← h.2]
            simp only [List.length_cons]
            omega
    · simp [parseMetaJson, Tokenizer.Next, ht] at h

theorem parseFragmentLoop_fuel (fuel : Nat) :
    ∀ (z : Tokenizer) (deps : List FetchDefinition) (buf : String), z.toks.length < fuel →
      (∃ e, parseFragmentLoop fuel z deps buf = .error e) ∨
      (∃ f d z2, parseFragmentLoop fuel z deps buf = .ok (f, d, z2) ∧
        z2.toks.length ≤ z.toks.length) := by
  induction fuel with
  | zero => intro z deps buf h; simp at h
  | succ n ih =>
    intro z deps buf hlen
    rcases z with ⟨toks, err, raw⟩
    cases toks with
    | nil =>
      cases err with
      | none => right; exact ⟨buf, deps, _, rfl, Nat.le_refl _⟩
      | some e => left; exact ⟨_, rfl⟩
    | cons t ts =>
      have hts : ts.length < n := by simpa using hlen
      have hrec : ∀ (z1 : Tokenizer) (d : List FetchDefinition) (b : String),
          z1.toks.length ≤ ts.length →
          (∃ e, parseFragmentLoop n z1 d b = .error e) ∨
          (∃ f d2 z2, parseFragmentLoop n z1 d b = .ok (f, d2, z2) ∧
            z2.toks.length ≤ (t :: ts).length) := by
        intro z1 d b hz1
        rcases ih z1 d b (Nat.lt_of_le_of_lt hz1 hts) with h | ⟨f, d2, z2, h, hl⟩
        · exact Or.inl h
        · exact Or.inr ⟨f, d2, z2, h, by simp; omega⟩
      rw [parseFragmentLoop_cons]
      split
      · split
        · cases getInclude t.raw t.attrs with
          | error e => left; exact ⟨e, rfl⟩
          | ok r => exact hrec _ _ _ (Nat.le_refl _)
        · split
          · exact hrec _ _ _ (skipSubtreeIfUiaRemove_length _ _ _ _)
          · exact hrec _ _ _ (Nat.le_refl _)
      · split
        · right; exact ⟨buf, deps, _, rfl, by simp⟩
        · exact hrec _ _ _ (Nat.le_refl _)

theorem parseBodyLoop_fuel (fuel : Nat) :
    ∀ (z : Tokenizer) (c : MemoryContent) (buf : String), z.toks.length < fuel →
      (∃ e, parseBodyLoop fuel z c buf = .error e) ∨
      (∃ c1 s z2, parseBodyLoop fuel z c buf = .ok (c1, s, z2) ∧
        z2.toks.length ≤ z.toks.length) := by
  induction fuel with
  | zero => intro z c buf h; simp at h
  | succ n ih =>
    intro z c buf hlen
    rcases z with ⟨toks, err, raw⟩
    cases toks with
    | nil =>
      cases err with
      | none => right; exact ⟨c, buf, _, rfl, Nat.le_refl _⟩
      | some e => left; exact ⟨_, rfl⟩
    | cons t ts =>
      have hts : ts.length < n := by simpa using hlen
      have hrec : ∀ (z1 : Tokenizer) (c0 : MemoryContent) (b : String),
          z1.toks.length ≤ ts.length →
          (∃ e, parseBodyLoop n z1 c0 b = .error e) ∨
          (∃ c1 s z2, parseBodyLoop n z1 c0 b = .ok (c1, s, z2) ∧
            z2.toks.length ≤ (t :: ts).length) := by
        intro z1 c0 b hz1
        rcases ih z1 c0 b (Nat.lt_of_le_of_lt hz1 hts) with h | ⟨c1, s, z2, h, hl⟩
        · exact Or.inl h
        · exact Or.inr ⟨c1, s, z2, h, by simp; omega⟩
      have hfrag := parseFragmentLoop_fuel n ⟨ts, err, raw⟩ [] "" hts
      rw [parseBodyLoop_cons]
      split
      · split
        · exact hrec _ _ _ (skipSubtreeIfUiaRemove_length _ _ _ _)
        · split
          · unfold parseFragment
            rcases hfrag with ⟨e, he⟩ | ⟨f, d, z2, hf, hl⟩
            · rw [he]; left; exact ⟨e, rfl⟩
            · rw [hf]; exact hrec _ _ _ hl
          · split
            · unfold parseFragment
              rcases hfrag with ⟨e, he⟩ | ⟨f, d, z2, hf, hl⟩
              · rw [he]; left; exact ⟨e, rfl⟩
              · rw [hf]; exact hrec _ _ _ hl
            · split
              · cases getInclude t.raw t.attrs with
                | error e => left; exact ⟨e, rfl⟩
                | ok r => exact hrec _ _ _ (Nat.le_refl _)
              · exact hrec _ _ _ (Nat.le_refl _)
      · split
        · right; exact ⟨c, buf, _, rfl, by simp⟩
        · exact hrec _ _ _ (Nat.le_refl _)

theorem parseHeadLoop_fuel (fuel : Nat) :
    ∀ (z : Tokenizer) (c : MemoryContent) (buf : String), z.toks.length < fuel →
      (∃ e, parseHeadLoop fuel z c buf = .error e) ∨
      (∃ c1 s z2, parseHeadLoop fuel z c buf = .ok (c1, s, z2) ∧
        z2.toks.length ≤ z.toks.length) := by
  induction fuel with
  | zero => intro z c buf h; simp at h
  | succ n ih =>
    intro z c buf hlen
    rcases z with ⟨toks, err, raw⟩
    cases toks with
    | nil =>
      cases err with
      | none => right; exact ⟨c, buf, _, rfl, Nat.le_refl _⟩
      | some e => left; exact ⟨_, rfl⟩
    | cons t ts =>
      have hts : ts.length < n := by simpa using hlen
      have hrec : ∀ (z1 : Tokenizer) (c0 : MemoryContent) (b : String),
          z1.toks.length ≤ ts.length →
          (∃ e, parseHeadLoop n z1 c0 b = .error e) ∨
          (∃ c1 s z2, parseHeadLoop n z1 c0 b = .ok (c1, s, z2) ∧
            z2.toks.length ≤ (t :: ts).length) := by
        intro z1 c0 b hz1
        rcases ih z1 c0 b (Nat.lt_of_le_of_lt hz1 hts) with h | ⟨c1, s, z2, h, hl⟩
        · exact Or.inl h
        · exact Or.inr ⟨c1, s, z2, h, by simp; omega⟩
      rw [parseHeadLoop_cons]
      split
      · split
        · exact hrec _ _ _ (skipSubtreeIfUiaRemove_length _ _ _ _)
        · split
          · cases hm : parseMetaJson ⟨ts, err, raw⟩ c with
            | error e => left; exact ⟨e, rfl⟩
            | ok r =>
              obtain ⟨c1, z2⟩ := r
              exact hrec _ _ _ (parseMetaJson_length _ _ _ _ hm)
          · exact hrec _ _ _ (Nat.le_refl _)
      · split
        · right; exact ⟨c, buf, _, rfl, by simp⟩
        · exact hrec _ _ _ (Nat.le_refl _)

theorem parseBody_fuel (fuel : Nat) (z : Tokenizer) (c : MemoryContent)
    (hlen : z.toks.length < fuel) :
    (∃ e, parseBody fuel z c = .error e) ∨
    (∃ c1 z2, parseBody fuel z c = .ok (c1, z2) ∧ z2.toks.length ≤ z.toks.length) := by
  unfold parseBody
  rcases parseBodyLoop_fuel fuel z c "" hlen with ⟨e, he⟩ | ⟨c1, s, z2, h, hl⟩
  · rw [he]; left; exact ⟨e, rfl⟩
  · rw [h]
    right
    simp only
    split
    · exact ⟨_, _, rfl, hl⟩
    · split
      · exact ⟨_, _, rfl, hl⟩
      · exact ⟨_, _, rfl, hl⟩

theorem parseHead_fuel (fuel : Nat) (z : Tokenizer) (c : MemoryContent)
    (hlen : z.toks.length < fuel) :
    (∃ e, parseHead fuel z c = .error e) ∨
    (∃ c1 z2, parseHead fuel z c = .ok (c1, z2) ∧ z2.toks.length ≤ z.toks.length) := by
  unfold parseHead
  rcases parseHeadLoop_fuel fuel z c "" hlen with ⟨e, he⟩ | ⟨c1, s, z2, h, hl⟩
  · rw [he]; left; exact ⟨e, rfl⟩
  · rw [h]
    right
    simp only
    split
    · exact ⟨_, _, rfl, hl⟩
    · exact ⟨_, _, rfl, hl⟩

theorem parseLoop_fuel (fuel : Nat) :
    ∀ (z : Tokenizer) (c : MemoryContent), z.toks.length < fuel →
      (∃ e, parseLoop fuel z c = .error e) ∨ (∃ c1, parseLoop fuel z c = .ok c1) := by
  induction fuel with
  | zero => intro z c h; simp at h
  | succ n ih =>
    intro z c hlen
    rcases z with ⟨toks, err, raw⟩
    cases toks with
    | nil =>
      cases err with
      | none => right; exact ⟨c, rfl⟩
      | some e => left; exact ⟨_, rfl⟩
    | cons t ts =>
      have hts : ts.length < n := by simpa using hlen
      simp only [parseLoop, Tokenizer.Next]
      split
      · split
        · rcases parseHead_fuel n ⟨ts, err, raw⟩ c hts with ⟨e, he⟩ | ⟨c1, z2, h, hl⟩
          · rw [he]; left; exact ⟨e, rfl⟩
          · rw [h]; exact ih _ _ (Nat.lt_of_le_of_lt hl hts)
        · split
          · rcases parseBody_fuel n ⟨ts, err, raw⟩ c hts with ⟨e, he⟩ | ⟨c1, z2, h, hl⟩
            · rw [he]; left; exact ⟨e, rfl⟩
            · rw [h]; exact ih _ _ (Nat.lt_of_le_of_lt hl hts)
          · exact ih _ _ hts
      · exact ih _ _ hts

theorem parse_enough_fuel (z : Tokenizer) :
    (∃ e, parse z = .error e) ∨ (∃ c, parse z = .ok c) :=
  parseLoop_fuel (z.toks.length + 1) z NewMemoryContent (Nat.lt_succ_self _)

/-! ## The claims -/

/-- C1: a start tag or self-closing tag with the `uia-remove` attribute met by the loop of
`parseHead`, `parseBody` or `parseFragment` (there: unless it is a `uia-include`).  If the tag
is self-closing or a void element, `skipSubtreeIfUiaRemove` consumes nothing more and the loop
goes on with the next token, the buffer unchanged.  Otherwise, when the tokens after it are
well nested up to an end tag, it consumes exactly these tokens and that end tag, and the loop
goes on with the first token behind the end tag, content and buffer being what they were
before the element: the result is that of the same stream without the element. -/
theorem uia_remove_skips_element (tok : Token) (inner : List Token) (e : Token)
    (rest : List Token) (err : Option String) (errRaw : String) (c : MemoryContent)
    (deps : List FetchDefinition) (buf : String) (fuel : Nat)
    (hstart : tok.tt = .StartTagToken ∨ tok.tt = .SelfClosingTagToken)
    (hremove : (getAttr tok.attrs UiaRemove).isSome = true) :
    (isSelfClosingTag tok.tag tok.tt = true →
      skipSubtreeIfUiaRemove ⟨rest, err, errRaw⟩ tok.tt tok.tag tok.attrs
        = (true, ⟨rest, err, errRaw⟩) ∧
      parseHeadLoop (fuel + 1) ⟨tok :: rest, err, errRaw⟩ c buf
        = parseHeadLoop fuel ⟨rest, err, errRaw⟩ c buf ∧
      parseBodyLoop (fuel + 1) ⟨tok :: rest, err, errRaw⟩ c buf
        = parseBodyLoop fuel ⟨rest, err, errRaw⟩ c buf ∧
      (tok.tag ≠ UiaInclude →
        parseFragmentLoop (fuel + 1) ⟨tok :: rest, err, errRaw⟩ deps buf
          = parseFragmentLoop fuel ⟨rest, err, errRaw⟩ deps buf)) ∧
    (isSelfClosingTag tok.tag tok.tt = false → wellNested [] inner = true →
      e.tt = .EndTagToken →
      skipSubtreeIfUiaRemove ⟨inner ++ e :: rest, err, errRaw⟩ tok.tt tok.tag tok.attrs
        = (true, ⟨rest, err, errRaw⟩) ∧
      parseHeadLoop (fuel + 1) ⟨tok :: (inner ++ e :: rest), err, errRaw⟩ c buf
        = parseHeadLoop fuel ⟨rest, err, errRaw⟩ c buf ∧
      parseBodyLoop (fuel + 1) ⟨tok :: (inner ++ e :: rest), err, errRaw⟩ c buf
        = parseBodyLoop fuel ⟨rest, err, errRaw⟩ c buf ∧
      (tok.tag ≠ UiaInclude →
        parseFragmentLoop (fuel + 1) ⟨tok :: (inner ++ e :: rest), err, errRaw⟩ deps buf
          = parseFragmentLoop fuel ⟨rest, err, errRaw⟩ deps buf)) := by
  constructor
  · intro hvoid
    have hs := skipSubtreeIfUiaRemove_selfClosing ⟨rest, err, errRaw⟩ tok hremove hvoid
    refine ⟨hs, ?_, ?_, ?_⟩
    · rw [parseHeadLoop_cons, if_pos hstart, hs]; simp
    · rw [parseBodyLoop_cons, if_pos hstart, hs]; simp
    · intro hinc
      rw [parseFragmentLoop_cons, if_pos hstart, if_neg hinc, hs]; simp
  · intro hvoid hinner hend
    have hs := skipSubtreeIfUiaRemove_subtree tok inner e rest err errRaw hremove hvoid hinner hend
    refine ⟨hs, ?_, ?_, ?_⟩
    · rw [parseHeadLoop_cons, if_pos hstart, hs]; simp
    · rw [parseBodyLoop_cons, if_pos hstart, hs]; simp
    · intro hinc
      rw [parseFragmentLoop_cons, if_pos hstart, if_neg hinc, hs]; simp

/-- Witness of C1 on `<div uia-remove><p>gone</p></div><span>kept</span></body>` and on
`<br uia-remove><span>kept</span></body>`: the body loop gives the buffer `<span>kept</span>`. -/
theorem uia_remove_skips_element_witness :
    (parseBodyLoop 6 ⟨exDivRemove :: (exGone ++ exEnd "div" :: exKept), none, ""⟩
        NewMemoryContent ""
      = parseBodyLoop 5 ⟨exKept, none, ""⟩ NewMemoryContent "") ∧
    (parseBodyLoop 6 ⟨exBrRemove :: exKept, none, ""⟩ NewMemoryContent ""
      = parseBodyLoop 5 ⟨exKept, none, ""⟩ NewMemoryContent "") ∧
    parseBodyLoop 5 ⟨exKept, none, ""⟩ NewMemoryContent ""
      = .ok (NewMemoryContent, "<span>kept</span>", ⟨[], none, ""⟩) :=
  ⟨((uia_remove_skips_element exDivRemove exGone (exEnd "div") exKept none "" NewMemoryContent
      [] "" 5 (by decide) (by decide)).2 (by decide) (by decide) (by decide)).2.2.1,
   ((uia_remove_skips_element exBrRemove [] (exEnd "br") exKept none "" NewMemoryContent
      [] "" 5 (by decide) (by decide)).1 (by decide)).2.2.1,
   by decide⟩

theorem getInclude_ok_of_wellFormed (raw : String) (attrs : List Attribute) (a : Attribute)
    (hsrc : getAttr attrs "src" = some a)
    (htimeout : ∀ t, getAttr attrs "timeout" = some t → ∃ n, strconvAtoi t.Val = .ok n)
    (hrequired : ∀ r, getAttr attrs "required" = some r → ∃ b, strconvParseBool r.Val = some b) :
    ∃ fd, getInclude raw attrs = .ok (fd, placeholder a.Val) ∧ fd.URL = a.Val := by
  unfold getInclude
  rw [hsrc]
  cases ht : getAttr attrs "timeout" with
  | none =>
    cases hr : getAttr attrs "required" with
    | none => simp
    | some r =>
      obtain ⟨b, hb⟩ := hrequired r hr
      simp [hb]
  | some t =>
    obtain ⟨n, hn⟩ := htimeout t ht
    cases hr : getAttr attrs "required" with
    | none => simp [hn]
    | some r =>
      obtain ⟨b, hb⟩ := hrequired r hr
      simp [hn, hb]

theorem GoMap.get_set_self {V : Type} (m : GoMap V) (k : String) (v : V) :
    (m.set k v).get k = some v := by
  simp [GoMap.set, GoMap.get]

/-- C2: a `uia-include` start or self-closing tag without `uia-remove`, met by the loop of
`parseBody`, with a src attribute of value s and timeout and required attributes that, when
present, are accepted by `strconv.Atoi` and `strconv.ParseBool`: `getInclude` returns
a definition fd with URL s, the loop goes on with the next token after appending exactly
`§[> s]§` to the default-body buffer (the raw bytes of the tag are not appended), and fd is
stored under the key s of `requiredContent`. -/
theorem body_include_placeholder (tok : Token) (rest : List Token) (err : Option String)
    (errRaw : String) (c : MemoryContent) (buf : String) (fuel : Nat) (a : Attribute)
    (hstart : tok.tt = .StartTagToken ∨ tok.tt = .SelfClosingTagToken)
    (htag : tok.tag = UiaInclude)
    (hremove : getAttr tok.attrs UiaRemove = none)
    (hsrc : getAttr tok.attrs "src" = some a)
    (htimeout : ∀ t, getAttr tok.attrs "timeout" = some t → ∃ n, strconvAtoi t.Val = .ok n)
    (hrequired : ∀ r, getAttr tok.attrs "required" = some r →
      ∃ b, strconvParseBool r.Val = some b) :
    ∃ fd, getInclude tok.raw tok.attrs = .ok (fd, "§[> " ++ a.Val ++ "]§") ∧ fd.URL = a.Val ∧
      parseBodyLoop (fuel + 1) ⟨tok :: rest, err, errRaw⟩ c buf
        = parseBodyLoop fuel ⟨rest, err, errRaw⟩
            { c with requiredContent := c.requiredContent.set a.Val fd }
            (buf ++ ("§[> " ++ a.Val ++ "]§")) ∧
      (c.requiredContent.set a.Val fd).get a.Val = some fd := by
  obtain ⟨fd, hfd, hurl⟩ := getInclude_ok_of_wellFormed tok.raw tok.attrs a hsrc htimeout hrequired
  refine ⟨fd, hfd, hurl, ?_, GoMap.get_set_self _ _ _⟩
  have hskip : skipSubtreeIfUiaRemove ⟨rest, err, errRaw⟩ tok.tt tok.tag tok.attrs
      = (false, ⟨rest, err, errRaw⟩) := by
    simp [skipSubtreeIfUiaRemove, hremove]
  have h1 : tok.tag ≠ UiaFragment := by rw [htag]; decide
  have h2 : tok.tag ≠ UiaTail := by rw [htag]; decide
  rw [parseBodyLoop_cons, if_pos hstart, hskip]
  simp only [Bool.false_eq_true, if_false, if_neg h1, if_neg h2, if_pos htag, hfd, hurl]
  rfl

/-- Witness of C2 on `<uia-include src="/teaser" timeout="500" required="false">` after the
text ` hi `: the buffer becomes ` hi §[> /teaser]§`. -/
theorem body_include_placeholder_witness :
    ∃ fd, getInclude exIncludeFull.raw exIncludeFull.attrs = .ok (fd, "§[> " ++ "/teaser" ++ "]§") ∧
      fd.URL = "/teaser" ∧
      parseBodyLoop (1 + 1) ⟨exIncludeFull :: [exEnd "body"], none, ""⟩ NewMemoryContent " hi "
        = parseBodyLoop 1 ⟨[exEnd "body"], none, ""⟩
            { NewMemoryContent with
              requiredContent := NewMemoryContent.requiredContent.set "/teaser" fd }
            (" hi " ++ ("§[> " ++ "/teaser" ++ "]§")) ∧
      (NewMemoryContent.requiredContent.set "/teaser" fd).get "/teaser" = some fd :=
  body_include_placeholder exIncludeFull [exEnd "body"] none "" NewMemoryContent " hi " 1
    ⟨"src", "/teaser"⟩ (by decide) (by decide) (by decide) (by decide)
    (fun t ht => ⟨500, by
      have : t = ⟨"timeout", "500"⟩ := by
        have h2 : getAttr exIncludeFull.attrs "timeout" = some ⟨"timeout", "500"⟩ := by decide
        rw [h2] at ht
        exact (Option.some.inj ht).symm
      rw [this]; decide⟩)
    (fun r hr => ⟨false, by
      have : r = ⟨"required", "false"⟩ := by
        have h2 : getAttr exIncludeFull.attrs "required" = some ⟨"required", "false"⟩ := by decide
        rw [h2] at hr
        exact (Option.some.inj hr).symm
      rw [this]; decide⟩)

/-- C3 (the code at the failing input): inside a fragment the tag
`<uia-include src="/a%20b">` is replaced by what `fmt.Fprintf` makes of the placeholder used
as a format, `§[> /a%!b(MISSING)]§`, which is not the placeholder `§[> /a%20b]§`;
the definition recorded for it keeps the literal src. -/
theorem fragment_include_percent_mangled :
    parseFragment 3 ⟨[exIncludePercent, exEnd "uia-fragment"], none, ""⟩
      = .ok ("§[> /a%!b(MISSING)]§", [{ FetchDefinition.zero with URL := "/a%20b" }],
          ⟨[], none, ""⟩) ∧
    getInclude exIncludePercent.raw exIncludePercent.attrs
      = .ok ({ FetchDefinition.zero with URL := "/a%20b" }, "§[> /a%20b]§") ∧
    fmtFprintf "§[> /a%20b]§" ≠ "§[> /a%20b]§" := by
  decide

/-- C7 (the code on includes without timeout and required): `getInclude` returns the
zero-valued definition with only the URL set, so Required is false and Timeout is 0, not the
documented defaults true and 10 seconds. -/
theorem getInclude_without_timeout_required (raw : String) (attrs : List Attribute)
    (a : Attribute) (hsrc : getAttr attrs "src" = some a)
    (htimeout : getAttr attrs "timeout" = none) (hrequired : getAttr attrs "required" = none) :
    ∃ fd, getInclude raw attrs = .ok (fd, placeholder a.Val) ∧ fd.Required = false ∧
      fd.Timeout = 0 ∧ fd.Timeout ≠ 10 * Second := by
  refine ⟨{ FetchDefinition.zero with URL := a.Val }, ?_, rfl, rfl, ?_⟩
  · simp [getInclude, hsrc, htimeout, hrequired]
  · show (0 : Int) ≠ 10 * Second
    decide

/-- Witness of the evaluation for C7 on `<uia-include src="/x">`. -/
theorem getInclude_without_timeout_required_witness :
    ∃ fd, getInclude exIncludePlain.raw exIncludePlain.attrs = .ok (fd, placeholder "/x") ∧
      fd.Required = false ∧ fd.Timeout = 0 ∧ fd.Timeout ≠ 10 * Second :=
  getInclude_without_timeout_required exIncludePlain.raw exIncludePlain.attrs ⟨"src", "/x"⟩
    (by decide) (by decide) (by decide)

/-- C8 (the code on includes without src): `getInclude` fails, and the message it builds is
`include definition withour src ` followed by the raw bytes of the tag. -/
theorem getInclude_without_src (raw : String) (attrs : List Attribute)
    (hsrc : getAttr attrs "src" = none) :
    getInclude raw attrs = .error (.errorf ("include definition withour src " ++ raw) none) ∧
    getInclude raw attrs ≠ .error (.errorf ("include definition without src " ++ raw) none) := by
  have h : getInclude raw attrs
      = .error (.errorf ("include definition withour src " ++ raw) none) := by
    simp [getInclude, hsrc]
  refine ⟨h, ?_⟩
  rw [h]
  intro hh
  injection hh with hh
  injection hh with hh
  have := congrArg String.data hh
  simp at this

/-- Witness of the evaluation for C8 on `<uia-include>`. -/
theorem getInclude_without_src_witness :
    getInclude exIncludeNoSrc.raw exIncludeNoSrc.attrs
      = .error (.errorf ("include definition withour src " ++ "<uia-include>") none) ∧
    getInclude exIncludeNoSrc.raw exIncludeNoSrc.attrs
      ≠ .error (.errorf ("include definition without src " ++ "<uia-include>") none) :=
  getInclude_without_src exIncludeNoSrc.raw exIncludeNoSrc.attrs (by decide)

theorem getInclude_cases (raw : String) (attrs : List Attribute) :
    ((∃ e, getInclude raw attrs = .error e) ↔
      (getAttr attrs "src" = none ∨
        (∃ t e, getAttr attrs "timeout" = some t ∧ strconvAtoi t.Val = .error e) ∨
        (∃ r, getAttr attrs "required" = some r ∧ strconvParseBool r.Val = none))) ∧
    (¬ (getAttr attrs "src" = none ∨
        (∃ t e, getAttr attrs "timeout" = some t ∧ strconvAtoi t.Val = .error e) ∨
        (∃ r, getAttr attrs "required" = some r ∧ strconvParseBool r.Val = none)) →
      ∃ fd text, getInclude raw attrs = .ok (fd, text)) ∧
    (∀ fd text, getInclude raw attrs = .ok (fd, text) →
      (∃ a, getAttr attrs "src" = some a ∧ fd.URL = a.Val) ∧
      (∀ r, getAttr attrs "required" = some r → strconvParseBool r.Val = some fd.Required)) := by
  unfold getInclude
  cases hs : getAttr attrs "src" with
  | none => simp
  | some a =>
    cases ht : getAttr attrs "timeout" with
    | none =>
      cases hr : getAttr attrs "required" with
      | none => simp
      | some r =>
        cases hb : strconvParseBool r.Val with
        | none => simp [hb]
        | some b => simp [hb]
    | some t =>
      cases hn : strconvAtoi t.Val with
      | error e => simp [hn]
      | ok n =>
        cases hr : getAttr attrs "required" with
        | none => simp [hn]
        | some r =>
          cases hb : strconvParseBool r.Val with
          | none => simp [hn, hb]
          | some b => simp [hn, hb]

theorem getAttr_eq_find (attrs : List Attribute) (name : String) :
    getAttr attrs name = attrs.find? (fun a => a.Key == name) := by
  induction attrs with
  | nil => rfl
  | cons a rest ih =>
    by_cases h : a.Key = name
    · simp [getAttr, List.find?, h]
    · have hb : (a.Key == name) = false := by simpa using h
      simp [getAttr, List.find?, h, hb, ih]

/-- C9: `getAttr` returns the first attribute of the list with the given key.  `getInclude`
returns an error exactly when no attribute has the key src, or the first attribute with the
key timeout has a value `strconv.Atoi` rejects, or the first attribute with the key required
has a value `strconv.ParseBool` rejects; in every other case it returns a definition whose
URL is the value of the first src attribute and whose Required is the parsed value of the
first required attribute when there is one. -/
theorem getInclude_error_iff (raw : String) (attrs : List Attribute) :
    (∀ name, getAttr attrs name = attrs.find? (fun a => a.Key == name)) ∧
    ((∃ e, getInclude raw attrs = .error e) ↔
      ((∀ a ∈ attrs, a.Key ≠ "src") ∨
        (∃ t e, attrs.find? (fun a => a.Key == "timeout") = some t ∧
          strconvAtoi t.Val = .error e) ∨
        (∃ r, attrs.find? (fun a => a.Key == "required") = some r ∧
          strconvParseBool r.Val = none))) ∧
    (¬ ((∀ a ∈ attrs, a.Key ≠ "src") ∨
        (∃ t e, attrs.find? (fun a => a.Key == "timeout") = some t ∧
          strconvAtoi t.Val = .error e) ∨
        (∃ r, attrs.find? (fun a => a.Key == "required") = some r ∧
          strconvParseBool r.Val = none)) →
      ∃ fd text, getInclude raw attrs = .ok (fd, text)) ∧
    (∀ fd text, getInclude raw attrs = .ok (fd, text) →
      (∃ a, attrs.find? (fun a => a.Key == "src") = some a ∧ fd.URL = a.Val) ∧
      (∀ r, attrs.find? (fun a => a.Key == "required") = some r →
        strconvParseBool r.Val = some fd.Required)) := by
  have h := getInclude_cases raw attrs
  have hnone : getAttr attrs "src" = none ↔ ∀ a ∈ attrs, a.Key ≠ "src" := by
    rw [getAttr_eq_find, List.find?_eq_none]
    simp
  simp only [hnone] at h
  simp only [getAttr_eq_find] at h
  exact ⟨fun name => getAttr_eq_find attrs name, h⟩

/-- Witness of C9: a timeout that is no integer makes `getInclude` fail although src is
there; of two src attributes the first gives the URL; a required that is no boolean makes it
fail; without timeout and required it succeeds. -/
theorem getInclude_error_iff_witness :
    (∃ e, getInclude "<uia-include timeout=\"x\" src=\"/x\">"
      [⟨"timeout", "x"⟩, ⟨"src", "/x"⟩] = .error e) ∧
    getInclude "<uia-include src=\"/a\" src=\"/b\" required=\"1\">"
        [⟨"src", "/a"⟩, ⟨"src", "/b"⟩, ⟨"required", "1"⟩]
      = .ok ({ FetchDefinition.zero with URL := "/a", Required := true }, "§[> /a]§") ∧
    getInclude "<uia-include src=\"/x\" required=\"maybe\">"
        [⟨"src", "/x"⟩, ⟨"required", "maybe"⟩]
      = .error (.errorf "error parsing bool in <uia-include src=\"/x\" required=\"maybe\">: "
          (some (.parseBool "maybe"))) ∧
    getInclude exIncludePlain.raw exIncludePlain.attrs
      = .ok ({ FetchDefinition.zero with URL := "/x" }, "§[> /x]§") ∧
    getAttr [⟨"src", "/a"⟩, ⟨"src", "/b"⟩] "src" = some ⟨"src", "/a"⟩ ∧
    getAttr [⟨"src", "/a"⟩] "timeout" = none :=
  ⟨(getInclude_error_iff "<uia-include timeout=\"x\" src=\"/x\">"
      [⟨"timeout", "x"⟩, ⟨"src", "/x"⟩]).2.1.2
      (Or.inr (Or.inl ⟨⟨"timeout", "x"⟩, _, by decide, rfl⟩)),
    by decide, by decide, by decide, by decide, by decide⟩

theorem parseFragmentLoop_plain (content : List Token) :
    ∀ (fuel : Nat) (e : Token) (rest : List Token) (err : Option String) (errRaw : String)
      (deps : List FetchDefinition) (buf : String),
      (∀ t ∈ content, plainInFragment t = true) →
      e.tt = .EndTagToken ∧ (e.tag = UiaFragment ∨ e.tag = UiaTail) →
      content.length < fuel →
      parseFragmentLoop fuel ⟨content ++ e :: rest, err, errRaw⟩ deps buf
        = .ok (buf ++ rawConcat content, deps, ⟨rest, err, errRaw⟩) := by
  induction content with
  | nil =>
    intro fuel e rest err errRaw deps buf _ he hfuel
    obtain ⟨f, rfl⟩ : ∃ f, fuel = f + 1 := ⟨fuel - 1, by simp at hfuel; omega⟩
    have h1 : ¬ (e.tt = .StartTagToken ∨ e.tt = .SelfClosingTagToken) := by
      rw [he.1]; decide
    rw [List.nil_append, parseFragmentLoop_cons, if_neg h1, if_pos he]
    simp [rawConcat]
  | cons t ts ih =>
    intro fuel e rest err errRaw deps buf hplain he hfuel
    obtain ⟨f, rfl⟩ : ∃ f, fuel = f + 1 := ⟨fuel - 1, by simp at hfuel; omega⟩
    have ht := hplain t (List.mem_cons_self _ _)
    have hts : ∀ x ∈ ts, plainInFragment x = true :=
      fun x hx => hplain x (List.mem_cons_of_mem _ hx)
    have hlen : ts.length < f := by simp at hfuel; omega
    have hrec := ih f e rest err errRaw deps (buf ++ t.raw) hts he hlen
    have hassoc : buf ++ t.raw ++ rawConcat ts = buf ++ rawConcat (t :: ts) := by
      simp [rawConcat, String.append_assoc]
    rw [List.cons_append, parseFragmentLoop_cons]
    by_cases hstart : t.tt = .StartTagToken ∨ t.tt = .SelfClosingTagToken
    · have hinc : t.tag ≠ UiaInclude := by
        intro hh
        rcases hstart with h | h <;> simp [plainInFragment, h, hh] at ht
      have hrem : getAttr t.attrs UiaRemove = none := by
        cases hr : getAttr t.attrs UiaRemove with
        | none => rfl
        | some a => rcases hstart with h | h <;> simp [plainInFragment, h, hr] at ht
      rw [if_pos hstart, if_neg hinc]
      simp only [skipSubtreeIfUiaRemove, hrem, Bool.false_eq_true, if_false]
      rw [hrec, hassoc]
    · have hend : ¬ (t.tt = .EndTagToken ∧ (t.tag = UiaFragment ∨ t.tag = UiaTail)) := by
        intro hh
        rcases hh with ⟨h1, h2 | h2⟩ <;> simp [plainInFragment, h1, h2] at ht
      rw [if_neg hstart, if_neg hend, hrec, hassoc]

theorem getFragmentName_eq_getAttr (attrs : List Attribute) :
    getFragmentName attrs = match getAttr attrs "name" with
      | some a => a.Val
      | none => "" := by
  induction attrs with
  | nil => rfl
  | cons a rest ih =>
    by_cases h : a.Key = "name"
    · simp [getFragmentName, getAttr, h]
    · simp [getFragmentName, getAttr, h, ih]

/-- C5: a `uia-fragment` tag without `uia-remove`, met by the loop of `parseBody`, whose
content up to the first end tag `</uia-fragment>` or `</uia-tail>` holds no `uia-include` tag
and no `uia-remove` attribute.  When the fragment has been parsed, the loop goes on behind the
end tag with the same default-body buffer and with a body map in which the key k maps to the
untrimmed concatenation of the raw bytes of the content tokens, where k is the value of the
first `name` attribute of the tag, or the empty string when it has none. -/
theorem body_fragment_content (tok : Token) (content : List Token) (e : Token)
    (rest : List Token) (err : Option String) (errRaw : String) (c : MemoryContent)
    (buf : String) (fuel : Nat)
    (hstart : tok.tt = .StartTagToken ∨ tok.tt = .SelfClosingTagToken)
    (htag : tok.tag = UiaFragment)
    (hremove : getAttr tok.attrs UiaRemove = none)
    (hcontent : ∀ t ∈ content, plainInFragment t = true)
    (hend : e.tt = .EndTagToken ∧ (e.tag = UiaFragment ∨ e.tag = UiaTail))
    (hfuel : content.length < fuel) :
    parseFragment fuel ⟨content ++ e :: rest, err, errRaw⟩
      = .ok (rawConcat content, [], ⟨rest, err, errRaw⟩) ∧
    parseBodyLoop (fuel + 1) ⟨tok :: (content ++ e :: rest), err, errRaw⟩ c buf
      = parseBodyLoop fuel ⟨rest, err, errRaw⟩
          { c with body := c.body.set (getFragmentName tok.attrs) (rawConcat content) } buf ∧
    (c.body.set (getFragmentName tok.attrs) (rawConcat content)).get (getFragmentName tok.attrs)
      = some (rawConcat content) ∧
    getFragmentName tok.attrs = (match getAttr tok.attrs "name" with
      | some a => a.Val
      | none => "") := by
  have hfrag : parseFragment fuel ⟨content ++ e :: rest, err, errRaw⟩
      = .ok (rawConcat content, [], ⟨rest, err, errRaw⟩) := by
    unfold parseFragment
    rw [parseFragmentLoop_plain content fuel e rest err errRaw [] "" hcontent hend hfuel]
    simp
  refine ⟨hfrag, ?_, GoMap.get_set_self _ _ _, getFragmentName_eq_getAttr _⟩
  rw [parseBodyLoop_cons, if_pos hstart]
  simp only [skipSubtreeIfUiaRemove, hremove, Bool.false_eq_true, if_false, if_pos htag, hfrag]
  rfl

/-- Witness of C5 on `<uia-fragment name="teaser" name="other"><div>a</div> <b>c</b>`
followed by `</uia-fragment></body>`: the body map gets `teaser` with the content, untrimmed,
and the default-body buffer stays empty. -/
theorem body_fragment_content_witness :
    parseFragment 8 ⟨exPlain ++ exEnd "uia-fragment" :: [exEnd "body"], none, ""⟩
      = .ok ("<div>a</div> <b>c</b>", [], ⟨[exEnd "body"], none, ""⟩) ∧
    parseBodyLoop (8 + 1)
        ⟨exFragmentStart :: (exPlain ++ exEnd "uia-fragment" :: [exEnd "body"]), none, ""⟩
        NewMemoryContent ""
      = .ok ({ NewMemoryContent with body := [("teaser", "<div>a</div> <b>c</b>")] }, "",
          ⟨[], none, ""⟩) :=
  have h := body_fragment_content exFragmentStart exPlain (exEnd "uia-fragment") [exEnd "body"]
    none "" NewMemoryContent "" 8 (by decide) (by decide) (by decide) (by decide) (by decide)
    (by decide)
  ⟨h.1.trans (by decide), h.2.1.trans (by decide)⟩

theorem parseHeadLoop_nil (fuel : Nat) (errRaw : String) (c : MemoryContent) (buf : String) :
    parseHeadLoop (fuel + 1) ⟨[], none, errRaw⟩ c buf = .ok (c, buf, ⟨[], none, errRaw⟩) := rfl

theorem parseHeadLoop_plain_step (fuel : Nat) (t : Token) (ts : List Token)
    (err : Option String) (errRaw : String) (c : MemoryContent) (buf : String)
    (ht : plainInHead t = true) :
    parseHeadLoop (fuel + 1) ⟨t :: ts, err, errRaw⟩ c buf
      = parseHeadLoop fuel ⟨ts, err, errRaw⟩ c (buf ++ t.raw) := by
  rw [parseHeadLoop_cons]
  by_cases hstart : t.tt = .StartTagToken ∨ t.tt = .SelfClosingTagToken
  · have hrem : getAttr t.attrs UiaRemove = none := by
      cases hr : getAttr t.attrs UiaRemove with
      | none => rfl
      | some a => rcases hstart with h | h <;> simp [plainInHead, h, hr] at ht
    have hmeta : ¬ (t.tag = "script" ∧ attrHasValue t.attrs "type" ScriptTypeMeta = true) := by
      intro hh
      rcases hstart with h | h <;> simp [plainInHead, h, hh.1, hh.2, hrem] at ht
    rw [if_pos hstart]
    simp only [skipSubtreeIfUiaRemove, hrem, Bool.false_eq_true, if_false]
    rw [if_neg hmeta]
  · have hend : ¬ (t.tt = .EndTagToken ∧ t.tag = "head") := by
      intro hh
      simp [plainInHead, hh.1, hh.2] at ht
    rw [if_neg hstart, if_neg hend]

theorem parseHeadLoop_plain (hs : List Token) :
    ∀ (fuel : Nat) (e : Token) (rest : List Token) (err : Option String) (errRaw : String)
      (c : MemoryContent) (buf : String),
      (∀ t ∈ hs, plainInHead t = true) → e.tt = .EndTagToken ∧ e.tag = "head" →
      hs.length < fuel →
      parseHeadLoop fuel ⟨hs ++ e :: rest, err, errRaw⟩ c buf
        = .ok (c, buf ++ rawConcat hs, ⟨rest, err, errRaw⟩) := by
  induction hs with
  | nil =>
    intro fuel e rest err errRaw c buf _ he hfuel
    obtain ⟨f, rfl⟩ : ∃ f, fuel = f + 1 := ⟨fuel - 1, by simp at hfuel; omega⟩
    have h1 : ¬ (e.tt = .StartTagToken ∨ e.tt = .SelfClosingTagToken) := by
      rw [he.1]; decide
    rw [List.nil_append, parseHeadLoop_cons, if_neg h1, if_pos he]
    simp [rawConcat]
  | cons t ts ih =>
    intro fuel e rest err errRaw c buf hplain he hfuel
    obtain ⟨f, rfl⟩ : ∃ f, fuel = f + 1 := ⟨fuel - 1, by simp at hfuel; omega⟩
    have hlen : ts.length < f := by simp at hfuel; omega
    rw [List.cons_append, parseHeadLoop_plain_step f t _ err errRaw c buf
      (hplain t (List.mem_cons_self _ _)),
      ih f e rest err errRaw c (buf ++ t.raw) (fun x hx => hplain x (List.mem_cons_of_mem _ hx))
        he hlen]
    simp [rawConcat, String.append_assoc]

theorem parseHeadLoop_plain_eof (hs : List Token) :
    ∀ (fuel : Nat) (errRaw : String) (c : MemoryContent) (buf : String),
      (∀ t ∈ hs, plainInHead t = true) → hs.length < fuel →
      parseHeadLoop fuel ⟨hs, none, errRaw⟩ c buf
        = .ok (c, buf ++ rawConcat hs, ⟨[], none, errRaw⟩) := by
  induction hs with
  | nil =>
    intro fuel errRaw c buf _ hfuel
    obtain ⟨f, rfl⟩ : ∃ f, fuel = f + 1 := ⟨fuel - 1, by simp at hfuel; omega⟩
    rw [parseHeadLoop_nil]
    simp [rawConcat]
  | cons t ts ih =>
    intro fuel errRaw c buf hplain hfuel
    obtain ⟨f, rfl⟩ : ∃ f, fuel = f + 1 := ⟨fuel - 1, by simp at hfuel; omega⟩
    have hlen : ts.length < f := by simp at hfuel; omega
    rw [parseHeadLoop_plain_step f t _ none errRaw c buf (hplain t (List.mem_cons_self _ _)),
      ih f errRaw c (buf ++ t.raw) (fun x hx => hplain x (List.mem_cons_of_mem _ hx)) hlen]
    simp [rawConcat, String.append_assoc]

theorem head?_dropWhile_false {α : Type} (p : α → Bool) (l : List α) (x : α)
    (h : (l.dropWhile p).head? = some x) : p x = false := by
  have := List.head?_dropWhile_not p l
  rw [h] at this
  exact this

theorem stringsTrim_head (s cutset : String) (x : Char)
    (h : (stringsTrim s cutset).data.head? = some x) : inCutset cutset x = false := by
  simp only [stringsTrim, List.head?_reverse] at h
  -- the trimmed list is a prefix of the list without its leading cutset characters
  set m := s.data.dropWhile (inCutset cutset) with hm
  have hsplit := List.takeWhile_append_dropWhile (inCutset cutset) m.reverse
  have hrev : m = (m.reverse.dropWhile (inCutset cutset)).reverse
      ++ (m.reverse.takeWhile (inCutset cutset)).reverse := by
    conv_lhs => rw [← List.reverse_reverse m, ← hsplit]
    rw [List.reverse_append]
  have hne : (m.reverse.dropWhile (inCutset cutset)).reverse ≠ [] := by
    intro hnil
    have : m.reverse.dropWhile (inCutset cutset) = [] := by simpa using hnil
    rw [this] at h
    simp at h
  have hhead : m.head? = some x := by
    rw [hrev, List.head?_append_of_ne_nil _ hne, List.head?_reverse]
    exact h
  exact head?_dropWhile_false (inCutset cutset) s.data x hhead

theorem stringsTrim_getLast (s cutset : String) (x : Char)
    (h : (stringsTrim s cutset).data.getLast? = some x) : inCutset cutset x = false := by
  simp only [stringsTrim, List.getLast?_reverse] at h
  exact head?_dropWhile_false (inCutset cutset) _ x h

/-- C6 (counterexample): the head `\t<title>x</title>\r` holds no `uia-remove` attribute and
no meta script, and the head fragment `parseHead` produces for it begins with a tab and ends
with a carriage return. -/
theorem head_fragment_keeps_tab :
    (∀ t ∈ exHeadTab, plainInHead t = true) ∧
    parseHead 6 ⟨exHeadTab ++ [exEnd "head"], none, ""⟩ NewMemoryContent
      = .ok ({ NewMemoryContent with head := some "\t<title>x</title>\r" }, ⟨[], none, ""⟩) ∧
    ("\t<title>x</title>\r").data.head? = some '\t' ∧
    ("\t<title>x</title>\r").data.getLast? = some '\r' := by
  decide

/-- C6 (amended): for a head whose tokens, up to the first end tag `</head>` or to the end of
the input, hold no `uia-remove` attribute and no script tag of type `text/uia-meta`,
`parseHead` succeeds; with st the concatenation of the raw bytes of these tokens without its
leading and trailing spaces and newlines (`strings.Trim(s, " \n")`), the head fragment becomes
st when st is not empty and is left as it was otherwise; st neither begins nor ends with a
space or a newline (tabs and carriage returns are not trimmed). -/
theorem parseHead_plain_trimmed (hs : List Token) (e : Token) (rest : List Token)
    (err : Option String) (errRaw : String) (c : MemoryContent) (fuel : Nat)
    (hplain : ∀ t ∈ hs, plainInHead t = true) (hfuel : hs.length < fuel) :
    (e.tt = .EndTagToken ∧ e.tag = "head" →
      parseHead fuel ⟨hs ++ e :: rest, err, errRaw⟩ c
        = .ok (if (stringsTrim (rawConcat hs) " \n").length > 0
            then { c with head := some (stringsTrim (rawConcat hs) " \n") } else c,
          ⟨rest, err, errRaw⟩)) ∧
    parseHead fuel ⟨hs, none, errRaw⟩ c
      = .ok (if (stringsTrim (rawConcat hs) " \n").length > 0
          then { c with head := some (stringsTrim (rawConcat hs) " \n") } else c,
        ⟨[], none, errRaw⟩) ∧
    (stringsTrim (rawConcat hs) " \n").data.head? ≠ some ' ' ∧
    (stringsTrim (rawConcat hs) " \n").data.head? ≠ some '\n' ∧
    (stringsTrim (rawConcat hs) " \n").data.getLast? ≠ some ' ' ∧
    (stringsTrim (rawConcat hs) " \n").data.getLast? ≠ some '\n' := by
  refine ⟨?_, ?_, ?_, ?_, ?_, ?_⟩
  · intro he
    unfold parseHead
    rw [parseHeadLoop_plain hs fuel e rest err errRaw c "" hplain he hfuel]
    simp only [String.empty_append]
    split <;> rfl
  · unfold parseHead
    rw [parseHeadLoop_plain_eof hs fuel errRaw c "" hplain hfuel]
    simp only [String.empty_append]
    split <;> rfl
  · intro h
    have := stringsTrim_head _ _ _ h
    revert this; decide
  · intro h
    have := stringsTrim_head _ _ _ h
    revert this; decide
  · intro h
    have := stringsTrim_getLast _ _ _ h
    revert this; decide
  · intro h
    have := stringsTrim_getLast _ _ _ h
    revert this; decide

/-- Witness of the amended C6 on the head ` \n\t<title>x</title>\r\n `: the spaces and
newlines around it are removed, the tab and the carriage return stay. -/
theorem parseHead_plain_trimmed_witness :
    parseHead 8 ⟨(exText " \n" :: exHeadTab ++ [exText "\n "]) ++ exEnd "head" :: [],
        none, ""⟩ NewMemoryContent
      = .ok ({ NewMemoryContent with head := some "\t<title>x</title>\r" }, ⟨[], none, ""⟩) ∧
    parseHead 8 ⟨exText " \n" :: exHeadTab ++ [exText "\n "], none, ""⟩ NewMemoryContent
      = .ok ({ NewMemoryContent with head := some "\t<title>x</title>\r" }, ⟨[], none, ""⟩) :=
  have h := parseHead_plain_trimmed (exText " \n" :: exHeadTab ++ [exText "\n "])
    (exEnd "head") [] none "" NewMemoryContent 8 (by decide) (by decide)
  ⟨(h.1 (by decide)).trans (by decide), h.2.1.trans (by decide)⟩

set_option maxRecDepth 100000 in
/-- C10 (counterexample): after the start tag of the meta script, the text `null` followed by
`</script>` is accepted: `parseMetaJson` returns no error and leaves the meta map nil, and
`parse` returns a content for `<head><script type="text/uia-meta">null</script></head>`.
In the other direction a valid JSON object is rejected when it holds a number that does not
fit a float64. -/
theorem meta_json_null_accepted :
    jsonUnmarshal "null" = .ok .null ∧
    parseMetaJson ⟨[exText "null", exEnd "script"], none, ""⟩ NewMemoryContent
      = .ok ({ NewMemoryContent with meta := none }, ⟨[], none, ""⟩) ∧
    parse ⟨[exStart "head" [] "<head>", exMetaScript, exText "null", exEnd "script",
        exEnd "head"], none, ""⟩
      = .ok { NewMemoryContent with meta := none } ∧
    (checkValid exHugeNumber.data).isSome = true ∧
    parseMetaJson ⟨[exText exHugeNumber, exEnd "script"], none, ""⟩ NewMemoryContent
      = .error (.errorf "error while parsing json from meta json element: " (some .jsonType)) := by
  decide

theorem parseMetaJson_ok_iff_aux (z : Tokenizer) (c : MemoryContent) :
    (∃ r, parseMetaJson z c = .ok r) ↔
      ∃ t t2 rest, z.toks = t :: t2 :: rest ∧ t.tt = .TextToken ∧
        (∃ top, jsonUnmarshal t.text = .ok top) ∧ t2.tt = .EndTagToken ∧ t2.tag = "script" := by
  rcases z with ⟨toks, err, raw⟩
  constructor
  · rintro ⟨r, hr⟩
    cases toks with
    | nil => simp [parseMetaJson, Tokenizer.Next] at hr
    | cons t ts =>
      by_cases ht : t.tt = .TextToken
      · cases hj : jsonUnmarshal t.text with
        | error e => simp [parseMetaJson, Tokenizer.Next, ht, hj] at hr
        | ok top =>
          cases ts with
          | nil => simp [parseMetaJson, Tokenizer.Next, ht, hj] at hr
          | cons t2 rest =>
            by_cases h2 : t2.tt = .EndTagToken
            · by_cases h3 : t2.tag = "script"
              · exact ⟨t, t2, rest, rfl, ht, ⟨top, hj⟩, h2, h3⟩
              · simp [parseMetaJson, Tokenizer.Next, ht, hj, h2, h3] at hr
            · simp [parseMetaJson, Tokenizer.Next, ht, hj, h2] at hr
      · simp [parseMetaJson, Tokenizer.Next, ht] at hr
  · rintro ⟨t, t2, rest, heq, ht, ⟨top, hj⟩, h2, h3⟩
    simp only at heq
    subst heq
    simp [parseMetaJson, Tokenizer.Next, ht, hj, h2, h3]

theorem jsonUnmarshal_ok_iff (text : String) :
    (∃ top, jsonUnmarshal text = .ok top) ↔
      ∃ s, checkValid text.data = some s ∧
        (((text.data.dropWhile jsonIsSpace).head? = some '{' ∧
            s.nums.any float64Overflows = false) ∨
          (text.data.dropWhile jsonIsSpace).head? = some 'n') := by
  unfold jsonUnmarshal
  cases hv : checkValid text.data with
  | none => simp
  | some s =>
    simp only [Option.some.injEq, exists_eq_left']
    by_cases h1 : (text.data.dropWhile jsonIsSpace).head? = some '{'
    · cases h2 : s.nums.any float64Overflows with
      | true => simp [h1]
      | false => simp [h1]
    · by_cases h3 : (text.data.dropWhile jsonIsSpace).head? = some 'n'
      · simp [h1, h3]
      · simp [h1, h3]

theorem parseHeadLoop_meta_error (fuel : Nat) (tok : Token) (z : Tokenizer) (c : MemoryContent)
    (buf : String) (e : GoError)
    (hstart : tok.tt = .StartTagToken ∨ tok.tt = .SelfClosingTagToken)
    (hremove : getAttr tok.attrs UiaRemove = none)
    (hscript : tok.tag = "script" ∧ attrHasValue tok.attrs "type" ScriptTypeMeta = true)
    (herr : parseMetaJson z c = .error e) :
    parseHeadLoop (fuel + 1) ⟨tok :: z.toks, z.err, z.errRaw⟩ c buf = .error e := by
  rw [parseHeadLoop_cons, if_pos hstart]
  simp only [skipSubtreeIfUiaRemove, hremove, Bool.false_eq_true, if_false]
  rw [if_pos hscript]
  have hz : (⟨z.toks, z.err, z.errRaw⟩ : Tokenizer) = z := rfl
  rw [hz, herr]

/-- C10 (amended): after the start tag of a script of type `text/uia-meta` in the head,
`parseMetaJson` succeeds if and only if the very next token is a text token whose text
`json.Unmarshal` accepts for the meta map and the token after that is an end tag `</script>`.
The accepted texts are the valid JSON texts (scanner `checkValid`) whose top-level value is an
object, all of whose numbers fit a float64, or is the JSON value null.  In every other case
`parseMetaJson` returns an error, and this error is what the loop of `parseHead`, `parseHead`
and the loop of `parse` return. -/
theorem parseMetaJson_ok_iff (z : Tokenizer) (c : MemoryContent) :
    ((∃ r, parseMetaJson z c = .ok r) ↔
      ∃ t t2 rest, z.toks = t :: t2 :: rest ∧ t.tt = .TextToken ∧
        (∃ top, jsonUnmarshal t.text = .ok top) ∧ t2.tt = .EndTagToken ∧ t2.tag = "script") ∧
    (∀ text : String, (∃ top, jsonUnmarshal text = .ok top) ↔
      ∃ s, checkValid text.data = some s ∧
        (((text.data.dropWhile jsonIsSpace).head? = some '{' ∧
            s.nums.any float64Overflows = false) ∨
          (text.data.dropWhile jsonIsSpace).head? = some 'n')) ∧
    ((¬ ∃ t t2 rest, z.toks = t :: t2 :: rest ∧ t.tt = .TextToken ∧
        (∃ top, jsonUnmarshal t.text = .ok top) ∧ t2.tt = .EndTagToken ∧ t2.tag = "script") →
      ∃ e, parseMetaJson z c = .error e ∧
        ∀ (fuel : Nat) (tok headTok : Token) (buf : String),
          (tok.tt = .StartTagToken ∨ tok.tt = .SelfClosingTagToken) →
          getAttr tok.attrs UiaRemove = none →
          (tok.tag = "script" ∧ attrHasValue tok.attrs "type" ScriptTypeMeta = true) →
          parseHeadLoop (fuel + 1) ⟨tok :: z.toks, z.err, z.errRaw⟩ c buf = .error e ∧
          parseHead (fuel + 1) ⟨tok :: z.toks, z.err, z.errRaw⟩ c = .error e ∧
          (headTok.tt = .StartTagToken ∧ headTok.tag = "head" →
            parseLoop (fuel + 2) ⟨headTok :: tok :: z.toks, z.err, z.errRaw⟩ c = .error e)) := by
  refine ⟨parseMetaJson_ok_iff_aux z c, jsonUnmarshal_ok_iff, ?_⟩
  intro hnot
  cases hr : parseMetaJson z c with
  | ok r => exact absurd ((parseMetaJson_ok_iff_aux z c).1 ⟨r, hr⟩) hnot
  | error e =>
    refine ⟨e, rfl, ?_⟩
    intro fuel tok headTok buf hstart hremove hscript
    have h1 := fun b => parseHeadLoop_meta_error fuel tok z c b e hstart hremove hscript hr
    have h2 : parseHead (fuel + 1) ⟨tok :: z.toks, z.err, z.errRaw⟩ c = .error e := by
      unfold parseHead
      rw [h1 ""]
    refine ⟨h1 buf, h2, ?_⟩
    intro hhead
    have hstep : parseLoop (fuel + 2) ⟨headTok :: tok :: z.toks, z.err, z.errRaw⟩ c
        = (match parseHead (fuel + 1) ⟨tok :: z.toks, z.err, z.errRaw⟩ c with
          | .error e => .error e
          | .outOfFuel => .outOfFuel
          | .ok (c1, z2) => parseLoop (fuel + 1) z2 c1) := by
      simp [parseLoop, Tokenizer.Next, hhead.1, hhead.2]
    rw [hstep, h2]

theorem GoMap.get_filter_ne {V : Type} (m : GoMap V) (k k1 : String) (h : k ≠ k1) :
    GoMap.get (m.filter (fun p => p.1 != k)) k1 = GoMap.get m k1 := by
  induction m with
  | nil => rfl
  | cons p rest ih =>
    obtain ⟨a, v⟩ := p
    by_cases ha : a = k
    · subst ha
      have hf : ((a, v) :: rest).filter (fun p => p.1 != a) = rest.filter (fun p => p.1 != a) :=
        List.filter_cons_of_neg (by simp)
      rw [hf, ih, GoMap.get, if_neg h]
    · have hf : ((a, v) :: rest).filter (fun p => p.1 != k)
          = (a, v) :: rest.filter (fun p => p.1 != k) :=
        List.filter_cons_of_pos (by simp [ha])
      rw [hf, GoMap.get, GoMap.get, ih]

theorem GoMap.get_set_ne {V : Type} (m : GoMap V) (k k1 : String) (v : V) (h : k ≠ k1) :
    (m.set k v).get k1 = m.get k1 := by
  unfold GoMap.set
  rw [GoMap.get, if_neg h]
  exact GoMap.get_filter_ne m k k1 h

theorem addDependencies_body (deps : List FetchDefinition) :
    ∀ c : MemoryContent, (addDependencies c deps).body = c.body := by
  induction deps with
  | nil => intro c; rfl
  | cons d ds ih =>
    intro c
    simp only [addDependencies, List.foldl_cons] at ih ⊢
    rw [ih]

theorem parseBodyLoop_default (fuel : Nat) :
    ∀ (z : Tokenizer) (c : MemoryContent) (buf : String) (c1 : MemoryContent) (s : String)
      (z1 : Tokenizer), parseBodyLoop fuel z c buf = .ok (c1, s, z1) →
      c1.body.get "" = (match lastDefault (bodyFragments fuel z) with
        | some f => some f
        | none => c.body.get "") := by
  induction fuel with
  | zero => intro z c buf c1 s z1 h; simp [parseBodyLoop] at h
  | succ n ih =>
    intro z c buf c1 s z1 h
    rcases z with ⟨toks, err, raw⟩
    cases toks with
    | nil =>
      cases err with
      | none =>
        simp only [parseBodyLoop, Tokenizer.Next] at h
        cases h
        simp [bodyFragments, Tokenizer.Next, lastDefault]
      | some e => simp [parseBodyLoop, Tokenizer.Next] at h
    | cons t ts =>
      rw [parseBodyLoop_cons] at h
      simp only [bodyFragments, Tokenizer.Next]
      by_cases hstart : t.tt = .StartTagToken ∨ t.tt = .SelfClosingTagToken
      · rw [if_pos hstart] at h
        rw [if_pos hstart]
        by_cases hskip : (skipSubtreeIfUiaRemove ⟨ts, err, raw⟩ t.tt t.tag t.attrs).1 = true
        · rw [if_pos hskip] at h
          rw [if_pos hskip]
          exact ih _ _ _ _ _ _ h
        · rw [if_neg hskip] at h
          rw [if_neg hskip]
          by_cases hfrag : t.tag = UiaFragment
          · rw [if_pos hfrag] at h
            rw [if_pos hfrag]
            cases hp : parseFragment n ⟨ts, err, raw⟩ with
            | error e => rw [hp] at h; simp at h
            | outOfFuel => rw [hp] at h; simp at h
            | ok r =>
              obtain ⟨f, deps, z2⟩ := r
              rw [hp] at h
              simp only at h
              have := ih _ _ _ _ _ _ h
              rw [this, addDependencies_body]
              simp only [lastDefault]
              cases hl : lastDefault (bodyFragments n z2) with
              | some g => rfl
              | none =>
                by_cases hname : getFragmentName t.attrs = ""
                · simp [hname, GoMap.get_set_self]
                · simp only [hname, if_false]
                  exact GoMap.get_set_ne _ _ _ _ hname
          · rw [if_neg hfrag] at h
            rw [if_neg hfrag]
            by_cases htail : t.tag = UiaTail
            · rw [if_pos htail] at h
              rw [if_pos htail]
              cases hp : parseFragment n ⟨ts, err, raw⟩ with
              | error e => rw [hp] at h; simp at h
              | outOfFuel => rw [hp] at h; simp at h
              | ok r =>
                obtain ⟨f, deps, z2⟩ := r
                rw [hp] at h
                simp only at h
                have := ih _ _ _ _ _ _ h
                rw [this, addDependencies_body]
            · rw [if_neg htail] at h
              rw [if_neg htail]
              by_cases hinc : t.tag = UiaInclude
              · rw [if_pos hinc] at h
                cases hg : getInclude t.raw t.attrs with
                | error e => rw [hg] at h; simp at h
                | ok r =>
                  obtain ⟨fd, text⟩ := r
                  rw [hg] at h
                  simp only at h
                  exact ih _ { c with requiredContent := c.requiredContent.set fd.URL fd } _ _ _ _ h
              · rw [if_neg hinc] at h
                exact ih _ _ _ _ _ _ h
      · rw [if_neg hstart] at h
        rw [if_neg hstart]
        by_cases hend : t.tt = .EndTagToken ∧ t.tag = "body"
        · rw [if_pos hend] at h
          rw [if_pos hend]
          cases h
          simp [lastDefault]
        · rw [if_neg hend] at h
          rw [if_neg hend]
          exact ih _ _ _ _ _ _ h

/-- C4 (counterexample): in `<body>a</body><body>b</body>` the second body holds no
`uia-fragment` and its buffer, trimmed, is `b`, yet after `parseBody` has returned for it the
default fragment is still `a`, the one of the first body. -/
theorem second_body_keeps_default :
    parse ⟨exTwoBodies, none, ""⟩ = .ok { NewMemoryContent with body := [("", "a")] } ∧
    parseBody 5 ⟨exTwoBodies.drop 1, none, ""⟩ NewMemoryContent
      = .ok ({ NewMemoryContent with body := [("", "a")] }, ⟨exTwoBodies.drop 3, none, ""⟩) ∧
    bodyFragments 3 ⟨exTwoBodies.drop 4, none, ""⟩ = [] ∧
    parseBodyLoop 3 ⟨exTwoBodies.drop 4, none, ""⟩
        { NewMemoryContent with body := [("", "a")] } ""
      = .ok ({ NewMemoryContent with body := [("", "a")] }, "b", ⟨[], none, ""⟩) ∧
    stringsTrim "b" " \n" = "b" ∧
    parseBody 3 ⟨exTwoBodies.drop 4, none, ""⟩ { NewMemoryContent with body := [("", "a")] }
      = .ok ({ NewMemoryContent with body := [("", "a")] }, ⟨[], none, ""⟩) := by
  decide

/-- C4 (amended): when `parseBody` returns without error, the entry of the body map under the
key "" is: the content of the last `uia-fragment` with an absent or empty name that this call
parsed, if there is one (the buffer is discarded); otherwise the entry the map had under ""
when `parseBody` was entered, if it had one (the buffer is discarded); otherwise the
default-body buffer without its leading and trailing spaces and newlines, if that is not
empty; otherwise there is no entry. -/
theorem parseBody_default_fragment (fuel : Nat) (z : Tokenizer) (c c1 : MemoryContent)
    (z1 : Tokenizer) (h : parseBody fuel z c = .ok (c1, z1)) :
    ∃ c0 s, parseBodyLoop fuel z c "" = .ok (c0, s, z1) ∧
      c1.body.get "" = (match lastDefault (bodyFragments fuel z) with
        | some f => some f
        | none =>
          match c.body.get "" with
          | some f0 => some f0
          | none =>
            if (stringsTrim s " \n").length > 0 then some (stringsTrim s " \n") else none) := by
  unfold parseBody at h
  cases hl : parseBodyLoop fuel z c "" with
  | error e => rw [hl] at h; simp at h
  | outOfFuel => rw [hl] at h; simp at h
  | ok r =>
    obtain ⟨c0, s, z0⟩ := r
    rw [hl] at h
    simp only at h
    have hinv := parseBodyLoop_default fuel z c "" c0 s z0 hl
    cases hg : c0.body.get "" with
    | some f =>
      rw [hg] at h
      simp only [Outcome.ok.injEq, Prod.mk.injEq] at h
      obtain ⟨rfl, rfl⟩ := h
      refine ⟨c0, s, rfl, ?_⟩
      rw [hg]
      rw [hg] at hinv
      cases hd : lastDefault (bodyFragments fuel z) with
      | some g => rw [hd] at hinv; exact hinv
      | none =>
        rw [hd] at hinv
        simp only at hinv ⊢
        rw [← hinv]
    | none =>
      rw [hg] at h
      rw [hg] at hinv
      have hd : lastDefault (bodyFragments fuel z) = none := by
        cases hd : lastDefault (bodyFragments fuel z) with
        | some g => rw [hd] at hinv; cases hinv
        | none => rfl
      have hc : c.body.get "" = none := by
        rw [hd] at hinv
        exact hinv.symm
      simp only at h
      by_cases hlen : (stringsTrim s " \n").length > 0
      · rw [if_pos hlen] at h
        simp only [Outcome.ok.injEq, Prod.mk.injEq] at h
        obtain ⟨rfl, rfl⟩ := h
        refine ⟨c0, s, rfl, ?_⟩
        rw [hd, hc]
        simp only [if_pos hlen]
        exact GoMap.get_set_self _ _ _
      · rw [if_neg hlen] at h
        simp only [Outcome.ok.injEq, Prod.mk.injEq] at h
        obtain ⟨rfl, rfl⟩ := h
        refine ⟨c0, s, rfl, ?_⟩
        rw [hd, hc, hg]
        simp only [if_neg hlen]

/-- Witness of the amended C4 on a body with the default fragments `one` and `three` and
text around them: the default fragment is `three`, the content of the last one. -/
theorem parseBody_default_fragment_witness :
    lastDefault (bodyFragments 13 ⟨exDefaults, none, ""⟩) = some "three" ∧
    ∃ c0 s, parseBodyLoop 13 ⟨exDefaults, none, ""⟩ NewMemoryContent ""
        = .ok (c0, s, ⟨[], none, ""⟩) ∧
      GoMap.get [("", "three"), ("n", "two")] ""
        = (match lastDefault (bodyFragments 13 ⟨exDefaults, none, ""⟩) with
          | some f => some f
          | none =>
            match NewMemoryContent.body.get "" with
            | some f0 => some f0
            | none =>
              if (stringsTrim s " \n").length > 0 then some (stringsTrim s " \n") else none) :=
  ⟨by decide,
   parseBody_default_fragment 13 ⟨exDefaults, none, ""⟩ NewMemoryContent
    { NewMemoryContent with body := [("", "three"), ("n", "two")] } ⟨[], none, ""⟩ (by decide)⟩

/-- C12 (the code at the failing input): inside a fragment the loop of `parseFragment` tests
for `uia-include` before it tests for `uia-remove`, so `<uia-include src="/x" uia-remove>` is
not dropped there: its placeholder is written into the fragment and its definition is added
to `requiredContent`.  Met directly in the body the same tag is dropped. -/
theorem fragment_include_with_remove_kept :
    parseFragment 3 ⟨[exIncludeRemove, exEnd "uia-fragment"], none, ""⟩
      = .ok ("§[> /x]§", [{ FetchDefinition.zero with URL := "/x" }], ⟨[], none, ""⟩) ∧
    parse ⟨[exStart "body" [] "<body>", exStart "uia-fragment" [] "<uia-fragment>",
        exIncludeRemove, exEnd "uia-fragment", exEnd "body"], none, ""⟩
      = .ok { NewMemoryContent with
          requiredContent := [("/x", { FetchDefinition.zero with URL := "/x" })],
          body := [("", "§[> /x]§")] } ∧
    parse ⟨[exStart "body" [] "<body>", exStart "uia-tail" [] "<uia-tail>",
        exIncludeRemove, exEnd "uia-tail", exEnd "body"], none, ""⟩
      = .ok { NewMemoryContent with
          requiredContent := [("/x", { FetchDefinition.zero with URL := "/x" })],
          tail := some "§[> /x]§" } ∧
    parse ⟨[exStart "body" [] "<body>", exIncludeRemove, exEnd "body"], none, ""⟩
      = .ok NewMemoryContent := by
  decide

theorem wrapInt64_of_range (x : Int) (h1 : -9223372036854775808 ≤ x)
    (h2 : x < 9223372036854775808) : wrapInt64 x = x := by
  unfold wrapInt64
  have e63 : (2 : Int) ^ 63 = 9223372036854775808 := by norm_num
  have e64 : (2 : Int) ^ 64 = 18446744073709551616 := by norm_num
  rw [e63, e64]
  omega

theorem getInclude_timeout_eq (raw : String) (attrs : List Attribute) (t : Attribute) (n : Int)
    (fd : FetchDefinition) (text : String)
    (ht : getAttr attrs "timeout" = some t) (hn : strconvAtoi t.Val = .ok n)
    (h : getInclude raw attrs = .ok (fd, text)) :
    fd.Timeout = wrapInt64 (Millisecond * n) := by
  unfold getInclude at h
  cases hs : getAttr attrs "src" with
  | none => simp [hs] at h
  | some a =>
    simp only [hs, ht, hn] at h
    cases hr : getAttr attrs "required" with
    | none =>
      simp only [hr, Res.ok.injEq, Prod.mk.injEq] at h
      rw [← h.1]
    | some r =>
      cases hb : strconvParseBool r.Val with
      | none => simp [hr, hb] at h
      | some b =>
        simp only [hr, hb, Res.ok.injEq, Prod.mk.injEq] at h
        rw [← h.1]

/-- C13 (counterexample): `timeout="0"` is accepted by `strconv.Atoi` and gives a Timeout of
zero, which is not greater than zero; `timeout="9223372036855"` is accepted as well, and the
product with `time.Millisecond` wraps around in int64: the Timeout is negative and is not
9223372036855 × 1,000,000. -/
theorem include_timeout_zero_and_overflow :
    strconvAtoi "0" = .ok 0 ∧
    getInclude exIncludeTimeoutZero.raw exIncludeTimeoutZero.attrs
      = .ok ({ FetchDefinition.zero with URL := "/x", Timeout := 0 }, "§[> /x]§") ∧
    ¬ ((0 : Int) < 0) ∧
    strconvAtoi "9223372036855" = .ok 9223372036855 ∧
    getInclude exIncludeTimeoutHuge.raw exIncludeTimeoutHuge.attrs
      = .ok ({ FetchDefinition.zero with URL := "/x", Timeout := -9223372036854551616 },
          "§[> /x]§") ∧
    (-9223372036854551616 : Int) ≠ 9223372036855 * 1000000 := by
  decide

/-- C13 (amended): for an include whose timeout attribute holds an integer n accepted by
`strconv.Atoi`, the Timeout of the definition is the int64 product of `time.Millisecond` and
n.  It is exactly n × 1,000,000 nanoseconds when n lies between -9223372036854 and
9223372036854 (outside of this range the product wraps around modulo 2^64), and within this
range it is greater than zero exactly when n is. -/
theorem getInclude_timeout (raw : String) (attrs : List Attribute) (t : Attribute) (n : Int)
    (fd : FetchDefinition) (text : String)
    (ht : getAttr attrs "timeout" = some t) (hn : strconvAtoi t.Val = .ok n)
    (h : getInclude raw attrs = .ok (fd, text)) :
    fd.Timeout = wrapInt64 (1000000 * n) ∧
    (-9223372036854 ≤ n ∧ n ≤ 9223372036854 →
      fd.Timeout = n * 1000000 ∧ (0 < fd.Timeout ↔ 0 < n)) := by
  have h1 := getInclude_timeout_eq raw attrs t n fd text ht hn h
  have hm : Millisecond = 1000000 := rfl
  rw [hm] at h1
  refine ⟨h1, ?_⟩
  intro hr
  have h2 : wrapInt64 (1000000 * n) = 1000000 * n :=
    wrapInt64_of_range _ (by omega) (by omega)
  rw [h1, h2]
  constructor
  · omega
  · constructor <;> intro h3 <;> omega

/-- Witness of the amended C13 on `<uia-include src="/teaser" timeout="500" required="false">`:
the Timeout is 500,000,000 nanoseconds. -/
theorem getInclude_timeout_witness :
    ({ FetchDefinition.zero with URL := "/teaser", Timeout := 500000000 } : FetchDefinition).Timeout
        = wrapInt64 (1000000 * 500) ∧
    (-9223372036854 ≤ (500 : Int) ∧ (500 : Int) ≤ 9223372036854 →
      ({ FetchDefinition.zero with URL := "/teaser", Timeout := 500000000 } :
          FetchDefinition).Timeout = 500 * 1000000 ∧
      (0 < ({ FetchDefinition.zero with URL := "/teaser", Timeout := 500000000 } :
          FetchDefinition).Timeout ↔ 0 < (500 : Int))) :=
  getInclude_timeout exIncludeFull.raw exIncludeFull.attrs ⟨"timeout", "500"⟩ 500
    { FetchDefinition.zero with URL := "/teaser", Timeout := 500000000 } "§[> /teaser]§"
    (by decide) (by decide) (by decide)

theorem getInclude_url (raw : String) (t : Token) (fd : FetchDefinition) (text : String)
    (h : getInclude raw t.attrs = .ok (fd, text)) : fd.URL = srcOf t := by
  unfold getInclude at h
  unfold srcOf
  cases hs : getAttr t.attrs "src" with
  | none => simp [hs] at h
  | some a =>
    simp only [hs] at h
    have key : ∀ wt : Res GoError FetchDefinition,
        (∀ fd0, wt = .ok fd0 → fd0.URL = a.Val) →
        (match wt with
          | .error e => (.error e : Res GoError (FetchDefinition × String))
          | .ok fd =>
            match getAttr t.attrs "required" with
            | none => .ok (fd, placeholder fd.URL)
            | some required =>
              match strconvParseBool required.Val with
              | none =>
                .error (.errorf ("error parsing bool in " ++ raw ++ ": ")
                  (some (.parseBool required.Val)))
              | some requiredBool =>
                .ok ({ fd with Required := requiredBool }, placeholder fd.URL))
          = .ok (fd, text) → fd.URL = a.Val := by
      intro wt hwt hres
      cases wt with
      | error e => simp at hres
      | ok fd0 =>
        have hu := hwt fd0 rfl
        cases hr : getAttr t.attrs "required" with
        | none =>
          simp only [hr, Res.ok.injEq, Prod.mk.injEq] at hres
          rw [← hres.1]; exact hu
        | some r =>
          cases hb : strconvParseBool r.Val with
          | none => simp [hr, hb] at hres
          | some b =>
            simp only [hr, hb, Res.ok.injEq, Prod.mk.injEq] at hres
            rw [← hres.1]; exact hu
    refine key _ ?_ h
    intro fd0 h0
    cases htm : getAttr t.attrs "timeout" with
    | none =>
      simp only [htm, Res.ok.injEq] at h0
      rw [← h0]
    | some tm =>
      cases hat : strconvAtoi tm.Val with
      | error e => simp [htm, hat] at h0
      | ok n =>
        simp only [htm, hat, Res.ok.injEq] at h0
        rw [← h0]

theorem parseFragmentLoop_deps (fuel : Nat) :
    ∀ (z : Tokenizer) (deps : List FetchDefinition) (buf f : String)
      (d2 : List FetchDefinition) (z2 : Tokenizer),
      parseFragmentLoop fuel z deps buf = .ok (f, d2, z2) →
      d2.map (fun d => d.URL)
        = deps.map (fun d => d.URL) ++ (fragmentIncludes fuel z).map srcOf := by
  induction fuel with
  | zero => intro z deps buf f d2 z2 h; simp [parseFragmentLoop] at h
  | succ n ih =>
    intro z deps buf f d2 z2 h
    rcases z with ⟨toks, err, raw⟩
    cases toks with
    | nil =>
      cases err with
      | none =>
        simp only [parseFragmentLoop, Tokenizer.Next, Outcome.ok.injEq, Prod.mk.injEq] at h
        simp [fragmentIncludes, Tokenizer.Next, h.2.1]
      | some e => simp [parseFragmentLoop, Tokenizer.Next] at h
    | cons t ts =>
      rw [parseFragmentLoop_cons] at h
      simp only [fragmentIncludes, Tokenizer.Next]
      by_cases hstart : t.tt = .StartTagToken ∨ t.tt = .SelfClosingTagToken
      · rw [if_pos hstart] at h
        rw [if_pos hstart]
        by_cases hinc : t.tag = UiaInclude
        · rw [if_pos hinc] at h
          rw [if_pos hinc]
          cases hg : getInclude t.raw t.attrs with
          | error e => rw [hg] at h; simp at h
          | ok r =>
            obtain ⟨fd, text⟩ := r
            rw [hg] at h
            simp only at h
            rw [ih _ _ _ _ _ _ h]
            simp [getInclude_url t.raw t fd text hg]
        · rw [if_neg hinc] at h
          rw [if_neg hinc]
          by_cases hskip : (skipSubtreeIfUiaRemove ⟨ts, err, raw⟩ t.tt t.tag t.attrs).1 = true
          · rw [if_pos hskip] at h
            rw [if_pos hskip]
            exact ih _ _ _ _ _ _ h
          · rw [if_neg hskip] at h
            rw [if_neg hskip]
            exact ih _ _ _ _ _ _ h
      · rw [if_neg hstart] at h
        rw [if_neg hstart]
        by_cases hend : t.tt = .EndTagToken ∧ (t.tag = UiaFragment ∨ t.tag = UiaTail)
        · rw [if_pos hend] at h
          rw [if_pos hend]
          simp only [Outcome.ok.injEq, Prod.mk.injEq] at h
          simp [h.2.1]
        · rw [if_neg hend] at h
          rw [if_neg hend]
          exact ih _ _ _ _ _ _ h

theorem GoMap.mem_keys_set {V : Type} (m : GoMap V) (k : String) (v : V) (u : String) :
    u ∈ (m.set k v).map (fun p => p.1) ↔ u = k ∨ u ∈ m.map (fun p => p.1) := by
  unfold GoMap.set
  simp only [List.map_cons, List.mem_cons, List.mem_map, List.mem_filter, bne_iff_ne, ne_eq]
  constructor
  · rintro (h | ⟨p, ⟨hp, -⟩, rfl⟩)
    · exact Or.inl h
    · exact Or.inr ⟨p, hp, rfl⟩
  · rintro (h | ⟨p, hp, rfl⟩)
    · exact Or.inl h
    · by_cases hk : p.1 = k
      · exact Or.inl hk
      · exact Or.inr ⟨p, ⟨hp, hk⟩, rfl⟩

theorem WellKeyed.set (m : GoMap FetchDefinition) (fd : FetchDefinition) (h : WellKeyed m) :
    WellKeyed (m.set fd.URL fd) := by
  obtain ⟨hn, hu⟩ := h
  unfold GoMap.set
  constructor
  · simp only [List.map_cons, List.nodup_cons, List.mem_map, List.mem_filter, bne_iff_ne, ne_eq,
      not_exists, not_and]
    refine ⟨fun p hp => fun hk => hp.2 hk, ?_⟩
    exact (List.Nodup.sublist (List.Sublist.map _ (List.filter_sublist m)) hn)
  · intro p hp
    simp only [List.mem_cons, List.mem_filter] at hp
    rcases hp with rfl | ⟨hp, -⟩
    · rfl
    · exact hu p hp

theorem addDependencies_requiredContent (deps : List FetchDefinition) :
    ∀ c : MemoryContent, WellKeyed c.requiredContent →
      WellKeyed (addDependencies c deps).requiredContent ∧
      ∀ u, u ∈ (addDependencies c deps).requiredContent.map (fun p => p.1) ↔
        u ∈ c.requiredContent.map (fun p => p.1) ∨ u ∈ deps.map (fun d => d.URL) := by
  induction deps with
  | nil => intro c h; exact ⟨h, fun u => by simp [addDependencies]⟩
  | cons d ds ih =>
    intro c h
    have h1 : addDependencies c (d :: ds)
        = addDependencies { c with requiredContent := c.requiredContent.set d.URL d } ds := rfl
    rw [h1]
    obtain ⟨hw, hk⟩ := ih { c with requiredContent := c.requiredContent.set d.URL d }
      (WellKeyed.set _ _ h)
    refine ⟨hw, fun u => ?_⟩
    rw [hk u]
    simp only [GoMap.mem_keys_set, List.map_cons, List.mem_cons]
    tauto

theorem parseBodyLoop_required (fuel : Nat) :
    ∀ (z : Tokenizer) (c : MemoryContent) (buf : String) (c1 : MemoryContent) (s : String)
      (z1 : Tokenizer), parseBodyLoop fuel z c buf = .ok (c1, s, z1) →
      WellKeyed c.requiredContent →
      WellKeyed c1.requiredContent ∧
      ∀ u, u ∈ c1.requiredContent.map (fun p => p.1) ↔
        u ∈ c.requiredContent.map (fun p => p.1) ∨ u ∈ (bodyIncludes fuel z).map srcOf := by
  induction fuel with
  | zero => intro z c buf c1 s z1 h; simp [parseBodyLoop] at h
  | succ n ih =>
    intro z c buf c1 s z1 h hw
    rcases z with ⟨toks, err, raw⟩
    cases toks with
    | nil =>
      cases err with
      | none =>
        simp only [parseBodyLoop, Tokenizer.Next, Outcome.ok.injEq, Prod.mk.injEq] at h
        rw [← h.1]
        exact ⟨hw, fun u => by simp [bodyIncludes, Tokenizer.Next]⟩
      | some e => simp [parseBodyLoop, Tokenizer.Next] at h
    | cons t ts =>
      rw [parseBodyLoop_cons] at h
      simp only [bodyIncludes, Tokenizer.Next]
      have key : ∀ (c0 : MemoryContent) (f : String) (deps : List FetchDefinition)
          (z2 : Tokenizer), c0.requiredContent = c.requiredContent →
          parseFragment n ⟨ts, err, raw⟩ = .ok (f, deps, z2) →
          parseBodyLoop n z2 (addDependencies c0 deps) buf = .ok (c1, s, z1) →
          WellKeyed c1.requiredContent ∧
          ∀ u, u ∈ c1.requiredContent.map (fun p => p.1) ↔
            u ∈ c.requiredContent.map (fun p => p.1) ∨
            u ∈ (fragmentIncludes n ⟨ts, err, raw⟩ ++ bodyIncludes n z2).map srcOf := by
        intro c0 f deps z2 hc0 hp hh
        have hd := parseFragmentLoop_deps n ⟨ts, err, raw⟩ [] "" f deps z2 hp
        simp only [List.map_nil, List.nil_append] at hd
        obtain ⟨hw0, hk0⟩ := addDependencies_requiredContent deps c0 (by rw [hc0]; exact hw)
        obtain ⟨hw1, hk1⟩ := ih _ _ _ _ _ _ hh hw0
        refine ⟨hw1, fun u => ?_⟩
        rw [hk1 u, hk0 u, hc0, hd]
        simp only [List.map_append, List.mem_append]
        tauto
      by_cases hstart : t.tt = .StartTagToken ∨ t.tt = .SelfClosingTagToken
      · rw [if_pos hstart] at h
        rw [if_pos hstart]
        by_cases hskip : (skipSubtreeIfUiaRemove ⟨ts, err, raw⟩ t.tt t.tag t.attrs).1 = true
        · rw [if_pos hskip] at h
          rw [if_pos hskip]
          exact ih _ _ _ _ _ _ h hw
        · rw [if_neg hskip] at h
          rw [if_neg hskip]
          by_cases hfrag : t.tag = UiaFragment
          · rw [if_pos hfrag] at h
            rw [if_pos (Or.inl hfrag)]
            cases hp : parseFragment n ⟨ts, err, raw⟩ with
            | error e => rw [hp] at h; simp at h
            | outOfFuel => rw [hp] at h; simp at h
            | ok r =>
              obtain ⟨f, deps, z2⟩ := r
              rw [hp] at h
              simp only at h
              exact key { c with body := c.body.set (getFragmentName t.attrs) f } f deps z2 rfl
                hp h
          · rw [if_neg hfrag] at h
            by_cases htail : t.tag = UiaTail
            · rw [if_pos htail] at h
              rw [if_pos (Or.inr htail)]
              cases hp : parseFragment n ⟨ts, err, raw⟩ with
              | error e => rw [hp] at h; simp at h
              | outOfFuel => rw [hp] at h; simp at h
              | ok r =>
                obtain ⟨f, deps, z2⟩ := r
                rw [hp] at h
                simp only at h
                exact key { c with tail := some f } f deps z2 rfl hp h
            · rw [if_neg htail] at h
              have hneither : ¬ (t.tag = UiaFragment ∨ t.tag = UiaTail) := by
                rintro (h1 | h1)
                · exact hfrag h1
                · exact htail h1
              rw [if_neg hneither]
              by_cases hinc : t.tag = UiaInclude
              · rw [if_pos hinc] at h
                rw [if_pos hinc]
                cases hg : getInclude t.raw t.attrs with
                | error e => rw [hg] at h; simp at h
                | ok r =>
                  obtain ⟨fd, text⟩ := r
                  rw [hg] at h
                  simp only at h
                  obtain ⟨hw1, hk1⟩ := ih _
                    { c with requiredContent := c.requiredContent.set fd.URL fd } _ _ _ _ h
                    (WellKeyed.set _ _ hw)
                  refine ⟨hw1, fun u => ?_⟩
                  rw [hk1 u]
                  simp only [GoMap.mem_keys_set, List.map_cons, List.mem_cons,
                    getInclude_url t.raw t fd text hg]
                  tauto
              · rw [if_neg hinc] at h
                rw [if_neg hinc]
                exact ih _ _ _ _ _ _ h hw
      · rw [if_neg hstart] at h
        rw [if_neg hstart]
        by_cases hend : t.tt = .EndTagToken ∧ t.tag = "body"
        · rw [if_pos hend] at h
          rw [if_pos hend]
          simp only [Outcome.ok.injEq, Prod.mk.injEq] at h
          rw [← h.1]
          exact ⟨hw, fun u => by simp⟩
        · rw [if_neg hend] at h
          rw [if_neg hend]
          exact ih _ _ _ _ _ _ h hw

theorem parseBody_required (fuel : Nat) (z : Tokenizer) (c c1 : MemoryContent) (z1 : Tokenizer)
    (h : parseBody fuel z c = .ok (c1, z1)) (hw : WellKeyed c.requiredContent) :
    WellKeyed c1.requiredContent ∧
    ∀ u, u ∈ c1.requiredContent.map (fun p => p.1) ↔
      u ∈ c.requiredContent.map (fun p => p.1) ∨ u ∈ (bodyIncludes fuel z).map srcOf := by
  unfold parseBody at h
  cases hl : parseBodyLoop fuel z c "" with
  | error e => rw [hl] at h; simp at h
  | outOfFuel => rw [hl] at h; simp at h
  | ok r =>
    obtain ⟨c0, s, z0⟩ := r
    rw [hl] at h
    have hinv := parseBodyLoop_required fuel z c "" c0 s z0 hl hw
    have hc : c1.requiredContent = c0.requiredContent := by
      simp only at h
      split at h
      · simp only [Outcome.ok.injEq, Prod.mk.injEq] at h
        rw [← h.1]
      · split at h
        · simp only [Outcome.ok.injEq, Prod.mk.injEq] at h
          rw [← h.1]
        · simp only [Outcome.ok.injEq, Prod.mk.injEq] at h
          rw [← h.1]
    rw [hc]
    exact hinv

theorem parseMetaJson_frame (z : Tokenizer) (c c1 : MemoryContent) (z2 : Tokenizer)
    (h : parseMetaJson z c = .ok (c1, z2)) : c1 = { c with meta := c1.meta } := by
  rcases z with ⟨toks, err, raw⟩
  cases toks with
  | nil => simp [parseMetaJson, Tokenizer.Next] at h
  | cons t ts =>
    by_cases ht : t.tt = .TextToken
    · cases hj : jsonUnmarshal t.text with
      | error e => simp [parseMetaJson, Tokenizer.Next, ht, hj] at h
      | ok top =>
        cases ts with
        | nil => simp [parseMetaJson, Tokenizer.Next, ht, hj] at h
        | cons t2 rest =>
          by_cases h2 : t2.tt ≠ .EndTagToken ∨ t2.tag ≠ "script"
          · simp [parseMetaJson, Tokenizer.Next, ht, hj, h2] at h
          · simp only [parseMetaJson, Tokenizer.Next, ht, hj, ne_eq, not_true_eq_false,
              if_false, if_neg h2, Res.ok.injEq, Prod.mk.injEq] at h
            rw [← h.1]
            cases top <;> rfl
    · simp [parseMetaJson, Tokenizer.Next, ht] at h

theorem parseHeadLoop_frame (fuel : Nat) :
    ∀ (z : Tokenizer) (c : MemoryContent) (buf : String) (c1 : MemoryContent) (s : String)
      (z1 : Tokenizer), parseHeadLoop fuel z c buf = .ok (c1, s, z1) →
      c1 = { c with meta := c1.meta } := by
  induction fuel with
  | zero => intro z c buf c1 s z1 h; simp [parseHeadLoop] at h
  | succ n ih =>
    intro z c buf c1 s z1 h
    rcases z with ⟨toks, err, raw⟩
    cases toks with
    | nil =>
      cases err with
      | none =>
        simp only [parseHeadLoop, Tokenizer.Next, Outcome.ok.injEq, Prod.mk.injEq] at h
        rw [← h.1]
      | some e => simp [parseHeadLoop, Tokenizer.Next] at h
    | cons t ts =>
      rw [parseHeadLoop_cons] at h
      split at h
      · split at h
        · exact ih _ _ _ _ _ _ h
        · split at h
          · cases hm : parseMetaJson ⟨ts, err, raw⟩ c with
            | error e => rw [hm] at h; simp at h
            | ok r =>
              obtain ⟨c2, z2⟩ := r
              rw [hm] at h
              simp only at h
              have h1 := parseMetaJson_frame _ _ _ _ hm
              have h2 := ih _ _ _ _ _ _ h
              rw [h2, h1]
          · exact ih _ _ _ _ _ _ h
      · split at h
        · simp only [Outcome.ok.injEq, Prod.mk.injEq] at h
          rw [← h.1]
        · exact ih _ _ _ _ _ _ h

theorem parseHead_frame (fuel : Nat) (z : Tokenizer) (c c1 : MemoryContent) (z1 : Tokenizer)
    (h : parseHead fuel z c = .ok (c1, z1)) :
    c1 = { c with meta := c1.meta, head := c1.head } := by
  unfold parseHead at h
  cases hl : parseHeadLoop fuel z c "" with
  | error e => rw [hl] at h; simp at h
  | outOfFuel => rw [hl] at h; simp at h
  | ok r =>
    obtain ⟨c0, s, z0⟩ := r
    rw [hl] at h
    have hf := parseHeadLoop_frame fuel z c "" c0 s z0 hl
    simp only at h
    split at h
    · simp only [Outcome.ok.injEq, Prod.mk.injEq] at h
      rw [← h.1, hf]
    · simp only [Outcome.ok.injEq, Prod.mk.injEq] at h
      rw [← h.1, hf]

theorem GoMap.get_of_mem {V : Type} (m : GoMap V) (hn : (m.map (fun p => p.1)).Nodup)
    (p : String × V) (hp : p ∈ m) : m.get p.1 = some p.2 := by
  induction m with
  | nil => cases hp
  | cons q rest ih =>
    obtain ⟨k, v⟩ := q
    simp only [List.map_cons, List.nodup_cons] at hn
    rcases List.mem_cons.1 hp with rfl | hmem
    · simp [GoMap.get]
    · have hne : k ≠ p.1 := by
        intro hk
        apply hn.1
        rw [hk]
        exact List.mem_map.2 ⟨p, hmem, rfl⟩
      rw [GoMap.get, if_neg hne]
      exact ih hn.2 hmem
theorem parseLoop_required (fuel : Nat) :
    ∀ (z : Tokenizer) (c c1 : MemoryContent), parseLoop fuel z c = .ok c1 →
      WellKeyed c.requiredContent →
      WellKeyed c1.requiredContent ∧
      ∀ u, u ∈ c1.requiredContent.map (fun p => p.1) ↔
        u ∈ c.requiredContent.map (fun p => p.1) ∨ u ∈ (parseIncludes fuel z c).map srcOf := by
  induction fuel with
  | zero => intro z c c1 h; simp [parseLoop] at h
  | succ n ih =>
    intro z c c1 h hw
    rcases z with ⟨toks, err, raw⟩
    cases toks with
    | nil =>
      cases err with
      | none =>
        simp only [parseLoop, Tokenizer.Next, Outcome.ok.injEq] at h
        rw [← h]
        exact ⟨hw, fun u => by simp [parseIncludes, Tokenizer.Next]⟩
      | some e => simp [parseLoop, Tokenizer.Next] at h
    | cons t ts =>
      simp only [parseLoop, Tokenizer.Next] at h
      simp only [parseIncludes, Tokenizer.Next]
      by_cases hstart : t.tt = .StartTagToken
      · rw [if_pos hstart] at h
        rw [if_pos hstart]
        by_cases hhead : t.tag = "head"
        · rw [if_pos hhead] at h
          rw [if_pos hhead]
          cases hp : parseHead n ⟨ts, err, raw⟩ c with
          | error e => rw [hp] at h; simp at h
          | outOfFuel => rw [hp] at h; simp at h
          | ok r =>
            obtain ⟨c2, z2⟩ := r
            rw [hp] at h
            simp only at h
            have hf := parseHead_frame n _ c c2 z2 hp
            have hrc : c2.requiredContent = c.requiredContent := by rw [hf]
            obtain ⟨hw1, hk1⟩ := ih _ _ _ h (by rw [hrc]; exact hw)
            refine ⟨hw1, fun u => ?_⟩
            rw [hk1 u, hrc]
        · rw [if_neg hhead] at h
          rw [if_neg hhead]
          by_cases hbody : t.tag = "body"
          · rw [if_pos hbody] at h
            rw [if_pos hbody]
            cases hp : parseBody n ⟨ts, err, raw⟩ c with
            | error e => rw [hp] at h; simp at h
            | outOfFuel => rw [hp] at h; simp at h
            | ok r =>
              obtain ⟨c2, z2⟩ := r
              rw [hp] at h
              simp only at h
              obtain ⟨hw0, hk0⟩ := parseBody_required n _ c c2 z2 hp hw
              obtain ⟨hw1, hk1⟩ := ih _ _ _ h hw0
              refine ⟨hw1, fun u => ?_⟩
              rw [hk1 u, hk0 u]
              simp only [List.map_append, List.mem_append]
              tauto
          · rw [if_neg hbody] at h
            rw [if_neg hbody]
            exact ih _ _ _ h hw
      · rw [if_neg hstart] at h
        rw [if_neg hstart]
        exact ih _ _ _ h hw

theorem WellKeyed.urls (m : GoMap FetchDefinition) (h : WellKeyed m) :
    (m.map (fun p => p.2)).map (fun d => d.URL) = m.map (fun p => p.1) := by
  rw [List.map_map]
  apply List.map_congr_left
  intro p hp
  exact h.2 p hp

/-- C11: when `parse` succeeds, the definitions returned by `RequiredContent()` have pairwise
distinct URLs, each is stored in the map `requiredContent` under the key that equals its URL,
and a URL occurs among them exactly when it is the src value of a `uia-include` tag that the
loader processed (in a body, in a `uia-fragment` or in a `uia-tail`); a src value that occurs
several times gives one entry. -/
theorem required_content_unique (z : Tokenizer) (c : MemoryContent) (h : parse z = .ok c) :
    (c.RequiredContent.map (fun d => d.URL)).Nodup ∧
    (∀ p ∈ c.requiredContent, p.2.URL = p.1) ∧
    (∀ d ∈ c.RequiredContent, c.requiredContent.get d.URL = some d) ∧
    (∀ u, u ∈ c.RequiredContent.map (fun d => d.URL) ↔
      u ∈ (parseIncludes (z.toks.length + 1) z NewMemoryContent).map srcOf) := by
  have hw0 : WellKeyed NewMemoryContent.requiredContent := by
    constructor
    · exact List.nodup_nil
    · intro p hp; cases hp
  obtain ⟨hw, hk⟩ := parseLoop_required _ z NewMemoryContent c h hw0
  have hurls := WellKeyed.urls _ hw
  unfold MemoryContent.RequiredContent
  rw [hurls]
  refine ⟨hw.1, hw.2, ?_, fun u => ?_⟩
  · intro d hd
    obtain ⟨p, hp, rfl⟩ := List.mem_map.1 hd
    rw [hw.2 p hp]
    exact GoMap.get_of_mem _ hw.1 p hp
  · rw [hk u]
    simp [NewMemoryContent]

/-- Witness of C11 on `exIncludesDoc`, where `/x` is included twice and `/teaser` once: the
content holds one definition for each of the two URLs. -/
theorem required_content_unique_witness :
    ((exIncludesContent.RequiredContent.map (fun d => d.URL)).Nodup ∧
      (∀ p ∈ exIncludesContent.requiredContent, p.2.URL = p.1) ∧
      (∀ d ∈ exIncludesContent.RequiredContent,
        exIncludesContent.requiredContent.get d.URL = some d) ∧
      (∀ u, u ∈ exIncludesContent.RequiredContent.map (fun d => d.URL) ↔
        u ∈ (parseIncludes ((⟨exIncludesDoc, none, ""⟩ : Tokenizer).toks.length + 1)
          ⟨exIncludesDoc, none, ""⟩ NewMemoryContent).map srcOf)) ∧
    exIncludesContent.RequiredContent.map (fun d => d.URL) = ["/teaser", "/x"] ∧
    (parseIncludes 10 ⟨exIncludesDoc, none, ""⟩ NewMemoryContent).map srcOf
      = ["/x", "/x", "/teaser"] :=
  ⟨required_content_unique ⟨exIncludesDoc, none, ""⟩ exIncludesContent (by decide),
   by decide, by decide⟩

theorem skipSubtreeLoop_subset (ts : List Token) :
    ∀ (depth : Int) (t : Token), t ∈ skipSubtreeLoop ts depth → t ∈ ts := by
  induction ts with
  | nil => intro depth t h; simp [skipSubtreeLoop] at h
  | cons x xs ih =>
    intro depth t h
    simp only [skipSubtreeLoop] at h
    split at h
    · exact List.mem_cons_of_mem _ (ih _ _ h)
    · split at h
      · split at h
        · exact List.mem_cons_of_mem _ h
        · exact List.mem_cons_of_mem _ (ih _ _ h)
      · exact List.mem_cons_of_mem _ (ih _ _ h)

theorem skipSubtreeIfUiaRemove_subset (z : Tokenizer) (tt : TokenType) (tagName : String)
    (attrs : List Attribute) :
    (skipSubtreeIfUiaRemove z tt tagName attrs).2.err = z.err ∧
    ∀ t ∈ (skipSubtreeIfUiaRemove z tt tagName attrs).2.toks, t ∈ z.toks := by
  unfold skipSubtreeIfUiaRemove
  cases getAttr attrs UiaRemove with
  | none => simp
  | some a =>
    simp only
    split
    · simp
    · exact ⟨rfl, fun t ht => skipSubtreeLoop_subset _ _ t ht⟩

theorem skipSubtreeLoop_staysOpen (inner : List Token) :
    ∀ depth : Nat, staysOpen depth inner = true → skipSubtreeLoop inner (depth : Int) = [] := by
  induction inner with
  | nil => intro depth _; rfl
  | cons t ts ih =>
    intro depth h
    simp only [staysOpen] at h
    by_cases h1 : t.tt = .StartTagToken ∧ ¬ voidElements t.tag
    · rw [if_pos h1] at h
      have := ih (depth + 1) h
      simp only [Nat.cast_add, Nat.cast_one] at this
      simp [skipSubtreeLoop, isSelfClosingTag, h1.1, h1.2, this]
    · rw [if_neg h1] at h
      have h3 : ¬ (t.tt = .StartTagToken ∧ ¬ isSelfClosingTag t.tag t.tt = true) := by
        intro hh
        apply h1
        refine ⟨hh.1, ?_⟩
        have := hh.2
        simp [isSelfClosingTag, hh.1] at this
        simpa using this
      by_cases h2 : t.tt = .EndTagToken
      · rw [if_pos h2] at h
        cases depth with
        | zero => simp at h
        | succ d =>
          simp only at h
          have := ih d h
          simp only [skipSubtreeLoop]
          rw [if_neg h3, if_pos h2]
          have hd : ¬ ((((d + 1 : Nat) : Int)) - 1 < 0) := by omega
          rw [if_neg hd]
          have he : (((d + 1 : Nat) : Int)) - 1 = (d : Int) := by omega
          rw [he]
          exact this
      · rw [if_neg h2] at h
        simp only [skipSubtreeLoop]
        rw [if_neg h3, if_neg h2]
        exact ih depth h

theorem Harmless.skip (z : Tokenizer) (tt : TokenType) (tagName : String)
    (attrs : List Attribute) (h : Harmless z) :
    Harmless (skipSubtreeIfUiaRemove z tt tagName attrs).2 := by
  obtain ⟨he, hs⟩ := skipSubtreeIfUiaRemove_subset z tt tagName attrs
  exact ⟨he.trans h.1, fun t ht => h.2 t (hs t ht)⟩

theorem Harmless.tail (t : Token) (ts : List Token) (err : Option String) (raw : String)
    (h : Harmless ⟨t :: ts, err, raw⟩) : Harmless ⟨ts, err, raw⟩ :=
  ⟨h.1, fun x hx => h.2 x (List.mem_cons_of_mem _ hx)⟩

theorem parseFragmentLoop_harmless (fuel : Nat) :
    ∀ (z : Tokenizer) (deps : List FetchDefinition) (buf : String), Harmless z →
      z.toks.length < fuel →
      ∃ f d z2, parseFragmentLoop fuel z deps buf = .ok (f, d, z2) ∧ Harmless z2 ∧
        z2.toks.length ≤ z.toks.length := by
  induction fuel with
  | zero => intro z deps buf _ h; simp at h
  | succ n ih =>
    intro z deps buf hz hlen
    rcases z with ⟨toks, err, raw⟩
    cases toks with
    | nil =>
      have he : err = none := hz.1
      subst he
      exact ⟨buf, deps, _, rfl, hz, Nat.le_refl _⟩
    | cons t ts =>
      have hts : ts.length < n := by simpa using hlen
      have ht := hz.2 t (List.mem_cons_self _ _)
      have hz1 := Harmless.tail t ts err raw hz
      have hrec : ∀ (z1 : Tokenizer) (d : List FetchDefinition) (b : String), Harmless z1 →
          z1.toks.length ≤ ts.length →
          ∃ f d2 z2, parseFragmentLoop n z1 d b = .ok (f, d2, z2) ∧ Harmless z2 ∧
            z2.toks.length ≤ (t :: ts).length := by
        intro z1 d b hh hz1len
        obtain ⟨f, d2, z2, h, hh2, hl⟩ := ih z1 d b hh (Nat.lt_of_le_of_lt hz1len hts)
        exact ⟨f, d2, z2, h, hh2, by simp; omega⟩
      rw [parseFragmentLoop_cons]
      by_cases hstart : t.tt = .StartTagToken ∨ t.tt = .SelfClosingTagToken
      · have hinc : t.tag ≠ UiaInclude := by
          intro hh
          rcases hstart with h | h <;> simp [noIncludeNoMeta, h, hh] at ht
        rw [if_pos hstart, if_neg hinc]
        split
        · exact hrec _ _ _ (Harmless.skip _ _ _ _ hz1) (skipSubtreeIfUiaRemove_length _ _ _ _)
        · exact hrec _ _ _ hz1 (Nat.le_refl _)
      · rw [if_neg hstart]
        split
        · exact ⟨buf, deps, _, rfl, hz1, by simp⟩
        · exact hrec _ _ _ hz1 (Nat.le_refl _)

theorem parseBodyLoop_harmless (fuel : Nat) :
    ∀ (z : Tokenizer) (c : MemoryContent) (buf : String), Harmless z →
      z.toks.length < fuel →
      ∃ c1 s z2, parseBodyLoop fuel z c buf = .ok (c1, s, z2) ∧ Harmless z2 ∧
        z2.toks.length ≤ z.toks.length := by
  induction fuel with
  | zero => intro z c buf _ h; simp at h
  | succ n ih =>
    intro z c buf hz hlen
    rcases z with ⟨toks, err, raw⟩
    cases toks with
    | nil =>
      have he : err = none := hz.1
      subst he
      exact ⟨c, buf, _, rfl, hz, Nat.le_refl _⟩
    | cons t ts =>
      have hts : ts.length < n := by simpa using hlen
      have ht := hz.2 t (List.mem_cons_self _ _)
      have hz1 := Harmless.tail t ts err raw hz
      have hrec : ∀ (z1 : Tokenizer) (c0 : MemoryContent) (b : String), Harmless z1 →
          z1.toks.length ≤ ts.length →
          ∃ c1 s z2, parseBodyLoop n z1 c0 b = .ok (c1, s, z2) ∧ Harmless z2 ∧
            z2.toks.length ≤ (t :: ts).length := by
        intro z1 c0 b hh hz1len
        obtain ⟨c1, s, z2, h, hh2, hl⟩ := ih z1 c0 b hh (Nat.lt_of_le_of_lt hz1len hts)
        exact ⟨c1, s, z2, h, hh2, by simp; omega⟩
      obtain ⟨f, d, zf, hf, hzf, hlf⟩ := parseFragmentLoop_harmless n ⟨ts, err, raw⟩ [] "" hz1 hts
      rw [parseBodyLoop_cons]
      by_cases hstart : t.tt = .StartTagToken ∨ t.tt = .SelfClosingTagToken
      · have hinc : t.tag ≠ UiaInclude := by
          intro hh
          rcases hstart with h | h <;> simp [noIncludeNoMeta, h, hh] at ht
        rw [if_pos hstart]
        split
        · exact hrec _ _ _ (Harmless.skip _ _ _ _ hz1) (skipSubtreeIfUiaRemove_length _ _ _ _)
        · split
          · unfold parseFragment
            rw [hf]
            exact hrec _ _ _ hzf hlf
          · split
            · unfold parseFragment
              rw [hf]
              exact hrec _ _ _ hzf hlf
            · exact hrec _ _ _ hz1 (Nat.le_refl _)
      · rw [if_neg hstart]
        split
        · exact ⟨c, buf, _, rfl, hz1, by simp⟩
        · exact hrec _ _ _ hz1 (Nat.le_refl _)

theorem parseHeadLoop_harmless (fuel : Nat) :
    ∀ (z : Tokenizer) (c : MemoryContent) (buf : String), Harmless z →
      z.toks.length < fuel →
      ∃ c1 s z2, parseHeadLoop fuel z c buf = .ok (c1, s, z2) ∧ Harmless z2 ∧
        z2.toks.length ≤ z.toks.length := by
  induction fuel with
  | zero => intro z c buf _ h; simp at h
  | succ n ih =>
    intro z c buf hz hlen
    rcases z with ⟨toks, err, raw⟩
    cases toks with
    | nil =>
      have he : err = none := hz.1
      subst he
      exact ⟨c, buf, _, rfl, hz, Nat.le_refl _⟩
    | cons t ts =>
      have hts : ts.length < n := by simpa using hlen
      have ht := hz.2 t (List.mem_cons_self _ _)
      have hz1 := Harmless.tail t ts err raw hz
      have hrec : ∀ (z1 : Tokenizer) (c0 : MemoryContent) (b : String), Harmless z1 →
          z1.toks.length ≤ ts.length →
          ∃ c1 s z2, parseHeadLoop n z1 c0 b = .ok (c1, s, z2) ∧ Harmless z2 ∧
            z2.toks.length ≤ (t :: ts).length := by
        intro z1 c0 b hh hz1len
        obtain ⟨c1, s, z2, h, hh2, hl⟩ := ih z1 c0 b hh (Nat.lt_of_le_of_lt hz1len hts)
        exact ⟨c1, s, z2, h, hh2, by simp; omega⟩
      rw [parseHeadLoop_cons]
      by_cases hstart : t.tt = .StartTagToken ∨ t.tt = .SelfClosingTagToken
      · have hmeta : ¬ (t.tag = "script" ∧ attrHasValue t.attrs "type" ScriptTypeMeta = true) := by
          intro hh
          rcases hstart with h | h <;> simp [noIncludeNoMeta, h, hh.1, hh.2] at ht
        rw [if_pos hstart]
        split
        · exact hrec _ _ _ (Harmless.skip _ _ _ _ hz1) (skipSubtreeIfUiaRemove_length _ _ _ _)
        · exact hrec _ _ _ hz1 (Nat.le_refl _)
      · rw [if_neg hstart]
        split
        · exact ⟨c, buf, _, rfl, hz1, by simp⟩
        · exact hrec _ _ _ hz1 (Nat.le_refl _)

theorem parseBody_harmless (fuel : Nat) (z : Tokenizer) (c : MemoryContent) (hz : Harmless z)
    (hlen : z.toks.length < fuel) :
    ∃ c1 z2, parseBody fuel z c = .ok (c1, z2) ∧ Harmless z2 ∧
      z2.toks.length ≤ z.toks.length := by
  obtain ⟨c1, s, z2, h, hh, hl⟩ := parseBodyLoop_harmless fuel z c "" hz hlen
  unfold parseBody
  rw [h]
  simp only
  split
  · exact ⟨_, _, rfl, hh, hl⟩
  · split
    · exact ⟨_, _, rfl, hh, hl⟩
    · exact ⟨_, _, rfl, hh, hl⟩

theorem parseHead_harmless (fuel : Nat) (z : Tokenizer) (c : MemoryContent) (hz : Harmless z)
    (hlen : z.toks.length < fuel) :
    ∃ c1 z2, parseHead fuel z c = .ok (c1, z2) ∧ Harmless z2 ∧
      z2.toks.length ≤ z.toks.length := by
  obtain ⟨c1, s, z2, h, hh, hl⟩ := parseHeadLoop_harmless fuel z c "" hz hlen
  unfold parseHead
  rw [h]
  simp only
  split
  · exact ⟨_, _, rfl, hh, hl⟩
  · exact ⟨_, _, rfl, hh, hl⟩

theorem parseLoop_harmless (fuel : Nat) :
    ∀ (z : Tokenizer) (c : MemoryContent), Harmless z → z.toks.length < fuel →
      ∃ c1, parseLoop fuel z c = .ok c1 := by
  induction fuel with
  | zero => intro z c _ h; simp at h
  | succ n ih =>
    intro z c hz hlen
    rcases z with ⟨toks, err, raw⟩
    cases toks with
    | nil =>
      have he : err = none := hz.1
      subst he
      exact ⟨c, rfl⟩
    | cons t ts =>
      have hts : ts.length < n := by simpa using hlen
      have hz1 := Harmless.tail t ts err raw hz
      simp only [parseLoop, Tokenizer.Next]
      split
      · split
        · obtain ⟨c1, z2, h, hh, hl⟩ := parseHead_harmless n ⟨ts, err, raw⟩ c hz1 hts
          rw [h]
          exact ih _ _ hh (Nat.lt_of_le_of_lt hl hts)
        · split
          · obtain ⟨c1, z2, h, hh, hl⟩ := parseBody_harmless n ⟨ts, err, raw⟩ c hz1 hts
            rw [h]
            exact ih _ _ hh (Nat.lt_of_le_of_lt hl hts)
          · exact ih _ _ hz1 hts
      · exact ih _ _ hz1 hts

theorem parseBodyLoop_plain_eof (bs : List Token) :
    ∀ (fuel : Nat) (errRaw : String) (c : MemoryContent) (buf : String),
      (∀ t ∈ bs, plainInBody t = true) → bs.length < fuel →
      parseBodyLoop fuel ⟨bs, none, errRaw⟩ c buf
        = .ok (c, buf ++ rawConcat bs, ⟨[], none, errRaw⟩) := by
  induction bs with
  | nil =>
    intro fuel errRaw c buf _ hfuel
    obtain ⟨f, rfl⟩ : ∃ f, fuel = f + 1 := ⟨fuel - 1, by simp at hfuel; omega⟩
    simp [parseBodyLoop, Tokenizer.Next, rawConcat]
  | cons t ts ih =>
    intro fuel errRaw c buf hplain hfuel
    obtain ⟨f, rfl⟩ : ∃ f, fuel = f + 1 := ⟨fuel - 1, by simp at hfuel; omega⟩
    have hlen : ts.length < f := by simp at hfuel; omega
    have ht := hplain t (List.mem_cons_self _ _)
    have hrec := ih f errRaw c (buf ++ t.raw)
      (fun x hx => hplain x (List.mem_cons_of_mem _ hx)) hlen
    have hassoc : buf ++ t.raw ++ rawConcat ts = buf ++ rawConcat (t :: ts) := by
      simp [rawConcat, String.append_assoc]
    rw [parseBodyLoop_cons]
    by_cases hstart : t.tt = .StartTagToken ∨ t.tt = .SelfClosingTagToken
    · have hrem : getAttr t.attrs UiaRemove = none := by
        cases hr : getAttr t.attrs UiaRemove with
        | none => rfl
        | some a => rcases hstart with h | h <;> simp [plainInBody, h, hr] at ht
      have h1 : t.tag ≠ UiaFragment := by
        intro hh
        rcases hstart with h | h <;> simp [plainInBody, h, hh] at ht
      have h2 : t.tag ≠ UiaTail := by
        intro hh
        rcases hstart with h | h <;> simp [plainInBody, h, hh] at ht
      have h3 : t.tag ≠ UiaInclude := by
        intro hh
        rcases hstart with h | h <;> simp [plainInBody, h, hh] at ht
      rw [if_pos hstart]
      simp only [skipSubtreeIfUiaRemove, hrem, Bool.false_eq_true, if_false]
      rw [if_neg h1, if_neg h2, if_neg h3, hrec, hassoc]
    · have hend : ¬ (t.tt = .EndTagToken ∧ t.tag = "body") := by
        intro hh
        simp [plainInBody, hh.1, hh.2] at ht
      rw [if_neg hstart, if_neg hend, hrec, hassoc]

theorem parseFragmentLoop_plain_eof (fs : List Token) :
    ∀ (fuel : Nat) (errRaw : String) (deps : List FetchDefinition) (buf : String),
      (∀ t ∈ fs, plainInFragment t = true) → fs.length < fuel →
      parseFragmentLoop fuel ⟨fs, none, errRaw⟩ deps buf
        = .ok (buf ++ rawConcat fs, deps, ⟨[], none, errRaw⟩) := by
  induction fs with
  | nil =>
    intro fuel errRaw deps buf _ hfuel
    obtain ⟨f, rfl⟩ : ∃ f, fuel = f + 1 := ⟨fuel - 1, by simp at hfuel; omega⟩
    simp [parseFragmentLoop, Tokenizer.Next, rawConcat]
  | cons t ts ih =>
    intro fuel errRaw deps buf hplain hfuel
    obtain ⟨f, rfl⟩ : ∃ f, fuel = f + 1 := ⟨fuel - 1, by simp at hfuel; omega⟩
    have hlen : ts.length < f := by simp at hfuel; omega
    have ht := hplain t (List.mem_cons_self _ _)
    have hrec := ih f errRaw deps (buf ++ t.raw)
      (fun x hx => hplain x (List.mem_cons_of_mem _ hx)) hlen
    have hassoc : buf ++ t.raw ++ rawConcat ts = buf ++ rawConcat (t :: ts) := by
      simp [rawConcat, String.append_assoc]
    rw [parseFragmentLoop_cons]
    by_cases hstart : t.tt = .StartTagToken ∨ t.tt = .SelfClosingTagToken
    · have hinc : t.tag ≠ UiaInclude := by
        intro hh
        rcases hstart with h | h <;> simp [plainInFragment, h, hh] at ht
      have hrem : getAttr t.attrs UiaRemove = none := by
        cases hr : getAttr t.attrs UiaRemove with
        | none => rfl
        | some a => rcases hstart with h | h <;> simp [plainInFragment, h, hr] at ht
      rw [if_pos hstart, if_neg hinc]
      simp only [skipSubtreeIfUiaRemove, hrem, Bool.false_eq_true, if_false]
      rw [hrec, hassoc]
    · have hend : ¬ (t.tt = .EndTagToken ∧ (t.tag = UiaFragment ∨ t.tag = UiaTail)) := by
        intro hh
        rcases hh with ⟨h1, h2 | h2⟩ <;> simp [plainInFragment, h1, h2] at ht
      rw [if_neg hstart, if_neg hend, hrec, hassoc]

theorem skipSubtreeIfUiaRemove_unclosed (tok : Token) (inner : List Token)
    (err : Option String) (errRaw : String)
    (hremove : (getAttr tok.attrs UiaRemove).isSome = true)
    (hvoid : isSelfClosingTag tok.tag tok.tt = false)
    (hopen : staysOpen 0 inner = true) :
    skipSubtreeIfUiaRemove ⟨inner, err, errRaw⟩ tok.tt tok.tag tok.attrs
      = (true, ⟨[], err, errRaw⟩) := by
  unfold skipSubtreeIfUiaRemove
  cases h : getAttr tok.attrs UiaRemove with
  | none => simp [h] at hremove
  | some a =>
    have := skipSubtreeLoop_staysOpen inner 0 hopen
    simp only [Nat.cast_zero] at this
    simp [hvoid, this]

/-- C20: a token stream that ends with `io.EOF` and holds no `uia-include` tag and no script
tag of type `text/uia-meta` is parsed without error: `parse` returns a content.  At the end of
the input every loop returns what it has collected: after a run of tokens that it copies, the
loop of `parseHead`, `parseBody` or `parseFragment` returns its buffer followed by the raw
bytes of the run, and after a `uia-remove` element that is never closed the loop returns its
content and buffer as they were before the element. -/
theorem parse_succeeds_without_includes (z : Tokenizer) (herr : z.err = none)
    (hno : ∀ t ∈ z.toks, noIncludeNoMeta t = true) :
    (∃ c, parse z = .ok c) ∧
    (∀ (run : List Token) (fuel : Nat) (errRaw : String) (c : MemoryContent)
        (deps : List FetchDefinition) (buf : String), run.length < fuel →
      ((∀ t ∈ run, plainInHead t = true) →
        parseHeadLoop fuel ⟨run, none, errRaw⟩ c buf
          = .ok (c, buf ++ rawConcat run, ⟨[], none, errRaw⟩)) ∧
      ((∀ t ∈ run, plainInBody t = true) →
        parseBodyLoop fuel ⟨run, none, errRaw⟩ c buf
          = .ok (c, buf ++ rawConcat run, ⟨[], none, errRaw⟩)) ∧
      ((∀ t ∈ run, plainInFragment t = true) →
        parseFragmentLoop fuel ⟨run, none, errRaw⟩ deps buf
          = .ok (buf ++ rawConcat run, deps, ⟨[], none, errRaw⟩))) ∧
    (∀ (tok : Token) (inner : List Token) (fuel : Nat) (errRaw : String) (c : MemoryContent)
        (deps : List FetchDefinition) (buf : String),
      (tok.tt = .StartTagToken ∨ tok.tt = .SelfClosingTagToken) →
      (getAttr tok.attrs UiaRemove).isSome = true → isSelfClosingTag tok.tag tok.tt = false →
      staysOpen 0 inner = true →
      parseHeadLoop (fuel + 2) ⟨tok :: inner, none, errRaw⟩ c buf
        = .ok (c, buf, ⟨[], none, errRaw⟩) ∧
      parseBodyLoop (fuel + 2) ⟨tok :: inner, none, errRaw⟩ c buf
        = .ok (c, buf, ⟨[], none, errRaw⟩) ∧
      (tok.tag ≠ UiaInclude →
        parseFragmentLoop (fuel + 2) ⟨tok :: inner, none, errRaw⟩ deps buf
          = .ok (buf, deps, ⟨[], none, errRaw⟩))) := by
  refine ⟨?_, ?_, ?_⟩
  · exact parseLoop_harmless _ z NewMemoryContent ⟨herr, hno⟩ (Nat.lt_succ_self _)
  · intro run fuel errRaw c deps buf hfuel
    exact ⟨fun h => parseHeadLoop_plain_eof run fuel errRaw c buf h hfuel,
      fun h => parseBodyLoop_plain_eof run fuel errRaw c buf h hfuel,
      fun h => parseFragmentLoop_plain_eof run fuel errRaw deps buf h hfuel⟩
  · intro tok inner fuel errRaw c deps buf hstart hremove hvoid hopen
    have hs := skipSubtreeIfUiaRemove_unclosed tok inner none errRaw hremove hvoid hopen
    refine ⟨?_, ?_, ?_⟩
    · rw [parseHeadLoop_cons, if_pos hstart, hs]
      rfl
    · rw [parseBodyLoop_cons, if_pos hstart, hs]
      rfl
    · intro hinc
      rw [parseFragmentLoop_cons, if_pos hstart, if_neg hinc, hs]
      rfl

/-- Witness of C20 on the unclosed document `exUnclosed`: the head, the text of the body and
the content of the unclosed fragment are kept, what follows the unclosed `uia-remove` tag is
dropped. -/
theorem parse_succeeds_without_includes_witness :
    (∃ c, parse ⟨exUnclosed, none, ""⟩ = .ok c) ∧
    parse ⟨exUnclosed, none, ""⟩
      = .ok { NewMemoryContent with
          head := some "<title>x</title>", body := [("", "a"), ("f", "b")] } :=
  ⟨(parse_succeeds_without_includes ⟨exUnclosed, none, ""⟩ rfl (by decide)).1, by decide⟩

theorem insertByPriority_perm (r : FetchResult) (l : List FetchResult) :
    (insertByPriority r l).Perm (r :: l) := by
  induction l with
  | nil => exact List.Perm.refl _
  | cons x xs ih =>
    simp only [insertByPriority]
    split
    · exact List.Perm.refl _
    · exact (List.Perm.cons x ih).trans (List.Perm.swap r x xs)

theorem insertByPriority_sorted (r : FetchResult) (l : List FetchResult)
    (h : l.Pairwise (fun a b => a.Def.Priority ≤ b.Def.Priority)) :
    (insertByPriority r l).Pairwise (fun a b => a.Def.Priority ≤ b.Def.Priority) := by
  induction l with
  | nil => simp [insertByPriority]
  | cons x xs ih =>
    simp only [insertByPriority]
    rw [List.pairwise_cons] at h
    split
    · rename_i hle
      rw [List.pairwise_cons]
      refine ⟨fun y hy => ?_, List.pairwise_cons.2 h⟩
      rcases List.mem_cons.1 hy with rfl | hy
      · exact hle
      · exact le_trans hle (h.1 y hy)
    · rename_i hnle
      rw [List.pairwise_cons]
      refine ⟨fun y hy => ?_, ih h.2⟩
      rcases List.mem_cons.1 ((insertByPriority_perm r xs).subset hy) with rfl | hy
      · omega
      · exact h.1 y hy

theorem insertByPriority_filter (r : FetchResult) (l : List FetchResult) (p : Int) :
    (insertByPriority r l).filter (fun x => decide (x.Def.Priority = p))
      = (r :: l).filter (fun x => decide (x.Def.Priority = p)) := by
  induction l with
  | nil => rfl
  | cons x xs ih =>
    simp only [insertByPriority]
    split
    · rfl
    · rename_i hnle
      by_cases hx : x.Def.Priority = p
      · have hr : ¬ r.Def.Priority = p := by omega
        simp [List.filter_cons, hx, hr, ih]
      · by_cases hr : r.Def.Priority = p
        · simp [List.filter_cons, hx, hr, ih]
        · simp [List.filter_cons, hx, hr, ih]

/-- C18: the order given to a list of fetch results on join is a permutation of the list in
which the priorities ascend, and the results of any one priority are in the order in which
they arrived. -/
theorem sortFetchResults_stable (rs : List FetchResult) :
    (sortFetchResults rs).Perm rs ∧
    (sortFetchResults rs).Pairwise (fun a b => a.Def.Priority ≤ b.Def.Priority) ∧
    (∀ p : Int, (sortFetchResults rs).filter (fun x => decide (x.Def.Priority = p))
      = rs.filter (fun x => decide (x.Def.Priority = p))) ∧
    (sortFetchResults exResults).map (fun x => x.Def.Priority) = [211, 412, 1024] := by
  refine ⟨?_, ?_, ?_, by decide⟩
  · induction rs with
    | nil => exact List.Perm.refl _
    | cons r rs ih => exact (insertByPriority_perm r _).trans (List.Perm.cons r ih)
  · induction rs with
    | nil => exact List.Pairwise.nil
    | cons r rs ih => exact insertByPriority_sorted r _ ih
  · intro p
    induction rs with
    | nil => rfl
    | cons r rs ih =>
      simp only [sortFetchResults]
      rw [insertByPriority_filter, List.filter_cons, List.filter_cons, ih]

/-- C19: the definition built from a caller request and a base URL carries a header of the
request exactly when its name is `Cookie` or `Content-Type` or begins with `X-`, with its
values unchanged (`Accept-Encoding` is not carried); its method and body are those of the
request, its URL is the base URL joined with the path and query of the request, its timeout
is 10 seconds and it is required. -/
theorem newFetchDefinitionFromRequest_fields (baseUrl : String) (r : Request) :
    (∀ (h : String) (vs : List String),
      (h, vs) ∈ (NewFetchDefinitionFromRequest baseUrl r).Header ↔
        (h, vs) ∈ r.Header ∧
          (h = "Cookie" ∨ h = "Content-Type" ∨ List.isPrefixOf ['X', '-'] h.data = true)) ∧
    (∀ vs : List String, ("Accept-Encoding", vs) ∉ (NewFetchDefinitionFromRequest baseUrl r).Header) ∧
    (NewFetchDefinitionFromRequest baseUrl r).Method = r.Method ∧
    (NewFetchDefinitionFromRequest baseUrl r).Body = r.Body ∧
    (NewFetchDefinitionFromRequest baseUrl r).URL = joinURL baseUrl r.Path r.RawQuery ∧
    (NewFetchDefinitionFromRequest baseUrl r).Timeout = 10 * Second ∧
    (NewFetchDefinitionFromRequest baseUrl r).Required = true ∧
    NewFetchDefinitionFromRequest "http://upstream:8080/" exRequest
      = { URL := "http://upstream:8080/content?foo=bar"
          Timeout := 10000000000
          Required := true
          Method := "POST"
          Header := [("Content-Type", ["text/html"]), ("Cookie", ["aa=bb;"]),
            ("X-Feature-Toggle", ["true"]), ("X-Correlation-Id", ["foobar123"])]
          Body := "the body"
          Priority := 0 } := by
  refine ⟨?_, ?_, rfl, rfl, rfl, rfl, rfl, by decide⟩
  · intro h vs
    simp only [NewFetchDefinitionFromRequest, forwardedHeader, List.mem_filter, Bool.or_eq_true,
      beq_iff_eq, or_assoc]
  · intro vs hmem
    simp only [NewFetchDefinitionFromRequest, List.mem_filter] at hmem
    have := hmem.2
    revert this
    decide

/-! ## Lemmas on the template scanner -/

theorem startSep_isPrefixOf (c : Char) (l : List Char) :
    startSep.isPrefixOf (c :: l) = (c == '§' && l.head? == some '[') := by
  cases l with
  | nil => simp [startSep, List.isPrefixOf]
  | cons d ds =>
    by_cases h1 : c = '§'
    · by_cases h2 : d = '['
      · simp [startSep, List.isPrefixOf, h1, h2]
      · have h3 : ¬ '[' = d := fun h => h2 h.symm
        simp [startSep, List.isPrefixOf, h1, h2, h3]
    · have e1 : (c == '§') = false := beq_eq_false_iff_ne.2 h1
      have e2 : ('§' == c) = false := beq_eq_false_iff_ne.2 (fun h => h1 h.symm)
      simp [startSep, List.isPrefixOf, e1, e2]

theorem endSep_isPrefixOf (c : Char) (l : List Char) :
    endSep.isPrefixOf (c :: l) = (c == ']' && l.head? == some '§') := by
  cases l with
  | nil => simp [endSep, List.isPrefixOf]
  | cons d ds =>
    by_cases h1 : c = ']'
    · by_cases h2 : d = '§'
      · simp [endSep, List.isPrefixOf, h1, h2]
      · have h3 : ¬ '§' = d := fun h => h2 h.symm
        simp [endSep, List.isPrefixOf, h1, h2, h3]
    · have e1 : (c == ']') = false := beq_eq_false_iff_ne.2 h1
      have e2 : (']' == c) = false := beq_eq_false_iff_ne.2 (fun h => h1 h.symm)
      simp [endSep, List.isPrefixOf, e1, e2]

theorem exec_skip_cons (data : Option (List (String × Value)))
    (resolve : String → Res String String) (k : Nat) (mode : Mode) (c : Char)
    (rest : List Char) :
    exec data resolve (k + 1) mode (c :: rest) = exec data resolve k mode rest := by
  cases mode <;> rfl

theorem exec_text_cons (data : Option (List (String × Value)))
    (resolve : String → Res String String) (c : Char) (rest : List Char) :
    exec data resolve 0 .text (c :: rest)
      = if startSep.isPrefixOf (c :: rest) then exec data resolve 1 (.marker []) rest
        else (exec data resolve 0 .text rest).after [.write c] := rfl

theorem exec_marker_cons_open (data : Option (List (String × Value)))
    (resolve : String → Res String String) (body : List Char) (c : Char) (rest : List Char)
    (h : endSep.isPrefixOf (c :: rest) = false) :
    exec data resolve 0 (.marker body) (c :: rest)
      = exec data resolve 0 (.marker (body ++ [c])) rest := by
  rw [exec]
  simp [h]

theorem exec_skip (data : Option (List (String × Value))) (resolve : String → Res String String)
    (pre : List Char) :
    ∀ (mode : Mode) (rest : List Char),
      exec data resolve pre.length mode (pre ++ rest) = exec data resolve 0 mode rest := by
  induction pre with
  | nil => intro mode rest; rfl
  | cons c cs ih =>
    intro mode rest
    rw [List.length_cons, List.cons_append, exec_skip_cons]
    exact ih _ _

theorem exec_text_run (data : Option (List (String × Value)))
    (resolve : String → Res String String) (P : List Char) :
    ∀ rest : List Char, occursIn startSep P = false → rest.head? ≠ some '[' →
      exec data resolve 0 .text (P ++ rest)
        = (exec data resolve 0 .text rest).after (writes P) := by
  induction P with
  | nil => intro rest _ _; simp [writes, Run.after]
  | cons c cs ih =>
    intro rest hP hrest
    simp only [occursIn, Bool.or_eq_false_iff] at hP
    have hpre : startSep.isPrefixOf (c :: (cs ++ rest)) = false := by
      have h1 := hP.1
      rw [startSep_isPrefixOf] at h1 ⊢
      cases cs with
      | nil =>
        simp only [List.nil_append]
        by_cases hc : c = '§'
        · simp only [hc, beq_self_eq_true, Bool.true_and, beq_eq_false_iff_ne, ne_eq]
          exact hrest
        · simp [hc]
      | cons d ds => simpa using h1
    rw [List.cons_append, exec_text_cons, hpre]
    simp only [Bool.false_eq_true, if_false]
    rw [ih rest hP.2 hrest]
    simp [Run.after, writes]

theorem exec_text_plain (data : Option (List (String × Value)))
    (resolve : String → Res String String) (T : List Char)
    (hT : occursIn startSep T = false) :
    exec data resolve 0 .text T = ⟨writes T, none⟩ := by
  have := exec_text_run data resolve T [] hT (by simp)
  simp only [List.append_nil] at this
  rw [this]
  simp [exec, Run.after]

theorem exec_marker_run (data : Option (List (String × Value)))
    (resolve : String → Res String String) (b : List Char) :
    ∀ (acc rest : List Char), ']' ∉ b →
      exec data resolve 0 (.marker acc) (b ++ rest)
        = exec data resolve 0 (.marker (acc ++ b)) rest := by
  induction b with
  | nil => intro acc rest _; simp
  | cons c cs ih =>
    intro acc rest hb
    have hc : c ≠ ']' := fun h => hb (by simp [h])
    have hcs : ']' ∉ cs := fun h => hb (List.mem_cons_of_mem _ h)
    have hpre : endSep.isPrefixOf (c :: (cs ++ rest)) = false := by
      rw [endSep_isPrefixOf]
      simp [hc]
    rw [List.cons_append, exec_marker_cons_open _ _ _ _ _ hpre, ih _ _ hcs]
    simp

theorem exec_marker_unterminated (data : Option (List (String × Value)))
    (resolve : String → Res String String) (R : List Char) :
    ∀ acc : List Char, occursIn endSep R = false →
      exec data resolve 0 (.marker acc) R
        = ⟨[], some ("Fragment parsing error, missing ending separator: "
            ++ String.mk (acc ++ R))⟩ := by
  induction R with
  | nil => intro acc _; simp [exec]
  | cons c cs ih =>
    intro acc hR
    simp only [occursIn, Bool.or_eq_false_iff] at hR
    rw [exec_marker_cons_open _ _ _ _ _ hR.1, ih _ hR.2]
    simp

theorem startSep_not_prefix_in_run (c : Char) (cs rest : List Char)
    (hP : occursIn startSep (c :: cs) = false) (hrest : rest.head? ≠ some '[') :
    startSep.isPrefixOf (c :: (cs ++ rest)) = false := by
  simp only [occursIn, Bool.or_eq_false_iff] at hP
  have h1 := hP.1
  rw [startSep_isPrefixOf] at h1 ⊢
  cases cs with
  | nil =>
    simp only [List.nil_append]
    by_cases hc : c = '§'
    · simp only [hc, beq_self_eq_true, Bool.true_and, beq_eq_false_iff_ne, ne_eq]
      exact hrest
    · simp [hc]
  | cons d ds => simpa using h1

theorem isPrefixOf_append_self (pat rest : List Char) : pat.isPrefixOf (pat ++ rest) = true := by
  rw [List.isPrefixOf_iff_prefix]
  exact List.prefix_append _ _

theorem startSep_isPrefixOf_of (more l : List Char)
    (h : (startSep ++ more).isPrefixOf l = true) : startSep.isPrefixOf l = true := by
  rw [List.isPrefixOf_iff_prefix] at h ⊢
  exact (List.prefix_append _ _).trans h

theorem not_isPrefixOf_in_run (more : List Char) (c : Char) (cs rest : List Char)
    (hP : occursIn startSep (c :: cs) = false) (hrest : rest.head? ≠ some '[') :
    (startSep ++ more).isPrefixOf (c :: (cs ++ rest)) = false := by
  cases h : (startSep ++ more).isPrefixOf (c :: (cs ++ rest)) with
  | false => rfl
  | true =>
    have h1 := startSep_isPrefixOf_of more _ h
    rw [startSep_not_prefix_in_run c cs rest hP hrest] at h1
    cases h1

theorem exec_alt_found (data : Option (List (String × Value)))
    (resolve : String → Res String String) (more rest : List Char) :
    exec data resolve 0 (.emitAlt (startSep ++ more)) (startSep ++ more ++ rest)
      = exec data resolve 0 .text rest ∧
    exec data resolve 0 (.skipAlt (startSep ++ more)) (startSep ++ more ++ rest)
      = exec data resolve 0 .text rest := by
  have hp : (startSep ++ more).isPrefixOf ('§' :: ('[' :: more ++ rest)) = true :=
    isPrefixOf_append_self (startSep ++ more) rest
  have hlen : (startSep ++ more).length - 1 = ('[' :: more).length := by simp [startSep]
  have hs := exec_skip data resolve ('[' :: more) .text rest
  constructor
  · show exec data resolve 0 (.emitAlt (startSep ++ more)) ('§' :: ('[' :: more ++ rest)) = _
    rw [exec]
    simp only [hp, if_true]
    rw [hlen]
    exact hs
  · show exec data resolve 0 (.skipAlt (startSep ++ more)) ('§' :: ('[' :: more ++ rest)) = _
    rw [exec]
    simp only [hp, if_true]
    rw [hlen]
    exact hs

theorem exec_emitAlt_run (data : Option (List (String × Value)))
    (resolve : String → Res String String) (more rest : List Char) (A : List Char)
    (hA : occursIn startSep A = false) :
    exec data resolve 0 (.emitAlt (startSep ++ more)) (A ++ (startSep ++ more ++ rest))
      = (exec data resolve 0 .text rest).after (writes A) := by
  induction A with
  | nil =>
    rw [List.nil_append, (exec_alt_found data resolve more rest).1]
    simp [Run.after, writes]
  | cons c cs ih =>
    have hn := not_isPrefixOf_in_run more c cs (startSep ++ more ++ rest) hA
      (by simp [startSep])
    have hcs : occursIn startSep cs = false := by
      simp only [occursIn, Bool.or_eq_false_iff] at hA
      exact hA.2
    rw [List.cons_append, exec]
    simp only [hn, Bool.false_eq_true, if_false]
    rw [ih hcs]
    simp [Run.after, writes]

theorem exec_skipAlt_run (data : Option (List (String × Value)))
    (resolve : String → Res String String) (more rest : List Char) (A : List Char)
    (hA : occursIn startSep A = false) :
    exec data resolve 0 (.skipAlt (startSep ++ more)) (A ++ (startSep ++ more ++ rest))
      = exec data resolve 0 .text rest := by
  induction A with
  | nil => rw [List.nil_append, (exec_alt_found data resolve more rest).2]
  | cons c cs ih =>
    have hn := not_isPrefixOf_in_run more c cs (startSep ++ more ++ rest) hA
      (by simp [startSep])
    have hcs : occursIn startSep cs = false := by
      simp only [occursIn, Bool.or_eq_false_iff] at hA
      exact hA.2
    rw [List.cons_append, exec]
    simp only [hn, Bool.false_eq_true, if_false]
    exact ih hcs

theorem occursIn_append (pat rest : List Char) (hpat : pat ≠ []) (A : List Char) :
    occursIn pat (A ++ (pat ++ rest)) = true := by
  induction A with
  | nil =>
    cases pat with
    | nil => exact absurd rfl hpat
    | cons p ps =>
      show occursIn (p :: ps) (p :: (ps ++ rest)) = true
      rw [occursIn]
      have := isPrefixOf_append_self (p :: ps) rest
      simp only [List.cons_append] at this
      simp [this]
  | cons c cs ih =>
    rw [List.cons_append, occursIn, ih]
    simp

theorem dropWhile_isWs_of_head (s : List Char) (c : Char) (h : s.head? = some c)
    (hc : isWs c = false) : s.dropWhile isWs = s := by
  cases s with
  | nil => rfl
  | cons x xs =>
    simp only [List.head?_cons, Option.some.injEq] at h
    subst h
    simp [List.dropWhile, hc]

theorem trimWs_eq_self (s : List Char) (a b : Char) (ha : s.head? = some a)
    (hb : s.getLast? = some b) (hwa : isWs a = false) (hwb : isWs b = false) :
    trimWs s = s := by
  unfold trimWs
  rw [dropWhile_isWs_of_head s a ha hwa,
    dropWhile_isWs_of_head s.reverse b (by rw [List.head?_reverse]; exact hb) hwb,
    List.reverse_reverse]

theorem dropWhile_isWs_replicate (k : Nat) (s : List Char) :
    (List.replicate k ' ' ++ s).dropWhile isWs = s.dropWhile isWs := by
  induction k with
  | zero => rfl
  | succ n ih =>
    rw [List.replicate_succ, List.cons_append, List.dropWhile]
    have : isWs ' ' = true := by decide
    simp only [this]
    exact ih

theorem trimWs_spaces (k1 k2 : Nat) (s : List Char) (a b : Char) (ha : s.head? = some a)
    (hb : s.getLast? = some b) (hwa : isWs a = false) (hwb : isWs b = false) :
    trimWs (List.replicate k1 ' ' ++ s ++ List.replicate k2 ' ') = s := by
  have h1 : trimWs s = s := trimWs_eq_self s a b ha hb hwa hwb
  unfold trimWs at h1 ⊢
  have hne : s ≠ [] := by
    intro h
    rw [h] at ha
    cases ha
  have hd : (List.replicate k1 ' ' ++ s ++ List.replicate k2 ' ').dropWhile isWs
      = s ++ List.replicate k2 ' ' := by
    rw [List.append_assoc, dropWhile_isWs_replicate]
    apply dropWhile_isWs_of_head _ a _ hwa
    rw [List.head?_append_of_ne_nil _ hne]
    exact ha
  rw [hd, List.reverse_append, List.reverse_replicate, dropWhile_isWs_replicate]
  rw [dropWhile_isWs_of_head s.reverse b (by rw [List.head?_reverse]; exact hb) hwb,
    List.reverse_reverse]

theorem exec_marker_close_variable (data : Option (List (String × Value)))
    (resolve : String → Res String String) (body name rest : List Char)
    (h : trimWs body = name)
    (h1 : name.head? ≠ some '>') (h2 : name.head? ≠ some '#') (h3 : name.head? ≠ some '/') :
    exec data resolve 0 (.marker body) (']' :: '§' :: rest)
      = (exec data resolve 0 .text rest).after
          (writes (resolveVariable data (String.mk name)).data) := by
  have hp : endSep.isPrefixOf (']' :: '§' :: rest) = true := by
    rw [endSep_isPrefixOf]; rfl
  rw [exec]
  simp only [hp, if_true, h, exec_skip_cons]
  split
  · simp at h1
  · simp at h2
  · simp at h3
  · rfl

theorem exec_marker_close_include (data : Option (List (String × Value)))
    (resolve : String → Res String String) (body name rest : List Char)
    (h : trimWs body = '>' :: name) :
    exec data resolve 0 (.marker body) (']' :: '§' :: rest)
      = match resolve (String.mk (trimWs name)) with
        | .error e => ⟨[.call (String.mk (trimWs name))], some e⟩
        | .ok o =>
          (exec data resolve 0 .text rest).after
            (.call (String.mk (trimWs name)) :: writes o.data) := by
  have hp : endSep.isPrefixOf (']' :: '§' :: rest) = true := by
    rw [endSep_isPrefixOf]; rfl
  rw [exec]
  simp only [hp, if_true, h, exec_skip_cons]

theorem exec_marker_close_optional (data : Option (List (String × Value)))
    (resolve : String → Res String String) (body name rest : List Char)
    (h : trimWs body = '#' :: '>' :: name) :
    exec data resolve 0 (.marker body) (']' :: '§' :: rest)
      = if occursIn (startSep ++ '/' :: trimWs name ++ endSep) rest then
          match resolve (String.mk (trimWs name)) with
          | .error _ =>
            (exec data resolve 0 (.emitAlt (startSep ++ '/' :: trimWs name ++ endSep)) rest).after
              [.call (String.mk (trimWs name))]
          | .ok o =>
            (exec data resolve 0 (.skipAlt (startSep ++ '/' :: trimWs name ++ endSep)) rest).after
              (.call (String.mk (trimWs name)) :: writes o.data)
        else
          ⟨[], some ("Fragment parsing error, missing ending block: "
            ++ String.mk (startSep ++ '/' :: trimWs name ++ endSep))⟩ := by
  have hp : endSep.isPrefixOf (']' :: '§' :: rest) = true := by
    rw [endSep_isPrefixOf]; rfl
  rw [exec]
  simp only [hp, if_true, h, exec_skip_cons, List.drop_one, List.tail_cons]

theorem isNameChar_facts (c : Char) (h : isNameChar c = true) :
    isWs c = false ∧ c ≠ ']' ∧ c ≠ '>' ∧ c ≠ '#' ∧ c ≠ '/' := by
  refine ⟨?_, ?_, ?_, ?_, ?_⟩
  · cases hw : isWs c with
    | false => rfl
    | true =>
      simp only [isWs, Bool.or_eq_true, beq_iff_eq] at hw
      rcases hw with ((rfl | rfl) | rfl) | rfl <;> revert h <;> decide
  all_goals
    intro hc
    subst hc
    revert h
    decide

theorem isVariableName_facts (n : String) (h : isVariableName n = true) :
    ∃ a b, n.data.head? = some a ∧ n.data.getLast? = some b ∧ isNameChar a = true ∧
      isNameChar b = true ∧ ']' ∉ n.data := by
  simp only [isVariableName, Bool.and_eq_true, Bool.not_eq_true', List.all_eq_true] at h
  obtain ⟨hne, hall⟩ := h
  have hne' : n.data ≠ [] := by
    intro he
    rw [he] at hne
    simp at hne
  obtain ⟨a, ha⟩ : ∃ a, n.data.head? = some a := by
    cases hd : n.data with
    | nil => exact absurd hd hne'
    | cons x xs => exact ⟨x, rfl⟩
  obtain ⟨b, hb⟩ : ∃ b, n.data.getLast? = some b := by
    cases hl : n.data.getLast? with
    | none => exact absurd (List.getLast?_eq_none_iff.1 hl) hne'
    | some b => exact ⟨b, rfl⟩
  refine ⟨a, b, ha, hb, hall a (List.mem_of_mem_head? ha), hall b (List.mem_of_mem_getLast? hb), ?_⟩
  intro hmem
  exact (isNameChar_facts _ (hall _ hmem)).2.1 rfl

theorem isIncludeName_facts (n : String) (h : isIncludeName n = true) :
    ∃ a b, n.data.head? = some a ∧ n.data.getLast? = some b ∧ isWs a = false ∧
      isWs b = false ∧ ']' ∉ n.data := by
  simp only [isIncludeName, Bool.and_eq_true, Bool.not_eq_true', List.all_eq_true, bne_iff_ne,
    ne_eq] at h
  obtain ⟨hne, hall⟩ := h
  have hne' : n.data ≠ [] := by
    intro he
    rw [he] at hne
    simp at hne
  obtain ⟨a, ha⟩ : ∃ a, n.data.head? = some a := by
    cases hd : n.data with
    | nil => exact absurd hd hne'
    | cons x xs => exact ⟨x, rfl⟩
  obtain ⟨b, hb⟩ : ∃ b, n.data.getLast? = some b := by
    cases hl : n.data.getLast? with
    | none => exact absurd (List.getLast?_eq_none_iff.1 hl) hne'
    | some b => exact ⟨b, rfl⟩
  refine ⟨a, b, ha, hb, (hall a (List.mem_of_mem_head? ha)).1,
    (hall b (List.mem_of_mem_getLast? hb)).1, ?_⟩
  intro hmem
  exact (hall _ hmem).2 rfl

theorem exec_open (data : Option (List (String × Value)))
    (resolve : String → Res String String) (rest : List Char) :
    exec data resolve 0 .text ('§' :: '[' :: rest) = exec data resolve 0 (.marker []) rest := by
  have hp : startSep.isPrefixOf ('§' :: '[' :: rest) = true := by
    rw [startSep_isPrefixOf]; rfl
  rw [exec_text_cons, hp, if_pos rfl, exec_skip_cons]

theorem Run.output_writes (l : List Char) (e : Option String) :
    (Run.mk (writes l) e).output = String.mk l := by
  unfold Run.output writes
  congr 1
  induction l with
  | nil => rfl
  | cons c cs ih => simp [List.filterMap_cons, ih]

theorem exec_text_nil (data : Option (List (String × Value)))
    (resolve : String → Res String String) : exec data resolve 0 .text [] = ⟨[], none⟩ := rfl

/-- C14: the template `§[n]§`, with any number of spaces around the variable name n, is
rendered without error and without a call of `resolve-nested`, and what it writes is the
resolution of n in the data map: the stringified value of the entry with the key n when the
map has one (the literal match wins over a nested path); otherwise the value reached by
splitting n at the dots and descending through the nested maps, a `url.Values` giving the
first element of the list under the last component; and the empty string when the key or
path is missing or the map is nil. -/
theorem variable_template (data : Option (List (String × Value)))
    (resolve : String → Res String String) (n : String) (k1 k2 : Nat)
    (hn : isVariableName n = true) :
    executeTemplate ("§[" ++ spaces k1 ++ n ++ spaces k2 ++ "]§") data resolve
      = ⟨writes (resolveVariable data n).data, none⟩ ∧
    (executeTemplate ("§[" ++ spaces k1 ++ n ++ spaces k2 ++ "]§") data resolve).output
      = resolveVariable data n ∧
    (data = none → resolveVariable data n = "") ∧
    (∀ m v, data = some m → GoMap.get m n = some v → resolveVariable data n = stringify v) ∧
    (∀ m, data = some m → GoMap.get m n = none →
      resolveVariable data n = descend (.map m) (splitDots n.data)) ∧
    (∀ (m : List (String × Value)) (k : String) (ks : List String) (v1 : Value),
      GoMap.get m k = some v1 → descend (.map m) (k :: ks) = descend v1 ks) ∧
    (∀ (m : List (String × Value)) (k : String) (ks : List String),
      GoMap.get m k = none → descend (.map m) (k :: ks) = "") ∧
    (∀ (vm : List (String × List String)) (k : String),
      descend (.values vm) [k] = ((GoMap.get vm k).getD []).headD "") ∧
    (∀ v : Value, descend v [] = stringify v) := by
  obtain ⟨a, b, ha, hb, hca, hcb, hbr⟩ := isVariableName_facts n hn
  have hfa := isNameChar_facts a hca
  have hfb := isNameChar_facts b hcb
  have hmain : executeTemplate ("§[" ++ spaces k1 ++ n ++ spaces k2 ++ "]§") data resolve
      = ⟨writes (resolveVariable data n).data, none⟩ := by
    have hdata : ("§[" ++ spaces k1 ++ n ++ spaces k2 ++ "]§").data
        = '§' :: '[' :: ((List.replicate k1 ' ' ++ n.data ++ List.replicate k2 ' ')
            ++ ']' :: '§' :: []) := by
      simp only [String.data_append, spaces]
      simp
    have hnot : ']' ∉ List.replicate k1 ' ' ++ n.data ++ List.replicate k2 ' ' := by
      intro hmem
      simp only [List.mem_append, List.mem_replicate] at hmem
      rcases hmem with (⟨-, h⟩ | h) | ⟨-, h⟩
      · revert h; decide
      · exact hbr h
      · revert h; decide
    have htrim := trimWs_spaces k1 k2 n.data a b ha hb hfa.1 hfb.1
    unfold executeTemplate
    rw [hdata, exec_open, exec_marker_run data resolve _ [] _ hnot, List.nil_append,
      exec_marker_close_variable data resolve _ n.data [] htrim
        (by rw [ha]; simp; exact hfa.2.2.1)
        (by rw [ha]; simp; exact hfa.2.2.2.1)
        (by rw [ha]; simp; exact hfa.2.2.2.2),
      exec_text_nil]
    simp [Run.after]
  refine ⟨hmain, ?_, ?_, ?_, ?_, ?_, ?_, ?_, ?_⟩
  · rw [hmain, Run.output_writes]
  · intro hd; rw [hd]; rfl
  · intro m v hd hg; rw [hd]; simp [resolveVariable, hg]
  · intro m hd hg; rw [hd]; simp [resolveVariable, hg]
  · intro m k ks v1 hg; simp [descend, hg]
  · intro m k ks hg; simp [descend, hg]
  · intro vm k; simp [descend]
  · intro v; simp [descend]

/-- Witness of C14 on the data of scenario S4 and the template `§[ foo.bar ]§`: the literal
key `foo.bar` wins over the path through the nested map. -/
theorem variable_template_witness :
    executeTemplate ("§[" ++ spaces 1 ++ "foo.bar" ++ spaces 1 ++ "]§") (some exData) exResolve
      = ⟨writes "overwrite".data, none⟩ ∧
    (executeTemplate "§[some.url]§" (some exData) exResolve).output = "param" ∧
    (executeTemplate "§[foo.bar.nothing]§" (some exData) exResolve).output = "" ∧
    (executeTemplate "--§[foo]§--" none exResolve).output = "----" :=
  ⟨(variable_template (some exData) exResolve "foo.bar" 1 1 (by decide)).1.trans (by decide),
   by decide, by decide, by decide⟩

theorem Run.output_data_append (a b : List Event) (e : Option String) :
    (Run.mk (a ++ b) e).output.data
      = (Run.mk a e).output.data ++ (Run.mk b e).output.data := by
  simp [Run.output, List.filterMap_append]

theorem Run.output_data_writes (l : List Char) (e : Option String) :
    (Run.mk (writes l) e).output.data = l := by
  rw [Run.output_writes]

theorem Run.output_data_call (n : String) (es : List Event) (e : Option String) :
    (Run.mk (Event.call n :: es) e).output.data = (Run.mk es e).output.data := by
  simp [Run.output, List.filterMap_cons]

theorem Run.calls_append (a b : List Event) (e : Option String) :
    (Run.mk (a ++ b) e).calls = (Run.mk a e).calls ++ (Run.mk b e).calls := by
  simp [Run.calls, List.filterMap_append]

theorem Run.calls_writes (l : List Char) (e : Option String) :
    (Run.mk (writes l) e).calls = [] := by
  unfold Run.calls writes
  induction l with
  | nil => rfl
  | cons c cs ih => simp [List.filterMap_cons]

theorem Run.calls_call (n : String) (es : List Event) (e : Option String) :
    (Run.mk (Event.call n :: es) e).calls = n :: (Run.mk es e).calls := by
  simp [Run.calls, List.filterMap_cons]

theorem exec_include (data : Option (List (String × Value)))
    (resolve : String → Res String String) (P : List Char) (n : String) (rest : List Char)
    (hP : occursIn startSep P = false) (hn : isIncludeName n = true) :
    exec data resolve 0 .text (P ++ ('§' :: '[' :: (('>' :: ' ' :: n.data) ++ ']' :: '§' :: rest)))
      = (match resolve n with
        | .error e => (⟨[.call n], some e⟩ : Run)
        | .ok o => (exec data resolve 0 .text rest).after (.call n :: writes o.data)).after
          (writes P) := by
  obtain ⟨a, b, ha, hb, hwa, hwb, hbr⟩ := isIncludeName_facts n hn
  have hne : n.data ≠ [] := by
    intro h
    rw [h] at ha
    cases ha
  have hnot : ']' ∉ '>' :: ' ' :: n.data := by
    intro hmem
    simp only [List.mem_cons] at hmem
    rcases hmem with h | h | h
    · revert h; decide
    · revert h; decide
    · exact hbr h
  have hlast : ('>' :: ' ' :: n.data).getLast? = some b := by
    obtain ⟨c, cs, hcs⟩ := List.exists_cons_of_ne_nil hne
    rw [hcs] at hb ⊢
    simpa [List.getLast?_cons_cons] using hb
  have ht1 : trimWs ('>' :: ' ' :: n.data) = '>' :: (' ' :: n.data) :=
    trimWs_eq_self _ '>' b rfl hlast (by decide) hwb
  have ht2 : trimWs (' ' :: n.data) = n.data := by
    have := trimWs_spaces 1 0 n.data a b ha hb hwa hwb
    simpa using this
  rw [exec_text_run data resolve P _ hP (by simp), exec_open,
    exec_marker_run data resolve _ [] _ hnot, List.nil_append,
    exec_marker_close_include data resolve _ (' ' :: n.data) rest ht1, ht2]

theorem include_template_data (P n S : String) :
    (P ++ "§[> " ++ n ++ "]§" ++ S).data
      = P.data ++ ('§' :: '[' :: (('>' :: ' ' :: n.data) ++ ']' :: '§' :: S.data)) := by
  simp [String.data_append]

/-- C17: for every template P + `§[> n]§` + S in which P holds no opening delimiter,
executeTemplate writes P and then calls `resolve-nested` with n. When the call succeeds
with the output o, the run goes on as the rendering of S does: the events are the writes of
P, the one call, the writes of o and the events of S, and the error is that of S; when S
holds no marker the output is P, o, S and the call is the only one. When the call returns
the error e, executeTemplate returns exactly e, the events are the writes of P and the one
call, so P stays written and nothing of S is. -/
theorem mandatory_include (data : Option (List (String × Value)))
    (resolve : String → Res String String) (P n S : String)
    (hP : occursIn startSep P.data = false) (hn : isIncludeName n = true) :
    (∀ o, resolve n = .ok o →
      executeTemplate (P ++ "§[> " ++ n ++ "]§" ++ S) data resolve
        = (executeTemplate S data resolve).after
            (writes P.data ++ Event.call n :: writes o.data) ∧
      (occursIn startSep S.data = false →
        (executeTemplate (P ++ "§[> " ++ n ++ "]§" ++ S) data resolve).output = P ++ o ++ S ∧
        (executeTemplate (P ++ "§[> " ++ n ++ "]§" ++ S) data resolve).calls = [n] ∧
        (executeTemplate (P ++ "§[> " ++ n ++ "]§" ++ S) data resolve).err = none)) ∧
    (∀ e, resolve n = .error e →
      executeTemplate (P ++ "§[> " ++ n ++ "]§" ++ S) data resolve
        = ⟨writes P.data ++ [Event.call n], some e⟩ ∧
      (executeTemplate (P ++ "§[> " ++ n ++ "]§" ++ S) data resolve).output = P ∧
      (executeTemplate (P ++ "§[> " ++ n ++ "]§" ++ S) data resolve).calls = [n]) := by
  have hmain := exec_include data resolve P.data n S.data hP hn
  rw [← include_template_data] at hmain
  constructor
  · intro o ho
    rw [ho] at hmain
    have hrun : executeTemplate (P ++ "§[> " ++ n ++ "]§" ++ S) data resolve
        = (executeTemplate S data resolve).after
            (writes P.data ++ Event.call n :: writes o.data) := by
      unfold executeTemplate
      rw [hmain]
      simp [Run.after]
    refine ⟨hrun, ?_⟩
    intro hS
    rw [hrun]
    unfold executeTemplate
    rw [exec_text_plain data resolve S.data hS]
    refine ⟨?_, ?_, rfl⟩
    · apply String.ext
      simp only [Run.after, Run.output_data_append, Run.output_data_call, Run.output_data_writes,
        String.data_append]
    · simp only [Run.after]
      rw [Run.calls_append, Run.calls_writes, Run.calls_append, Run.calls_writes,
        Run.calls_call, Run.calls_writes]
      rfl
  · intro e he
    rw [he] at hmain
    have hrun : executeTemplate (P ++ "§[> " ++ n ++ "]§" ++ S) data resolve
        = ⟨writes P.data ++ [Event.call n], some e⟩ := by
      unfold executeTemplate
      rw [hmain]
      simp [Run.after]
    refine ⟨hrun, ?_, ?_⟩
    · rw [hrun]
      apply String.ext
      rw [Run.output_data_append, Run.output_data_writes, Run.output_data_call]
      simp [Run.output]
    · rw [hrun, Run.calls_append, Run.calls_writes, Run.calls_call]
      rfl

/-- Witness of C17 on the templates of the tests: the fragment `foo` exists and is spliced
between the texts, the fragment `not_existent_fragment` does not and its error is returned
after `xxx-` has been written. -/
theorem mandatory_include_witness :
    executeTemplate ("xxx-" ++ "§[> " ++ "foo" ++ "]§" ++ "-yyy") none exResolve
      = (executeTemplate "-yyy" none exResolve).after
          (writes "xxx-".data ++ Event.call "foo" :: writes "bar".data) ∧
    (executeTemplate "xxx-§[> foo]§-yyy" none exResolve).output = "xxx-bar-yyy" ∧
    executeTemplate ("xxx-" ++ "§[> " ++ "not_existent_fragment" ++ "]§" ++ "-yyy") none
        exResolve
      = ⟨writes "xxx-".data ++ [Event.call "not_existent_fragment"],
          some "Fragment does not exist: not_existent_fragment"⟩ :=
  ⟨((mandatory_include none exResolve "xxx-" "foo" "-yyy" (by decide) (by decide)).1
      "bar" (by decide)).1,
   by decide,
   ((mandatory_include none exResolve "xxx-" "not_existent_fragment" "-yyy" (by decide)
      (by decide)).2 "Fragment does not exist: not_existent_fragment" (by decide)).1⟩

theorem exec_optional (data : Option (List (String × Value)))
    (resolve : String → Res String String) (P : List Char) (n : String) (rest : List Char)
    (hP : occursIn startSep P = false) (hn : isIncludeName n = true) :
    exec data resolve 0 .text
        (P ++ ('§' :: '[' :: (('#' :: '>' :: ' ' :: n.data) ++ ']' :: '§' :: rest)))
      = (if occursIn (startSep ++ '/' :: n.data ++ endSep) rest then
          match resolve n with
          | .error _ =>
            (exec data resolve 0 (.emitAlt (startSep ++ '/' :: n.data ++ endSep)) rest).after
              [.call n]
          | .ok o =>
            (exec data resolve 0 (.skipAlt (startSep ++ '/' :: n.data ++ endSep)) rest).after
              (.call n :: writes o.data)
        else
          (⟨[], some ("Fragment parsing error, missing ending block: "
            ++ String.mk (startSep ++ '/' :: n.data ++ endSep))⟩ : Run)).after (writes P) := by
  obtain ⟨a, b, ha, hb, hwa, hwb, hbr⟩ := isIncludeName_facts n hn
  have hne : n.data ≠ [] := by
    intro h
    rw [h] at ha
    cases ha
  have hnot : ']' ∉ '#' :: '>' :: ' ' :: n.data := by
    intro hmem
    simp only [List.mem_cons] at hmem
    rcases hmem with h | h | h | h
    · revert h; decide
    · revert h; decide
    · revert h; decide
    · exact hbr h
  have hlast : ('#' :: '>' :: ' ' :: n.data).getLast? = some b := by
    obtain ⟨c, cs, hcs⟩ := List.exists_cons_of_ne_nil hne
    rw [hcs] at hb ⊢
    simpa [List.getLast?_cons_cons] using hb
  have ht1 : trimWs ('#' :: '>' :: ' ' :: n.data) = '#' :: '>' :: (' ' :: n.data) :=
    trimWs_eq_self _ '#' b rfl hlast (by decide) hwb
  have ht2 : trimWs (' ' :: n.data) = n.data := by
    have := trimWs_spaces 1 0 n.data a b ha hb hwa hwb
    simpa using this
  rw [exec_text_run data resolve P _ hP (by simp), exec_open,
    exec_marker_run data resolve _ [] _ hnot, List.nil_append,
    exec_marker_close_optional data resolve _ (' ' :: n.data) rest ht1, ht2]

theorem optional_template_data (P n R : String) :
    (P ++ "§[#> " ++ n ++ "]§" ++ R).data
      = P.data ++ ('§' :: '[' :: (('#' :: '>' :: ' ' :: n.data) ++ ']' :: '§' :: R.data)) := by
  simp [String.data_append]

theorem closing_block_data (n : String) :
    ("§[/" ++ n ++ "]§").data = startSep ++ '/' :: n.data ++ endSep := by
  simp [String.data_append, startSep, endSep]

/-- C15: for every template P + `§[#> n]§` + A + `§[/n]§` + S in which P, A and S hold no
opening delimiter, executeTemplate writes P and calls `resolve-nested` with n once; when the
call succeeds with the output o it writes o and then S, discards A and returns no error;
when the call fails it writes A and then S and returns no error. For every template
P + `§[#> n]§` + R in which the closing `§[/n]§` does not occur in R it returns the error
`Fragment parsing error, missing ending block: §[/n]§` after writing P. -/
theorem optional_include (data : Option (List (String × Value)))
    (resolve : String → Res String String) (P n A S : String)
    (hP : occursIn startSep P.data = false) (hA : occursIn startSep A.data = false)
    (hS : occursIn startSep S.data = false) (hn : isIncludeName n = true) :
    (∀ o, resolve n = .ok o →
      executeTemplate (P ++ "§[#> " ++ n ++ "]§" ++ A ++ "§[/" ++ n ++ "]§" ++ S) data resolve
        = ⟨writes P.data ++ Event.call n :: writes o.data ++ writes S.data, none⟩ ∧
      (executeTemplate (P ++ "§[#> " ++ n ++ "]§" ++ A ++ "§[/" ++ n ++ "]§" ++ S) data
        resolve).output = P ++ o ++ S) ∧
    (∀ e, resolve n = .error e →
      executeTemplate (P ++ "§[#> " ++ n ++ "]§" ++ A ++ "§[/" ++ n ++ "]§" ++ S) data resolve
        = ⟨writes P.data ++ Event.call n :: writes A.data ++ writes S.data, none⟩ ∧
      (executeTemplate (P ++ "§[#> " ++ n ++ "]§" ++ A ++ "§[/" ++ n ++ "]§" ++ S) data
        resolve).output = P ++ A ++ S) ∧
    (∀ R : String, occursIn ("§[/" ++ n ++ "]§").data R.data = false →
      executeTemplate (P ++ "§[#> " ++ n ++ "]§" ++ R) data resolve
        = ⟨writes P.data,
            some ("Fragment parsing error, missing ending block: §[/" ++ n ++ "]§")⟩) := by
  have hpat : startSep ++ '/' :: n.data ++ endSep = startSep ++ ('/' :: n.data ++ endSep) :=
    List.append_assoc _ _ _
  have hdata : (P ++ "§[#> " ++ n ++ "]§" ++ A ++ "§[/" ++ n ++ "]§" ++ S).data
      = P.data ++ ('§' :: '[' :: (('#' :: '>' :: ' ' :: n.data) ++ ']' :: '§' ::
          (A.data ++ (startSep ++ ('/' :: n.data ++ endSep) ++ S.data)))) := by
    simp [String.data_append, startSep, endSep]
  have hocc : occursIn (startSep ++ ('/' :: n.data ++ endSep))
      (A.data ++ (startSep ++ ('/' :: n.data ++ endSep) ++ S.data)) = true :=
    occursIn_append _ S.data (by simp [startSep]) A.data
  have hmain := exec_optional data resolve P.data n
    (A.data ++ (startSep ++ ('/' :: n.data ++ endSep) ++ S.data)) hP hn
  rw [← hdata, hpat, hocc, if_pos rfl, exec_emitAlt_run data resolve _ S.data A.data hA,
    exec_skipAlt_run data resolve _ S.data A.data hA,
    exec_text_plain data resolve S.data hS] at hmain
  refine ⟨?_, ?_, ?_⟩
  · intro o ho
    rw [ho] at hmain
    have hrun : executeTemplate
        (P ++ "§[#> " ++ n ++ "]§" ++ A ++ "§[/" ++ n ++ "]§" ++ S) data resolve
        = ⟨writes P.data ++ Event.call n :: writes o.data ++ writes S.data, none⟩ := by
      unfold executeTemplate
      rw [hmain]
      simp [Run.after]
    refine ⟨hrun, ?_⟩
    rw [hrun]
    apply String.ext
    simp only [Run.output_data_append, Run.output_data_call, Run.output_data_writes,
      String.data_append]
  · intro e he
    rw [he] at hmain
    have hrun : executeTemplate
        (P ++ "§[#> " ++ n ++ "]§" ++ A ++ "§[/" ++ n ++ "]§" ++ S) data resolve
        = ⟨writes P.data ++ Event.call n :: writes A.data ++ writes S.data, none⟩ := by
      unfold executeTemplate
      rw [hmain]
      simp [Run.after]
    refine ⟨hrun, ?_⟩
    rw [hrun]
    apply String.ext
    simp only [Run.output_data_append, Run.output_data_call, Run.output_data_writes,
      String.data_append]
  · intro R hR
    rw [closing_block_data] at hR
    have hmiss := exec_optional data resolve P.data n R.data hP hn
    rw [← optional_template_data, hR] at hmiss
    unfold executeTemplate
    rw [hmiss, ← closing_block_data]
    simp only [Bool.false_eq_true, if_false, Run.after, List.append_nil]
    congr 2

/-- Witness of C15 on scenario S5 and its sibling tests: the missing fragment gives the
alternative text, the fragment `foo` replaces it, and without the closing block the error
names the block. -/
theorem optional_include_witness :
    executeTemplate
        ("xxx-" ++ "§[#> " ++ "foo" ++ "]§" ++ " alternative text " ++ "§[/" ++ "foo" ++ "]§"
          ++ "-yyy") none (fun n => Res.error ("Fragment does not exist: " ++ n))
      = ⟨writes "xxx-".data ++ Event.call "foo" :: writes " alternative text ".data
          ++ writes "-yyy".data, none⟩ ∧
    (executeTemplate "xxx-§[#> foo]§ alternative text §[/foo]§-yyy" none
      (fun n => Res.error ("Fragment does not exist: " ++ n))).output
      = "xxx- alternative text -yyy" ∧
    (executeTemplate "xxx-§[#> foo]§ alternative text §[/foo]§-yyy" none exResolve).output
      = "xxx-bar-yyy" ∧
    (executeTemplate "xxx-§[#> foo]§ alternative text §-yyy" none exResolve).err
      = some "Fragment parsing error, missing ending block: §[/foo]§" :=
  ⟨((optional_include none (fun n => Res.error ("Fragment does not exist: " ++ n)) "xxx-" "foo"
      " alternative text " "-yyy" (by decide) (by decide) (by decide) (by decide)).2.1
      "Fragment does not exist: foo" (by decide)).1,
   by decide, by decide, by decide⟩

/-- C16, counterexample: in `§[> x]§§[` and in `§[#> x]§§[` the second opening delimiter
is followed by no closing one, and yet no error about a missing ending separator is
returned: the mandatory include of a fragment that does not exist ends the rendering with
the error of `resolve-nested`, and the optional include without its closing block with the
error about the missing ending block. -/
theorem unterminated_after_failed_include :
    occursIn startSep "§[".data = true ∧ occursIn endSep "".data = false ∧
    executeTemplate "§[> x]§§[" none exResolve
      = ⟨[Event.call "x"], some "Fragment does not exist: x"⟩ ∧
    executeTemplate "§[#> x]§§[" none exResolve
      = ⟨[], some "Fragment parsing error, missing ending block: §[/x]§"⟩ := by
  decide

/-- C21 (counterexample): the body
`<uia-fragment name="a">x<uia-fragment name="b">y</uia-fragment>z</uia-fragment>` has a
`uia-fragment` start tag inside an open `uia-fragment`, and `parse` returns a content, not an
error: the fragment `a` is `x<uia-fragment name="b">y` and the default body is
`z</uia-fragment>`. -/
theorem nested_fragment_not_rejected :
    parse ⟨exNested, none, ""⟩
      = .ok { NewMemoryContent with
          body := [("", "z</uia-fragment>"), ("a", "x<uia-fragment name=\"b\">y")] } := by
  decide

/-- C21 (amended): the loop of `parseFragment` has no case for a `uia-fragment` start tag.
Inside an open fragment whose content up to the first `</uia-fragment>` is otherwise plain,
a nested `uia-fragment` start tag without `uia-remove` is not rejected: its raw bytes are
copied into the text of the outer fragment, which ends at the first `</uia-fragment>`, and
the loop of `parseBody` goes on behind that end tag with the outer fragment stored under its
name. -/
theorem nested_fragment_accepted (tok : Token) (pre mid : List Token) (t e : Token)
    (rest : List Token) (err : Option String) (errRaw : String) (c : MemoryContent)
    (buf : String) (fuel : Nat)
    (htok : (tok.tt = .StartTagToken ∨ tok.tt = .SelfClosingTagToken) ∧ tok.tag = UiaFragment ∧
      getAttr tok.attrs UiaRemove = none)
    (ht : t.tt = .StartTagToken ∧ t.tag = UiaFragment ∧ getAttr t.attrs UiaRemove = none)
    (hpre : ∀ x ∈ pre, plainInFragment x = true) (hmid : ∀ x ∈ mid, plainInFragment x = true)
    (he : e.tt = .EndTagToken ∧ e.tag = UiaFragment)
    (hfuel : pre.length + mid.length + 1 < fuel) :
    parseFragment fuel ⟨pre ++ t :: mid ++ e :: rest, err, errRaw⟩
      = .ok (rawConcat (pre ++ t :: mid), [], ⟨rest, err, errRaw⟩) ∧
    parseBodyLoop (fuel + 1) ⟨tok :: (pre ++ t :: mid ++ e :: rest), err, errRaw⟩ c buf
      = parseBodyLoop fuel ⟨rest, err, errRaw⟩
          { c with body := c.body.set (getFragmentName tok.attrs) (rawConcat (pre ++ t :: mid)) }
          buf := by
  have hplain : plainInFragment t = true := by
    simp [plainInFragment, ht.1, ht.2.1, ht.2.2, UiaFragment, UiaInclude]
  have hall : ∀ x ∈ pre ++ t :: mid, plainInFragment x = true := by
    intro x hx
    simp only [List.mem_append, List.mem_cons] at hx
    rcases hx with h | h | h
    · exact hpre x h
    · rw [h]; exact hplain
    · exact hmid x h
  have hfrag : parseFragment fuel ⟨pre ++ t :: mid ++ e :: rest, err, errRaw⟩
      = .ok (rawConcat (pre ++ t :: mid), [], ⟨rest, err, errRaw⟩) := by
    unfold parseFragment
    rw [parseFragmentLoop_plain (pre ++ t :: mid) fuel e rest err errRaw [] "" hall
      ⟨he.1, Or.inl he.2⟩ (by simp; omega)]
    simp
  refine ⟨hfrag, ?_⟩
  rw [parseBodyLoop_cons, if_pos htok.1]
  simp only [skipSubtreeIfUiaRemove, htok.2.2, Bool.false_eq_true, if_false, if_pos htok.2.1,
    hfrag]
  rfl

/-- Witness of the amended C21 on the body of `exNested`: the outer fragment `a` holds the
text `x`, the nested start tag and the text `y`, and the loop of `parseBody` goes on with
`z</uia-fragment></body>`. -/
theorem nested_fragment_accepted_witness :
    parseFragment 4
        ⟨[exText "x"] ++ exStart "uia-fragment" [⟨"name", "b"⟩] "<uia-fragment name=\"b\">"
          :: [exText "y"] ++ exEnd "uia-fragment"
          :: [exText "z", exEnd "uia-fragment", exEnd "body"], none, ""⟩
      = .ok (rawConcat ([exText "x"] ++
          exStart "uia-fragment" [⟨"name", "b"⟩] "<uia-fragment name=\"b\">" :: [exText "y"]),
          [], ⟨[exText "z", exEnd "uia-fragment", exEnd "body"], none, ""⟩) ∧
    rawConcat ([exText "x"] ++
        exStart "uia-fragment" [⟨"name", "b"⟩] "<uia-fragment name=\"b\">" :: [exText "y"])
      = "x<uia-fragment name=\"b\">y" ∧
    parseBodyLoop 5 ⟨exNested.tail, none, ""⟩ NewMemoryContent ""
      = .ok ({ NewMemoryContent with body := [("a", "x<uia-fragment name=\"b\">y")] },
          "z</uia-fragment>", ⟨[], none, ""⟩) :=
  ⟨(nested_fragment_accepted
      (exStart "uia-fragment" [⟨"name", "a"⟩] "<uia-fragment name=\"a\">")
      [exText "x"] [exText "y"]
      (exStart "uia-fragment" [⟨"name", "b"⟩] "<uia-fragment name=\"b\">")
      (exEnd "uia-fragment") [exText "z", exEnd "uia-fragment", exEnd "body"] none ""
      NewMemoryContent "" 4
      (by decide) (by decide) (by decide) (by decide) (by decide) (by decide)).1,
   by decide, by decide⟩

/-- C22: when `parseHead` returns without error, the content differs from the one it was
called with at most in the fields head and meta: the body map, the tail and requiredContent
are the same as before.  A `uia-include`, `uia-fragment` or `uia-tail` start tag without
`uia-remove` met by the loop of `parseHead` is handled like any other tag: its raw bytes are
appended to the head buffer and the loop goes on with the same content. -/
theorem parseHead_changes_head_and_meta_only (fuel : Nat) (z : Tokenizer)
    (c c1 : MemoryContent) (z1 : Tokenizer) (h : parseHead fuel z c = .ok (c1, z1)) :
    c1.body = c.body ∧ c1.tail = c.tail ∧ c1.requiredContent = c.requiredContent ∧
    c1 = { c with meta := c1.meta, head := c1.head } ∧
    (∀ (t : Token) (ts : List Token) (err : Option String) (errRaw : String)
      (c0 : MemoryContent) (buf : String) (f : Nat),
      (t.tt = .StartTagToken ∨ t.tt = .SelfClosingTagToken) →
      (t.tag = UiaInclude ∨ t.tag = UiaFragment ∨ t.tag = UiaTail) →
      getAttr t.attrs UiaRemove = none →
      parseHeadLoop (f + 1) ⟨t :: ts, err, errRaw⟩ c0 buf
        = parseHeadLoop f ⟨ts, err, errRaw⟩ c0 (buf ++ t.raw)) := by
  have hf := parseHead_frame fuel z c c1 z1 h
  refine ⟨by rw [hf], by rw [hf], by rw [hf], hf, ?_⟩
  intro t ts err errRaw c0 buf f htt htag hrem
  apply parseHeadLoop_plain_step
  have hscript : t.tag ≠ "script" := by
    rcases htag with h1 | h1 | h1 <;> rw [h1] <;> decide
  rcases htt with h1 | h1 <;> simp [plainInHead, h1, hrem, hscript]

/-- Witness of C22 on the head content
`<uia-include src="/x"><uia-fragment name="b">t</uia-fragment><uia-tail>u</uia-tail></head>`
and a content that already has a body fragment, a tail and a required definition: the tags
are in the head text, and body, tail and requiredContent are as before. -/
theorem parseHead_changes_head_and_meta_only_witness :
    parseHead 9 ⟨exHeadTags, none, ""⟩ exFilled
      = .ok ({ exFilled with head := some (rawConcat (exHeadTags.take 7)) },
          ⟨[], none, ""⟩) ∧
    rawConcat (exHeadTags.take 7)
      = "<uia-include src=\"/x\"><uia-fragment name=\"b\">t</uia-fragment><uia-tail>u</uia-tail>" ∧
    exFilled.body = [("a", "one")] ∧ exFilled.tail = some "two" ∧
    exFilled.requiredContent = [("/y", { FetchDefinition.zero with URL := "/y" })] :=
  have h : parseHead 9 ⟨exHeadTags, none, ""⟩ exFilled
      = .ok ({ exFilled with head := some (rawConcat (exHeadTags.take 7)) },
          ⟨[], none, ""⟩) := by decide
  have hw := parseHead_changes_head_and_meta_only 9 ⟨exHeadTags, none, ""⟩ exFilled _ _ h
  ⟨h, by decide, hw.1.symm, hw.2.1.symm, hw.2.2.1.symm⟩

/-! ## Lemmas on the calls of `z.Next()` -/

theorem Accounts.token (n K : Nat) (r : Reads) (rem : Option (List Token))
    (h : Accounts n r rem K) : Accounts (n + 1) r.token rem K := by
  obtain ⟨a1, a2, a3, a4⟩ := h
  refine ⟨a1, a2, a3, ?_⟩
  cases rem with
  | none =>
    simp only [Reads.token] at a4 ⊢
    omega
  | some l =>
    simp only [Reads.token] at a4 ⊢
    exact ⟨by omega, a4.2.1, a4.2.2⟩

theorem Accounts.zero_some (l : List Token) (K : Nat) :
    Accounts l.length Reads.zero (some l) K := by
  simp [Accounts, Reads.zero]

theorem Accounts.zero_none (n K : Nat) : Accounts n Reads.zero none K := by
  simp [Accounts, Reads.zero]

theorem Accounts.seq (n K0 K : Nat) (r0 r1 : Reads) (rem0 : List Token)
    (rem1 : Option (List Token)) (h0 : Accounts n r0 (some rem0) K0)
    (h1 : Accounts rem0.length r1 rem1 K)
    (hend : rem0 = [] → r1.loopEnds ≤ 1 ∧ r1.metaEnds = 0) (hK : K0 + 1 ≤ K) :
    Accounts n (r0.add r1) rem1 K := by
  obtain ⟨a1, a2, a3, a4, a5, a6⟩ := h0
  obtain ⟨b1, b2, b3, b4⟩ := h1
  have hcase : r0.loopEnds = 0 ∨ (r1.loopEnds ≤ 1 ∧ r1.metaEnds = 0 ∧ rem0.length = 0) := by
    by_cases h : 0 < r0.loopEnds
    · have h1 := a6 h
      have h2 := hend h1
      right
      exact ⟨h2.1, h2.2, by rw [h1]; rfl⟩
    · left; omega
  refine ⟨?_, ?_, ?_, ?_⟩
  · simp only [Reads.add]; omega
  · simp only [Reads.add]; omega
  · simp only [Reads.add]; omega
  · cases rem1 with
    | none =>
      simp only [Reads.add] at b4 ⊢
      omega
    | some l =>
      simp only [Reads.add] at b4 ⊢
      obtain ⟨c1, c2, c3⟩ := b4
      refine ⟨by omega, by omega, ?_⟩
      intro hpos
      by_cases hr1 : 0 < r1.loopEnds
      · exact c3 hr1
      · have hl : l.length = 0 := by omega
        exact List.length_eq_zero.1 hl

theorem skipSubtreeReads_accounts (ts : List Token) :
    ∀ depth : Int,
      Accounts ts.length (skipSubtreeReads ts depth) (some (skipSubtreeLoop ts depth)) 1 := by
  induction ts with
  | nil => intro depth; simp [Accounts, skipSubtreeReads, skipSubtreeLoop]
  | cons t ts ih =>
    intro depth
    simp only [skipSubtreeReads, skipSubtreeLoop, List.length_cons]
    split
    · exact Accounts.token _ _ _ _ (ih _)
    · split
      · split
        · exact Accounts.token _ _ _ _ (Accounts.zero_some ts 1)
        · exact Accounts.token _ _ _ _ (ih _)
      · exact Accounts.token _ _ _ _ (ih _)

theorem skipSubtreeIfUiaRemoveReads_accounts (z : Tokenizer) (tt : TokenType)
    (tagName : String) (attrs : List Attribute) :
    Accounts z.toks.length (skipSubtreeIfUiaRemoveReads z tt tagName attrs)
      (some (skipSubtreeIfUiaRemove z tt tagName attrs).2.toks) 1 := by
  unfold skipSubtreeIfUiaRemoveReads skipSubtreeIfUiaRemove
  cases getAttr attrs UiaRemove with
  | none => exact Accounts.zero_some _ _
  | some a =>
    simp only
    split
    · exact Accounts.zero_some _ _
    · exact skipSubtreeReads_accounts _ _

theorem parseMetaJsonReads_accounts (z : Tokenizer) (c : MemoryContent) :
    Accounts z.toks.length (parseMetaJsonReads z)
      (match parseMetaJson z c with
        | .ok (_, z2) => some z2.toks
        | .error _ => none) 1 := by
  rcases z with ⟨toks, err, raw⟩
  cases toks with
  | nil => simp [Accounts, parseMetaJson, parseMetaJsonReads, Tokenizer.Next]
  | cons t ts =>
    by_cases ht : t.tt = .TextToken
    · cases hj : jsonUnmarshal t.text with
      | error e =>
        simp [Accounts, parseMetaJson, parseMetaJsonReads, Tokenizer.Next, ht, hj, Reads.token,
          Reads.zero]
      | ok top =>
        cases ts with
        | nil =>
          simp [Accounts, parseMetaJson, parseMetaJsonReads, Tokenizer.Next, ht, hj,
            Reads.token]
        | cons t2 rest =>
          by_cases h2 : t2.tt ≠ .EndTagToken ∨ t2.tag ≠ "script"
          · simp [Accounts, parseMetaJson, parseMetaJsonReads, Tokenizer.Next, ht, hj, h2,
              Reads.token, Reads.zero]
          · simp only [parseMetaJson, parseMetaJsonReads, Tokenizer.Next, ht, hj, ne_eq,
              not_true_eq_false, if_false, if_neg h2]
            simp [Accounts, Reads.token, Reads.zero]
            omega
    · simp [Accounts, parseMetaJson, parseMetaJsonReads, Tokenizer.Next, ht, Reads.token,
        Reads.zero]

theorem parseFragmentReads_cons (fuel : Nat) (t : Token) (ts : List Token)
    (err : Option String) (errRaw : String) :
    parseFragmentReads (fuel + 1) ⟨t :: ts, err, errRaw⟩ =
      Reads.token
        (if t.tt = .StartTagToken ∨ t.tt = .SelfClosingTagToken then
          if t.tag = UiaInclude then
            match getInclude t.raw t.attrs with
            | .error _ => Reads.zero
            | .ok _ => parseFragmentReads fuel ⟨ts, err, errRaw⟩
          else if (skipSubtreeIfUiaRemove ⟨ts, err, errRaw⟩ t.tt t.tag t.attrs).1 then
            (skipSubtreeIfUiaRemoveReads ⟨ts, err, errRaw⟩ t.tt t.tag t.attrs).add
              (parseFragmentReads fuel
                (skipSubtreeIfUiaRemove ⟨ts, err, errRaw⟩ t.tt t.tag t.attrs).2)
          else parseFragmentReads fuel ⟨ts, err, errRaw⟩
        else if t.tt = .EndTagToken ∧ (t.tag = UiaFragment ∨ t.tag = UiaTail) then Reads.zero
        else parseFragmentReads fuel ⟨ts, err, errRaw⟩) := rfl

theorem parseFragmentReads_end (fuel : Nat) (z : Tokenizer) (h : z.toks = []) :
    (parseFragmentReads fuel z).loopEnds ≤ 1 ∧ (parseFragmentReads fuel z).metaEnds = 0 := by
  rcases z with ⟨toks, err, raw⟩
  simp only at h
  subst h
  cases fuel with
  | zero => simp [parseFragmentReads, Reads.zero]
  | succ n => simp [parseFragmentReads, Tokenizer.Next]

theorem parseFragmentLoop_accounts (fuel : Nat) :
    ∀ (z : Tokenizer) (deps : List FetchDefinition) (buf : String), z.toks.length < fuel →
      Accounts z.toks.length (parseFragmentReads fuel z)
        (Outcome.rem (fun r => r.2.2) (parseFragmentLoop fuel z deps buf)) 2 := by
  induction fuel with
  | zero => intro z deps buf h; simp at h
  | succ n ih =>
    intro z deps buf hlen
    rcases z with ⟨toks, err, raw⟩
    cases toks with
    | nil =>
      cases err with
      | none =>
        simp [Accounts, parseFragmentLoop, parseFragmentReads, Tokenizer.Next, Outcome.rem]
      | some e =>
        simp [Accounts, parseFragmentLoop, parseFragmentReads, Tokenizer.Next, Outcome.rem]
    | cons t ts =>
      have hts : ts.length < n := by simpa using hlen
      rw [parseFragmentLoop_cons, parseFragmentReads_cons]
      apply Accounts.token
      by_cases hstart : t.tt = .StartTagToken ∨ t.tt = .SelfClosingTagToken
      · simp only [if_pos hstart]
        by_cases hinc : t.tag = UiaInclude
        · simp only [if_pos hinc]
          cases hg : getInclude t.raw t.attrs with
          | error e => exact Accounts.zero_none _ _
          | ok r => exact ih _ _ _ hts
        · simp only [if_neg hinc]
          by_cases hskip : (skipSubtreeIfUiaRemove ⟨ts, err, raw⟩ t.tt t.tag t.attrs).1 = true
          · simp only [if_pos hskip]
            exact Accounts.seq _ 1 2 _ _ _ _
              (skipSubtreeIfUiaRemoveReads_accounts ⟨ts, err, raw⟩ t.tt t.tag t.attrs)
              (ih _ _ _ (Nat.lt_of_le_of_lt (skipSubtreeIfUiaRemove_length _ _ _ _) hts))
              (parseFragmentReads_end _ _) (Nat.le_refl _)
          · simp only [if_neg hskip]
            exact ih _ _ _ hts
      · simp only [if_neg hstart]
        by_cases hend : t.tt = .EndTagToken ∧ (t.tag = UiaFragment ∨ t.tag = UiaTail)
        · simp only [if_pos hend]
          exact Accounts.zero_some ts 2
        · simp only [if_neg hend]
          exact ih _ _ _ hts

theorem Accounts.fail (n K0 K : Nat) (r : Reads) (h : Accounts n r none K0) (hK : K0 ≤ K) :
    Accounts n (r.add Reads.zero) none K := by
  obtain ⟨a1, a2, a3, a4⟩ := h
  simp only [Accounts, Reads.add, Reads.zero, Nat.add_zero] at a4 ⊢
  exact ⟨by omega, a2, a3, a4⟩

theorem Accounts.le (n K : Nat) (r : Reads) (l : List Token) (h : Accounts n r (some l) K) :
    l.length ≤ n := by
  obtain ⟨_, _, _, a4, _, _⟩ := h
  omega

theorem parseBodyReads_cons (fuel : Nat) (t : Token) (ts : List Token)
    (err : Option String) (errRaw : String) (c : MemoryContent) :
    parseBodyReads (fuel + 1) ⟨t :: ts, err, errRaw⟩ c =
      Reads.token
        (if t.tt = .StartTagToken ∨ t.tt = .SelfClosingTagToken then
          if (skipSubtreeIfUiaRemove ⟨ts, err, errRaw⟩ t.tt t.tag t.attrs).1 then
            (skipSubtreeIfUiaRemoveReads ⟨ts, err, errRaw⟩ t.tt t.tag t.attrs).add
              (parseBodyReads fuel
                (skipSubtreeIfUiaRemove ⟨ts, err, errRaw⟩ t.tt t.tag t.attrs).2 c)
          else if t.tag = UiaFragment then
            (parseFragmentReads fuel ⟨ts, err, errRaw⟩).add
              (match parseFragment fuel ⟨ts, err, errRaw⟩ with
              | .ok (f, deps, z2) =>
                parseBodyReads fuel z2
                  (addDependencies { c with body := c.body.set (getFragmentName t.attrs) f } deps)
              | _ => Reads.zero)
          else if t.tag = UiaTail then
            (parseFragmentReads fuel ⟨ts, err, errRaw⟩).add
              (match parseFragment fuel ⟨ts, err, errRaw⟩ with
              | .ok (f, deps, z2) =>
                parseBodyReads fuel z2 (addDependencies { c with tail := some f } deps)
              | _ => Reads.zero)
          else if t.tag = UiaInclude then
            match getInclude t.raw t.attrs with
            | .error _ => Reads.zero
            | .ok (fd, _) =>
              parseBodyReads fuel ⟨ts, err, errRaw⟩
                { c with requiredContent := c.requiredContent.set fd.URL fd }
          else parseBodyReads fuel ⟨ts, err, errRaw⟩ c
        else if t.tt = .EndTagToken ∧ t.tag = "body" then Reads.zero
        else parseBodyReads fuel ⟨ts, err, errRaw⟩ c) := rfl

theorem parseBodyReads_end (fuel : Nat) (z : Tokenizer) (c : MemoryContent)
    (h : z.toks = []) :
    (parseBodyReads fuel z c).loopEnds ≤ 1 ∧ (parseBodyReads fuel z c).metaEnds = 0 := by
  rcases z with ⟨toks, err, raw⟩
  simp only at h
  subst h
  cases fuel with
  | zero => simp [parseBodyReads, Reads.zero]
  | succ n => simp [parseBodyReads, Tokenizer.Next]

theorem parseBodyLoop_accounts (fuel : Nat) :
    ∀ (z : Tokenizer) (c : MemoryContent) (buf : String), z.toks.length < fuel →
      Accounts z.toks.length (parseBodyReads fuel z c)
        (Outcome.rem (fun r => r.2.2) (parseBodyLoop fuel z c buf)) 3 := by
  induction fuel with
  | zero => intro z c buf h; simp at h
  | succ n ih =>
    intro z c buf hlen
    rcases z with ⟨toks, err, raw⟩
    cases toks with
    | nil =>
      cases err with
      | none =>
        simp [Accounts, parseBodyLoop, parseBodyReads, Tokenizer.Next, Outcome.rem]
      | some e =>
        simp [Accounts, parseBodyLoop, parseBodyReads, Tokenizer.Next, Outcome.rem]
    | cons t ts =>
      have hts : ts.length < n := by simpa using hlen
      have hfrag := parseFragmentLoop_accounts n ⟨ts, err, raw⟩ [] "" hts
      have key : ∀ mk : String → List FetchDefinition → MemoryContent,
          Accounts ts.length
            ((parseFragmentReads n ⟨ts, err, raw⟩).add
              (match parseFragment n ⟨ts, err, raw⟩ with
              | .ok (f, deps, z2) => parseBodyReads n z2 (mk f deps)
              | _ => Reads.zero))
            (Outcome.rem (fun r => r.2.2)
              (match parseFragment n ⟨ts, err, raw⟩ with
              | .error e => .error e
              | .outOfFuel => .outOfFuel
              | .ok (f, deps, z2) => parseBodyLoop n z2 (mk f deps) buf)) 3 := by
        intro mk
        unfold parseFragment
        cases hf : parseFragmentLoop n ⟨ts, err, raw⟩ [] "" with
        | error e =>
          rw [hf] at hfrag
          exact Accounts.fail _ 2 3 _ hfrag (by omega)
        | outOfFuel =>
          rw [hf] at hfrag
          exact Accounts.fail _ 2 3 _ hfrag (by omega)
        | ok r =>
          obtain ⟨f, deps, z2⟩ := r
          rw [hf] at hfrag
          exact Accounts.seq _ 2 3 _ _ _ _ hfrag
            (ih _ _ _ (Nat.lt_of_le_of_lt (Accounts.le _ _ _ _ hfrag) hts))
            (parseBodyReads_end _ _ _) (Nat.le_refl _)
      rw [parseBodyLoop_cons, parseBodyReads_cons]
      apply Accounts.token
      by_cases hstart : t.tt = .StartTagToken ∨ t.tt = .SelfClosingTagToken
      · simp only [if_pos hstart]
        by_cases hskip : (skipSubtreeIfUiaRemove ⟨ts, err, raw⟩ t.tt t.tag t.attrs).1 = true
        · simp only [if_pos hskip]
          exact Accounts.seq _ 1 3 _ _ _ _
            (skipSubtreeIfUiaRemoveReads_accounts ⟨ts, err, raw⟩ t.tt t.tag t.attrs)
            (ih _ _ _ (Nat.lt_of_le_of_lt (skipSubtreeIfUiaRemove_length _ _ _ _) hts))
            (parseBodyReads_end _ _ _) (by omega)
        · simp only [if_neg hskip]
          by_cases hfr : t.tag = UiaFragment
          · simp only [if_pos hfr]
            exact key (fun f deps =>
              addDependencies { c with body := c.body.set (getFragmentName t.attrs) f } deps)
          · simp only [if_neg hfr]
            by_cases htl : t.tag = UiaTail
            · simp only [if_pos htl]
              exact key (fun f deps => addDependencies { c with tail := some f } deps)
            · simp only [if_neg htl]
              by_cases hinc : t.tag = UiaInclude
              · simp only [if_pos hinc]
                cases hg : getInclude t.raw t.attrs with
                | error e => exact Accounts.zero_none _ _
                | ok r => exact ih _ _ _ hts
              · simp only [if_neg hinc]
                exact ih _ _ _ hts
      · simp only [if_neg hstart]
        by_cases hend : t.tt = .EndTagToken ∧ t.tag = "body"
        · simp only [if_pos hend]
          exact Accounts.zero_some ts 3
        · simp only [if_neg hend]
          exact ih _ _ _ hts

theorem parseHeadReads_cons (fuel : Nat) (t : Token) (ts : List Token)
    (err : Option String) (errRaw : String) (c : MemoryContent) :
    parseHeadReads (fuel + 1) ⟨t :: ts, err, errRaw⟩ c =
      Reads.token
        (if t.tt = .StartTagToken ∨ t.tt = .SelfClosingTagToken then
          if (skipSubtreeIfUiaRemove ⟨ts, err, errRaw⟩ t.tt t.tag t.attrs).1 then
            (skipSubtreeIfUiaRemoveReads ⟨ts, err, errRaw⟩ t.tt t.tag t.attrs).add
              (parseHeadReads fuel
                (skipSubtreeIfUiaRemove ⟨ts, err, errRaw⟩ t.tt t.tag t.attrs).2 c)
          else if t.tag = "script" ∧ attrHasValue t.attrs "type" ScriptTypeMeta then
            (parseMetaJsonReads ⟨ts, err, errRaw⟩).add
              (match parseMetaJson ⟨ts, err, errRaw⟩ c with
              | .error _ => Reads.zero
              | .ok (c1, z2) => parseHeadReads fuel z2 c1)
          else parseHeadReads fuel ⟨ts, err, errRaw⟩ c
        else if t.tt = .EndTagToken ∧ t.tag = "head" then Reads.zero
        else parseHeadReads fuel ⟨ts, err, errRaw⟩ c) := rfl

theorem parseHeadReads_end (fuel : Nat) (z : Tokenizer) (c : MemoryContent)
    (h : z.toks = []) :
    (parseHeadReads fuel z c).loopEnds ≤ 1 ∧ (parseHeadReads fuel z c).metaEnds = 0 := by
  rcases z with ⟨toks, err, raw⟩
  simp only at h
  subst h
  cases fuel with
  | zero => simp [parseHeadReads, Reads.zero]
  | succ n => simp [parseHeadReads, Tokenizer.Next]

theorem parseHeadLoop_accounts (fuel : Nat) :
    ∀ (z : Tokenizer) (c : MemoryContent) (buf : String), z.toks.length < fuel →
      Accounts z.toks.length (parseHeadReads fuel z c)
        (Outcome.rem (fun r => r.2.2) (parseHeadLoop fuel z c buf)) 2 := by
  induction fuel with
  | zero => intro z c buf h; simp at h
  | succ n ih =>
    intro z c buf hlen
    rcases z with ⟨toks, err, raw⟩
    cases toks with
    | nil =>
      cases err with
      | none =>
        simp [Accounts, parseHeadLoop, parseHeadReads, Tokenizer.Next, Outcome.rem]
      | some e =>
        simp [Accounts, parseHeadLoop, parseHeadReads, Tokenizer.Next, Outcome.rem]
    | cons t ts =>
      have hts : ts.length < n := by simpa using hlen
      rw [parseHeadLoop_cons, parseHeadReads_cons]
      apply Accounts.token
      by_cases hstart : t.tt = .StartTagToken ∨ t.tt = .SelfClosingTagToken
      · simp only [if_pos hstart]
        by_cases hskip : (skipSubtreeIfUiaRemove ⟨ts, err, raw⟩ t.tt t.tag t.attrs).1 = true
        · simp only [if_pos hskip]
          exact Accounts.seq _ 1 2 _ _ _ _
            (skipSubtreeIfUiaRemoveReads_accounts ⟨ts, err, raw⟩ t.tt t.tag t.attrs)
            (ih _ _ _ (Nat.lt_of_le_of_lt (skipSubtreeIfUiaRemove_length _ _ _ _) hts))
            (parseHeadReads_end _ _ _) (Nat.le_refl _)
        · simp only [if_neg hskip]
          by_cases hmeta : t.tag = "script" ∧ attrHasValue t.attrs "type" ScriptTypeMeta = true
          · simp only [if_pos hmeta]
            have hm := parseMetaJsonReads_accounts ⟨ts, err, raw⟩ c
            cases hj : parseMetaJson ⟨ts, err, raw⟩ c with
            | error e =>
              rw [hj] at hm
              exact Accounts.fail _ 1 2 _ hm (by omega)
            | ok r =>
              obtain ⟨c1, z2⟩ := r
              rw [hj] at hm
              exact Accounts.seq _ 1 2 _ _ _ _ hm
                (ih _ _ _ (Nat.lt_of_le_of_lt (Accounts.le _ _ _ _ hm) hts))
                (parseHeadReads_end _ _ _) (Nat.le_refl _)
          · simp only [if_neg hmeta]
            exact ih _ _ _ hts
      · simp only [if_neg hstart]
        by_cases hend : t.tt = .EndTagToken ∧ t.tag = "head"
        · simp only [if_pos hend]
          exact Accounts.zero_some ts 2
        · simp only [if_neg hend]
          exact ih _ _ _ hts

theorem parseBody_accounts (fuel : Nat) (z : Tokenizer) (c : MemoryContent)
    (hlen : z.toks.length < fuel) :
    Accounts z.toks.length (parseBodyReads fuel z c)
      (Outcome.rem (fun r => r.2) (parseBody fuel z c)) 3 := by
  have h := parseBodyLoop_accounts fuel z c "" hlen
  unfold parseBody
  cases hl : parseBodyLoop fuel z c "" with
  | error e => rw [hl] at h; exact h
  | outOfFuel => rw [hl] at h; exact h
  | ok r =>
    obtain ⟨c1, s, z1⟩ := r
    rw [hl] at h
    simp only
    split
    · exact h
    · split
      · exact h
      · exact h

theorem parseHead_accounts (fuel : Nat) (z : Tokenizer) (c : MemoryContent)
    (hlen : z.toks.length < fuel) :
    Accounts z.toks.length (parseHeadReads fuel z c)
      (Outcome.rem (fun r => r.2) (parseHead fuel z c)) 2 := by
  have h := parseHeadLoop_accounts fuel z c "" hlen
  unfold parseHead
  cases hl : parseHeadLoop fuel z c "" with
  | error e => rw [hl] at h; exact h
  | outOfFuel => rw [hl] at h; exact h
  | ok r =>
    obtain ⟨c1, s, z1⟩ := r
    rw [hl] at h
    simp only
    split
    · exact h
    · exact h

theorem parseLoop_cons (fuel : Nat) (t : Token) (ts : List Token) (err : Option String)
    (errRaw : String) (c : MemoryContent) :
    parseLoop (fuel + 1) ⟨t :: ts, err, errRaw⟩ c =
      if t.tt = .StartTagToken then
        if t.tag = "head" then
          match parseHead fuel ⟨ts, err, errRaw⟩ c with
          | .error e => .error e
          | .outOfFuel => .outOfFuel
          | .ok (c1, z2) => parseLoop fuel z2 c1
        else if t.tag = "body" then
          match parseBody fuel ⟨ts, err, errRaw⟩ c with
          | .error e => .error e
          | .outOfFuel => .outOfFuel
          | .ok (c1, z2) => parseLoop fuel z2 c1
        else parseLoop fuel ⟨ts, err, errRaw⟩ c
      else parseLoop fuel ⟨ts, err, errRaw⟩ c := rfl

theorem parseLoopReads_cons (fuel : Nat) (t : Token) (ts : List Token) (err : Option String)
    (errRaw : String) (c : MemoryContent) :
    parseLoopReads (fuel + 1) ⟨t :: ts, err, errRaw⟩ c =
      Reads.token
        (if t.tt = .StartTagToken then
          if t.tag = "head" then
            (parseHeadReads fuel ⟨ts, err, errRaw⟩ c).add
              (match parseHead fuel ⟨ts, err, errRaw⟩ c with
              | .ok (c1, z2) => parseLoopReads fuel z2 c1
              | _ => Reads.zero)
          else if t.tag = "body" then
            (parseBodyReads fuel ⟨ts, err, errRaw⟩ c).add
              (match parseBody fuel ⟨ts, err, errRaw⟩ c with
              | .ok (c1, z2) => parseLoopReads fuel z2 c1
              | _ => Reads.zero)
          else parseLoopReads fuel ⟨ts, err, errRaw⟩ c
        else parseLoopReads fuel ⟨ts, err, errRaw⟩ c) := rfl

theorem parseLoopReads_end (fuel : Nat) (z : Tokenizer) (c : MemoryContent)
    (h : z.toks = []) :
    (parseLoopReads fuel z c).loopEnds ≤ 1 ∧ (parseLoopReads fuel z c).metaEnds = 0 := by
  rcases z with ⟨toks, err, raw⟩
  simp only at h
  subst h
  cases fuel with
  | zero => simp [parseLoopReads, Reads.zero]
  | succ n => simp [parseLoopReads, Tokenizer.Next]

theorem parseLoop_accounts (fuel : Nat) :
    ∀ (z : Tokenizer) (c : MemoryContent), z.toks.length < fuel →
      Accounts z.toks.length (parseLoopReads fuel z c)
        (Outcome.rem (fun _ => ⟨[], none, ""⟩) (parseLoop fuel z c)) 4 := by
  induction fuel with
  | zero => intro z c h; simp at h
  | succ n ih =>
    intro z c hlen
    rcases z with ⟨toks, err, raw⟩
    cases toks with
    | nil =>
      cases err with
      | none => simp [Accounts, parseLoop, parseLoopReads, Tokenizer.Next, Outcome.rem]
      | some e => simp [Accounts, parseLoop, parseLoopReads, Tokenizer.Next, Outcome.rem]
    | cons t ts =>
      have hts : ts.length < n := by simpa using hlen
      rw [parseLoop_cons, parseLoopReads_cons]
      apply Accounts.token
      by_cases hstart : t.tt = .StartTagToken
      · simp only [if_pos hstart]
        by_cases hhead : t.tag = "head"
        · simp only [if_pos hhead]
          have hh := parseHead_accounts n ⟨ts, err, raw⟩ c hts
          cases hp : parseHead n ⟨ts, err, raw⟩ c with
          | error e =>
            rw [hp] at hh
            exact Accounts.fail _ 2 4 _ hh (by omega)
          | outOfFuel =>
            rw [hp] at hh
            exact Accounts.fail _ 2 4 _ hh (by omega)
          | ok r =>
            obtain ⟨c1, z2⟩ := r
            rw [hp] at hh
            exact Accounts.seq _ 2 4 _ _ _ _ hh
              (ih _ _ (Nat.lt_of_le_of_lt (Accounts.le _ _ _ _ hh) hts))
              (parseLoopReads_end _ _ _) (by omega)
        · simp only [if_neg hhead]
          by_cases hbody : t.tag = "body"
          · simp only [if_pos hbody]
            have hb := parseBody_accounts n ⟨ts, err, raw⟩ c hts
            cases hp : parseBody n ⟨ts, err, raw⟩ c with
            | error e =>
              rw [hp] at hb
              exact Accounts.fail _ 3 4 _ hb (by omega)
            | outOfFuel =>
              rw [hp] at hb
              exact Accounts.fail _ 3 4 _ hb (by omega)
            | ok r =>
              obtain ⟨c1, z2⟩ := r
              rw [hp] at hb
              exact Accounts.seq _ 3 4 _ _ _ _ hb
                (ih _ _ (Nat.lt_of_le_of_lt (Accounts.le _ _ _ _ hb) hts))
                (parseLoopReads_end _ _ _) (by omega)
          · simp only [if_neg hbody]
            exact ih _ _ hts
      · simp only [if_neg hstart]
        exact ih _ _ hts

theorem Accounts.consumed (n K : Nat) (r : Reads) (l : List Token)
    (h : Accounts (n + 1) r (some l) K) (hpos : 1 ≤ r.tokens) : l.length ≤ n := by
  obtain ⟨_, _, _, a4, _, _⟩ := h
  omega

theorem skipSubtreeLoop_consumes (t : Token) (ts : List Token) (depth : Int) :
    (skipSubtreeLoop (t :: ts) depth).length ≤ ts.length := by
  simp only [skipSubtreeLoop]
  split
  · exact skipSubtreeLoop_length _ _
  · split
    · split
      · exact Nat.le_refl _
      · exact skipSubtreeLoop_length _ _
    · exact skipSubtreeLoop_length _ _

theorem parseFragmentLoop_consumes (fuel : Nat) (t : Token) (ts : List Token)
    (err : Option String) (errRaw : String) (deps : List FetchDefinition) (buf f : String)
    (d : List FetchDefinition) (z2 : Tokenizer) (hlen : ts.length < fuel)
    (h : parseFragmentLoop (fuel + 1) ⟨t :: ts, err, errRaw⟩ deps buf = .ok (f, d, z2)) :
    z2.toks.length ≤ ts.length := by
  have acc := parseFragmentLoop_accounts (fuel + 1) ⟨t :: ts, err, errRaw⟩ deps buf
    (by simp only [List.length_cons]; omega)
  rw [h] at acc
  exact Accounts.consumed _ _ _ _ acc (by rw [parseFragmentReads_cons]; simp [Reads.token])

theorem parseBodyLoop_consumes (fuel : Nat) (t : Token) (ts : List Token)
    (err : Option String) (errRaw : String) (c : MemoryContent) (buf : String)
    (c1 : MemoryContent) (s : String) (z2 : Tokenizer) (hlen : ts.length < fuel)
    (h : parseBodyLoop (fuel + 1) ⟨t :: ts, err, errRaw⟩ c buf = .ok (c1, s, z2)) :
    z2.toks.length ≤ ts.length := by
  have acc := parseBodyLoop_accounts (fuel + 1) ⟨t :: ts, err, errRaw⟩ c buf
    (by simp only [List.length_cons]; omega)
  rw [h] at acc
  exact Accounts.consumed _ _ _ _ acc (by rw [parseBodyReads_cons]; simp [Reads.token])

theorem parseHeadLoop_consumes (fuel : Nat) (t : Token) (ts : List Token)
    (err : Option String) (errRaw : String) (c : MemoryContent) (buf : String)
    (c1 : MemoryContent) (s : String) (z2 : Tokenizer) (hlen : ts.length < fuel)
    (h : parseHeadLoop (fuel + 1) ⟨t :: ts, err, errRaw⟩ c buf = .ok (c1, s, z2)) :
    z2.toks.length ≤ ts.length := by
  have acc := parseHeadLoop_accounts (fuel + 1) ⟨t :: ts, err, errRaw⟩ c buf
    (by simp only [List.length_cons]; omega)
  rw [h] at acc
  exact Accounts.consumed _ _ _ _ acc (by rw [parseHeadReads_cons]; simp [Reads.token])

/-- C23 (counterexample): on `<head><script type="text/uia-meta">`, a stream of two tokens,
`z.Next()` is called three times: by the loop of `parse`, by the loop of `parseHead` and by
`parseMetaJson`, which meets the end of the stream and returns an error.  No loop has read
the end, so three reads exceed the length of the stream plus the number of loops that
observed its end. -/
theorem meta_script_reads_the_end :
    exMetaOpen.length = 2 ∧
    parseReads ⟨exMetaOpen, none, ""⟩ = ⟨2, 0, 1⟩ ∧
    (parseReads ⟨exMetaOpen, none, ""⟩).total = 3 ∧
    ¬ ((parseReads ⟨exMetaOpen, none, ""⟩).total
        ≤ exMetaOpen.length + (parseReads ⟨exMetaOpen, none, ""⟩).loopEnds) ∧
    parse ⟨exMetaOpen, none, ""⟩
      = .error (.errorf "expected text node for meta json, but found Error, ()" none) := by
  decide

/-- C23 (amended): `parse` terminates on every finite token stream, with an error or a
content.  The calls of `z.Next()` it makes are bounded by the length of the stream plus the
calls that met its end: every token of the stream is returned by at most one call (by
exactly one when `parse` returns a content), at most four calls meet the end (the nested
loops of `parse`, `parseBody`, `parseFragment` and `skipSubtreeIfUiaRemove`, as for
`<body><uia-fragment><div uia-remove>`), at most one of them is made by `parseMetaJson`, and
then no loop meets the end.  Every loop returns when it reads the error token, and a loop
that reads a token goes on or returns with fewer tokens left. -/
theorem parse_terminates_reads_bounded (z : Tokenizer) :
    ((∃ e, parse z = .error e) ∨ (∃ c, parse z = .ok c)) ∧
    (parseReads z).tokens ≤ z.toks.length ∧
    (parseReads z).total
      ≤ z.toks.length + ((parseReads z).loopEnds + (parseReads z).metaEnds) ∧
    (parseReads z).loopEnds + (parseReads z).metaEnds ≤ 4 ∧
    (parseReads z).metaEnds ≤ 1 ∧
    ((parseReads z).metaEnds = 1 → (parseReads z).loopEnds = 0) ∧
    (∀ c, parse z = .ok c →
      (parseReads z).tokens = z.toks.length ∧ (parseReads z).metaEnds = 0) ∧
    (∀ (fuel : Nat) (err : Option String) (errRaw : String) (c : MemoryContent)
      (deps : List FetchDefinition) (buf : String) (depth : Int),
      skipSubtreeLoop [] depth = [] ∧
      parseFragmentLoop (fuel + 1) ⟨[], err, errRaw⟩ deps buf
        = (match err with
          | some e => .error (.tokenizer e)
          | none => .ok (buf, deps, ⟨[], err, errRaw⟩)) ∧
      parseBodyLoop (fuel + 1) ⟨[], err, errRaw⟩ c buf
        = (match err with
          | some e => .error (.tokenizer e)
          | none => .ok (c, buf, ⟨[], err, errRaw⟩)) ∧
      parseHeadLoop (fuel + 1) ⟨[], err, errRaw⟩ c buf
        = (match err with
          | some e => .error (.tokenizer e)
          | none => .ok (c, buf, ⟨[], err, errRaw⟩)) ∧
      parseLoop (fuel + 1) ⟨[], err, errRaw⟩ c
        = (match err with
          | some e => .error (.tokenizer e)
          | none => .ok c)) ∧
    (∀ (fuel : Nat) (t : Token) (ts : List Token) (err : Option String) (errRaw : String)
      (c c1 : MemoryContent) (deps d : List FetchDefinition) (buf f s : String)
      (z2 : Tokenizer) (depth : Int), ts.length < fuel →
      (skipSubtreeLoop (t :: ts) depth).length ≤ ts.length ∧
      (parseFragmentLoop (fuel + 1) ⟨t :: ts, err, errRaw⟩ deps buf = .ok (f, d, z2) →
        z2.toks.length ≤ ts.length) ∧
      (parseBodyLoop (fuel + 1) ⟨t :: ts, err, errRaw⟩ c buf = .ok (c1, s, z2) →
        z2.toks.length ≤ ts.length) ∧
      (parseHeadLoop (fuel + 1) ⟨t :: ts, err, errRaw⟩ c buf = .ok (c1, s, z2) →
        z2.toks.length ≤ ts.length)) ∧
    parseReads ⟨exDeepOpen, none, ""⟩ = ⟨3, 4, 0⟩ := by
  have acc := parseLoop_accounts (z.toks.length + 1) z NewMemoryContent (Nat.lt_succ_self _)
  obtain ⟨a1, a2, a3, a4⟩ := acc
  have htok : (parseReads z).tokens ≤ z.toks.length := by
    unfold parseReads
    cases hp : parseLoop (z.toks.length + 1) z NewMemoryContent with
    | ok c =>
      rw [hp] at a4
      simp only [Outcome.rem, List.length_nil, Nat.add_zero] at a4
      omega
    | error e =>
      rw [hp] at a4
      exact a4
    | outOfFuel =>
      rw [hp] at a4
      exact a4
  refine ⟨parse_enough_fuel z, htok, ?_, a1, a2, a3, ?_, ?_, ?_, by decide⟩
  · simp only [Reads.total]
    omega
  · intro c hc
    unfold parse at hc
    rw [hc] at a4
    simp only [Outcome.rem, List.length_nil, Nat.add_zero] at a4
    exact ⟨a4.1, a4.2.1⟩
  · intro fuel err errRaw c deps buf depth
    refine ⟨rfl, ?_, ?_, ?_, ?_⟩ <;> cases err <;> rfl
  · intro fuel t ts err errRaw c c1 deps d buf f s z2 depth hlen
    exact ⟨skipSubtreeLoop_consumes t ts depth,
      parseFragmentLoop_consumes fuel t ts err errRaw deps buf f d z2 hlen,
      parseBodyLoop_consumes fuel t ts err errRaw c buf c1 s z2 hlen,
      parseHeadLoop_consumes fuel t ts err errRaw c buf c1 s z2 hlen⟩

/-- Witness of the amended C23 on the document of the includes, which `parse` reads to its
end with ten calls of `z.Next()`, and on the stream that ends inside a removed element of
a fragment, where four loops read the end. -/
theorem parse_terminates_reads_bounded_witness :
    ((∃ e, parse ⟨exIncludesDoc, none, ""⟩ = .error e) ∨
      (∃ c, parse ⟨exIncludesDoc, none, ""⟩ = .ok c)) ∧
    parseReads ⟨exIncludesDoc, none, ""⟩ = ⟨9, 1, 0⟩ ∧
    parse ⟨exIncludesDoc, none, ""⟩ = .ok exIncludesContent ∧
    parseReads ⟨exDeepOpen, some "unexpected EOF", ""⟩ = ⟨3, 2, 0⟩ :=
  ⟨(parse_terminates_reads_bounded ⟨exIncludesDoc, none, ""⟩).1, by decide, by decide,
    by decide⟩

/-! ## A template before an unterminated marker -/

theorem Run.after_after (es1 es2 : List Event) (r : Run) :
    (r.after es2).after es1 = r.after (es1 ++ es2) := by
  simp [Run.after, List.append_assoc]

theorem isPrefixOf_append_right (pat A B : List Char) (h : pat.isPrefixOf A = true) :
    pat.isPrefixOf (A ++ B) = true := by
  rw [List.isPrefixOf_iff_prefix] at h ⊢
  exact h.trans (List.prefix_append A B)

theorem isPrefixOf_length_le (pat A : List Char) (h : pat.isPrefixOf A = true) :
    pat.length ≤ A.length := by
  rw [List.isPrefixOf_iff_prefix] at h
  exact h.length_le

theorem isPrefixOf_append_of_le (pat A B : List Char) (h : pat.length ≤ A.length) :
    pat.isPrefixOf (A ++ B) = pat.isPrefixOf A := by
  by_cases hA : pat.isPrefixOf A = true
  · rw [hA, isPrefixOf_append_right pat A B hA]
  · have hB : ¬ pat.isPrefixOf (A ++ B) = true := by
      intro hh
      rw [List.isPrefixOf_iff_prefix] at hh
      apply hA
      rw [List.isPrefixOf_iff_prefix]
      exact List.prefix_of_prefix_length_le hh (List.prefix_append A B) h
    simp only [Bool.not_eq_true] at hA hB
    rw [hA, hB]

theorem occursIn_append_right (pat A B : List Char) (h : occursIn pat A = true) :
    occursIn pat (A ++ B) = true := by
  induction A with
  | nil =>
    have hp : pat = [] := by simpa [occursIn] using h
    subst hp
    cases B with
    | nil => rfl
    | cons b bs => simp [occursIn, List.isPrefixOf]
  | cons a as ih =>
    simp only [occursIn, Bool.or_eq_true] at h
    rw [List.cons_append]
    simp only [occursIn, Bool.or_eq_true]
    rcases h with h | h
    · left
      have := isPrefixOf_append_right pat (a :: as) B h
      simpa using this
    · right
      exact ih h

theorem exec_skipAlt_cons (data : Option (List (String × Value)))
    (resolve : String → Res String String) (pat : List Char) (c : Char) (rest : List Char) :
    exec data resolve 0 (.skipAlt pat) (c :: rest)
      = if pat.isPrefixOf (c :: rest) then exec data resolve (pat.length - 1) .text rest
        else exec data resolve 0 (.skipAlt pat) rest := by
  rw [exec]

theorem exec_emitAlt_cons (data : Option (List (String × Value)))
    (resolve : String → Res String String) (pat : List Char) (c : Char) (rest : List Char) :
    exec data resolve 0 (.emitAlt pat) (c :: rest)
      = if pat.isPrefixOf (c :: rest) then exec data resolve (pat.length - 1) .text rest
        else (exec data resolve 0 (.emitAlt pat) rest).after [.write c] := by
  rw [exec]

theorem exec_nil_err (data : Option (List (String × Value)))
    (resolve : String → Res String String) (skip : Nat) (mode : Mode)
    (h : (exec data resolve skip mode []).err = none) : mode = .text := by
  cases mode with
  | text => rfl
  | marker body => cases skip <;> simp [exec] at h
  | skipAlt pat => cases skip <;> simp [exec] at h
  | emitAlt pat => cases skip <;> simp [exec] at h

theorem exec_nil_text (data : Option (List (String × Value)))
    (resolve : String → Res String String) (skip : Nat) :
    exec data resolve skip .text [] = ⟨[], none⟩ := by
  cases skip <;> simp [exec]

theorem exec_skipAlt_length (data : Option (List (String × Value)))
    (resolve : String → Res String String) (pat : List Char) (A : List Char)
    (h : (exec data resolve 0 (.skipAlt pat) A).err = none) : pat.length ≤ A.length := by
  induction A with
  | nil => simp [exec] at h
  | cons a as ih =>
    rw [exec_skipAlt_cons] at h
    by_cases hp : pat.isPrefixOf (a :: as) = true
    · exact isPrefixOf_length_le _ _ hp
    · rw [if_neg hp] at h
      exact Nat.le_succ_of_le (ih h)

theorem exec_emitAlt_length (data : Option (List (String × Value)))
    (resolve : String → Res String String) (pat : List Char) (A : List Char)
    (h : (exec data resolve 0 (.emitAlt pat) A).err = none) : pat.length ≤ A.length := by
  induction A with
  | nil => simp [exec] at h
  | cons a as ih =>
    rw [exec_emitAlt_cons] at h
    by_cases hp : pat.isPrefixOf (a :: as) = true
    · exact isPrefixOf_length_le _ _ hp
    · rw [if_neg hp] at h
      exact Nat.le_succ_of_le (ih h)

theorem marker_shape (b : List Char) :
    (∃ name, b = '>' :: name) ∨ (∃ name, b = '#' :: '>' :: name) ∨ (∃ x, b = '/' :: x) ∨
    (b.head? ≠ some '>' ∧ (∀ name, b ≠ '#' :: '>' :: name) ∧ b.head? ≠ some '/') := by
  cases b with
  | nil => right; right; right; simp
  | cons c cs =>
    by_cases h1 : c = '>'
    · left; exact ⟨cs, by rw [h1]⟩
    · by_cases h3 : c = '/'
      · right; right; left; exact ⟨cs, by rw [h3]⟩
      · by_cases h2 : ∃ name, c :: cs = '#' :: '>' :: name
        · right; left; exact h2
        · right; right; right
          refine ⟨by simpa using h1, fun name hn => h2 ⟨name, hn⟩, by simpa using h3⟩

theorem exec_marker_close_terminator (data : Option (List (String × Value)))
    (resolve : String → Res String String) (body x rest : List Char)
    (h : trimWs body = '/' :: x) :
    exec data resolve 0 (.marker body) (']' :: '§' :: rest)
      = exec data resolve 0 .text rest := by
  have hp : endSep.isPrefixOf (']' :: '§' :: rest) = true := by
    rw [endSep_isPrefixOf]; rfl
  rw [exec]
  simp only [hp, if_true, h, exec_skip_cons]

theorem exec_marker_close_other (data : Option (List (String × Value)))
    (resolve : String → Res String String) (body rest : List Char)
    (h1 : (trimWs body).head? ≠ some '>') (h2 : ∀ name, trimWs body ≠ '#' :: '>' :: name)
    (h3 : (trimWs body).head? ≠ some '/') :
    exec data resolve 0 (.marker body) (']' :: '§' :: rest)
      = (exec data resolve 0 .text rest).after
          (writes (resolveVariable data (String.mk (trimWs body))).data) := by
  have hp : endSep.isPrefixOf (']' :: '§' :: rest) = true := by
    rw [endSep_isPrefixOf]; rfl
  rw [exec]
  simp only [hp, if_true, exec_skip_cons]
  split
  · rename_i name hn
    rw [hn] at h1
    simp at h1
  · rename_i name hn
    exact absurd hn (h2 name)
  · rename_i x hn
    rw [hn] at h3
    simp at h3
  · rfl

theorem exec_append (data : Option (List (String × Value)))
    (resolve : String → Res String String) (m : List Char) :
    ∀ (T : List Char) (skip : Nat) (mode : Mode), skip ≤ T.length →
      (exec data resolve skip mode T).err = none →
      exec data resolve skip mode (T ++ '§' :: m)
        = (exec data resolve 0 .text ('§' :: m)).after
            (exec data resolve skip mode T).events := by
  intro T
  induction T with
  | nil =>
    intro skip mode hs herr
    have hm := exec_nil_err data resolve skip mode herr
    subst hm
    have h0 : skip = 0 := by simpa using hs
    subst h0
    rw [exec_nil_text]
    simp [Run.after]
  | cons c rest ih =>
    intro skip mode hs herr
    cases skip with
    | succ k =>
      simp only [List.cons_append, exec_skip_cons] at herr ⊢
      exact ih k mode (by simpa using hs) herr
    | zero =>
      cases mode with
      | text =>
        by_cases hsp : startSep.isPrefixOf (c :: rest) = true
        · have hsp2 : startSep.isPrefixOf (c :: (rest ++ '§' :: m)) = true :=
            isPrefixOf_append_right startSep (c :: rest) ('§' :: m) hsp
          have hne : 1 ≤ rest.length := by
            have := isPrefixOf_length_le _ _ hsp
            simpa [startSep] using this
          rw [exec_text_cons, if_pos hsp] at herr
          rw [List.cons_append, exec_text_cons, if_pos hsp2, exec_text_cons, if_pos hsp]
          exact ih 1 (.marker []) hne herr
        · have hsp2 : ¬ startSep.isPrefixOf (c :: (rest ++ '§' :: m)) = true := by
            rw [startSep_isPrefixOf] at hsp ⊢
            cases rest with
            | nil => simp
            | cons d r => simpa using hsp
          rw [exec_text_cons, if_neg hsp] at herr
          rw [List.cons_append, exec_text_cons, if_neg hsp2, exec_text_cons, if_neg hsp,
            ih 0 .text (Nat.zero_le _) herr, Run.after_after]
          rfl
      | marker body =>
        cases rest with
        | nil =>
          exfalso
          have hno : endSep.isPrefixOf [c] = false := by
            rw [endSep_isPrefixOf]; simp
          rw [exec_marker_cons_open _ _ _ _ _ hno] at herr
          simp [exec] at herr
        | cons d r =>
          by_cases hcl : endSep.isPrefixOf (c :: d :: r) = true
          · have hcd : c = ']' ∧ d = '§' := by
              rw [endSep_isPrefixOf] at hcl
              simpa using hcl
            obtain ⟨hc, hd⟩ := hcd
            subst hc
            subst hd
            have ihr : ∀ mode : Mode, (exec data resolve 0 mode r).err = none →
                exec data resolve 0 mode (r ++ '§' :: m)
                  = (exec data resolve 0 .text ('§' :: m)).after
                      (exec data resolve 0 mode r).events := by
              intro mode h
              have := ih 1 mode (by simp) (by rw [exec_skip_cons]; exact h)
              simpa only [List.cons_append, exec_skip_cons] using this
            simp only [List.cons_append]
            rcases marker_shape (trimWs body) with ⟨name, hn⟩ | ⟨name, hn⟩ | ⟨x, hx⟩ |
              ⟨h1, h2, h3⟩
            · rw [exec_marker_close_include _ _ body name r hn] at herr ⊢
              rw [exec_marker_close_include _ _ body name (r ++ '§' :: m) hn]
              cases hres : resolve (String.mk (trimWs name)) with
              | error e => rw [hres] at herr; simp at herr
              | ok o =>
                rw [hres] at herr
                simp only [hres]
                rw [ihr .text herr, Run.after_after]
                rfl
            · rw [exec_marker_close_optional _ _ body name r hn] at herr ⊢
              rw [exec_marker_close_optional _ _ body name (r ++ '§' :: m) hn]
              by_cases hocc : occursIn (startSep ++ '/' :: trimWs name ++ endSep) r = true
              · have hocc2 := occursIn_append_right _ r ('§' :: m) hocc
                rw [if_pos hocc] at herr
                simp only [hocc, hocc2, if_true]
                cases hres : resolve (String.mk (trimWs name)) with
                | error e =>
                  rw [hres] at herr
                  simp only [hres]
                  rw [ihr _ herr, Run.after_after]
                  rfl
                | ok o =>
                  rw [hres] at herr
                  simp only [hres]
                  rw [ihr _ herr, Run.after_after]
                  rfl
              · rw [if_neg hocc] at herr
                simp at herr
            · rw [exec_marker_close_terminator _ _ body x r hx] at herr ⊢
              rw [exec_marker_close_terminator _ _ body x (r ++ '§' :: m) hx]
              exact ihr .text herr
            · rw [exec_marker_close_other _ _ body r h1 h2 h3] at herr ⊢
              rw [exec_marker_close_other _ _ body (r ++ '§' :: m) h1 h2 h3,
                ihr .text herr, Run.after_after]
              rfl
          · have hcl2 : endSep.isPrefixOf (c :: d :: (r ++ '§' :: m)) = false := by
              rw [endSep_isPrefixOf] at hcl ⊢
              simpa using hcl
            have hcl1 : endSep.isPrefixOf (c :: d :: r) = false := Bool.eq_false_iff.2 hcl
            rw [exec_marker_cons_open _ _ _ _ _ hcl1] at herr
            rw [List.cons_append, List.cons_append, exec_marker_cons_open _ _ _ _ _ hcl2,
              exec_marker_cons_open _ _ _ _ _ hcl1]
            exact ih 0 (.marker (body ++ [c])) (Nat.zero_le _) herr
      | skipAlt pat =>
        by_cases hp : pat.isPrefixOf (c :: rest) = true
        · have hp2 : pat.isPrefixOf (c :: (rest ++ '§' :: m)) = true :=
            isPrefixOf_append_right pat (c :: rest) ('§' :: m) hp
          have hlen : pat.length - 1 ≤ rest.length := by
            have := isPrefixOf_length_le _ _ hp
            simp only [List.length_cons] at this
            omega
          rw [exec_skipAlt_cons, if_pos hp] at herr
          rw [List.cons_append, exec_skipAlt_cons, if_pos hp2, exec_skipAlt_cons, if_pos hp]
          exact ih _ .text hlen herr
        · rw [exec_skipAlt_cons, if_neg hp] at herr
          have hlen := exec_skipAlt_length data resolve pat rest herr
          have hp2 : ¬ pat.isPrefixOf (c :: (rest ++ '§' :: m)) = true := by
            have := isPrefixOf_append_of_le pat (c :: rest) ('§' :: m)
              (by simp only [List.length_cons]; omega)
            rw [List.cons_append] at this
            rw [this]
            exact hp
          rw [List.cons_append, exec_skipAlt_cons, if_neg hp2, exec_skipAlt_cons, if_neg hp]
          exact ih 0 (.skipAlt pat) (Nat.zero_le _) herr
      | emitAlt pat =>
        by_cases hp : pat.isPrefixOf (c :: rest) = true
        · have hp2 : pat.isPrefixOf (c :: (rest ++ '§' :: m)) = true :=
            isPrefixOf_append_right pat (c :: rest) ('§' :: m) hp
          have hlen : pat.length - 1 ≤ rest.length := by
            have := isPrefixOf_length_le _ _ hp
            simp only [List.length_cons] at this
            omega
          rw [exec_emitAlt_cons, if_pos hp] at herr
          rw [List.cons_append, exec_emitAlt_cons, if_pos hp2, exec_emitAlt_cons, if_pos hp]
          exact ih _ .text hlen herr
        · rw [exec_emitAlt_cons, if_neg hp] at herr
          have hlen := exec_emitAlt_length data resolve pat rest herr
          have hp2 : ¬ pat.isPrefixOf (c :: (rest ++ '§' :: m)) = true := by
            have := isPrefixOf_append_of_le pat (c :: rest) ('§' :: m)
              (by simp only [List.length_cons]; omega)
            rw [List.cons_append] at this
            rw [this]
            exact hp
          rw [List.cons_append, exec_emitAlt_cons, if_neg hp2, exec_emitAlt_cons, if_neg hp,
            ih 0 (.emitAlt pat) (Nat.zero_le _) herr, Run.after_after]
          rfl

/-- C16, amended: for every template T + `§[` + R in which no closing delimiter follows the
opening one (R holds no `]§`; T may hold a stray `]§`) and whose part T before the opening
delimiter is rendered without error, executeTemplate does what it does for T and then
returns the error `Fragment parsing error, missing ending separator: ` followed by R; in
particular it writes T when T holds no marker.  For every template U that holds no `§[` at
all, also one with a stray `]§`, it writes U unchanged and returns no error. -/
theorem unterminated_marker (data : Option (List (String × Value)))
    (resolve : String → Res String String) (T R U : String)
    (hT : (executeTemplate T data resolve).err = none)
    (hR : occursIn endSep R.data = false)
    (hU : occursIn startSep U.data = false) :
    executeTemplate (T ++ "§[" ++ R) data resolve
      = ⟨(executeTemplate T data resolve).events,
          some ("Fragment parsing error, missing ending separator: " ++ R)⟩ ∧
    (occursIn startSep T.data = false →
      executeTemplate (T ++ "§[" ++ R) data resolve
        = ⟨writes T.data, some ("Fragment parsing error, missing ending separator: " ++ R)⟩) ∧
    executeTemplate U data resolve = ⟨writes U.data, none⟩ ∧
    (executeTemplate U data resolve).output = U := by
  have hdata : (T ++ "§[" ++ R).data = T.data ++ '§' :: ('[' :: R.data) := by
    simp [String.data_append]
  have hplain : executeTemplate U data resolve = ⟨writes U.data, none⟩ :=
    exec_text_plain data resolve U.data hU
  have hmain : executeTemplate (T ++ "§[" ++ R) data resolve
      = ⟨(executeTemplate T data resolve).events,
          some ("Fragment parsing error, missing ending separator: " ++ R)⟩ := by
    unfold executeTemplate at hT ⊢
    rw [hdata, exec_append data resolve ('[' :: R.data) T.data 0 .text (Nat.zero_le _) hT,
      exec_open, exec_marker_unterminated data resolve R.data [] hR]
    simp [Run.after]
  refine ⟨hmain, ?_, hplain, ?_⟩
  · intro hP
    rw [hmain]
    have : executeTemplate T data resolve = ⟨writes T.data, none⟩ :=
      exec_text_plain data resolve T.data hP
    rw [this]
  · rw [hplain, Run.output_writes]

/-- Witness of C16: behind the include of the fragment `foo`, which exists, the unterminated
marker gives the error after `a`, the fragment and `b` have been written; `xxx-]§§[-yyy` has
a closing delimiter only before the opening one, `xxx-]§-yyy` has no opening delimiter. -/
theorem unterminated_marker_witness :
    executeTemplate ("a§[> foo]§b" ++ "§[" ++ "c") none exResolve
      = ⟨(executeTemplate "a§[> foo]§b" none exResolve).events,
          some ("Fragment parsing error, missing ending separator: " ++ "c")⟩ ∧
    (executeTemplate "a§[> foo]§b" none exResolve).output = "abarb" ∧
    executeTemplate "xxx-]§§[-yyy" none exResolve
      = ⟨writes "xxx-]§".data,
          some "Fragment parsing error, missing ending separator: -yyy"⟩ ∧
    (executeTemplate "§[foo]§§[bar" (some [("foo", .str "v")]) exResolve).err
      = some "Fragment parsing error, missing ending separator: bar" ∧
    executeTemplate "xxx-]§-yyy" none exResolve = ⟨writes "xxx-]§-yyy".data, none⟩ :=
  ⟨(unterminated_marker none exResolve "a§[> foo]§b" "c" "xxx-]§-yyy" (by decide) (by decide)
      (by decide)).1,
   by decide, by decide, by decide, by decide⟩

end LibCompose
